import Mathlib

/-!
# Keymap engine of the NetHack 4 curses client (`nethack/src/keymap.c`)

A shallow embedding of the key binding table, its persistence format and the
front part of the input resolution loop, and of the colour keys of the tile
text format (`tilesets/src/tiletext.c`), followed by theorems about them.

Conventions of the embedding.

* C strings are `List Char` without the terminating NUL.
* A `struct nh_cmd_desc *` is a `cmd_ptr`: an index into one of the three
  descriptor arrays (`commandlist`, `builtin_commands`, `unknown_commands`);
  `NULL` is `none`.
* The arrays `keymap` and `unknown_keymap` are functions from the key code;
  only the indices `0 .. KEY_MAX` exist in the C arrays.
* The constants that come from headers which are not part of the sources at
  hand (`nhcurses.h`, `nethack_types.h`, the curses key codes) are the fields
  of `Env`.
-/

namespace Keymap

/-! ## Constants from the missing headers -/

/-- The key codes, flag bits, direction codes and sizes that `keymap.c` takes
from its headers. -/
structure Env where
  KEY_MAX : Nat
  KEY_ALT : Nat
  KEY_UP : Nat
  KEY_DOWN : Nat
  KEY_LEFT : Nat
  KEY_RIGHT : Nat
  KEY_A1 : Nat
  KEY_A2 : Nat
  KEY_A3 : Nat
  KEY_B1 : Nat
  KEY_B2 : Nat
  KEY_B3 : Nat
  KEY_C1 : Nat
  KEY_C2 : Nat
  KEY_C3 : Nat
  KEY_D1 : Nat
  KEY_HOME : Nat
  KEY_PPAGE : Nat
  KEY_END : Nat
  KEY_NPAGE : Nat
  KEY_BACKSPACE : Nat
  KEY_ESCAPE : Nat
  KEY_SIGNAL : Nat
  CMD_ARG_DIR : Nat
  CMD_ARG_LIMIT : Nat
  CMD_EXT : Nat
  CMD_MOVE : Nat
  CMD_NOTIME : Nat
  CMD_DEBUG : Nat
  CMD_INTERNAL : Nat
  CMD_UI : Nat
  DIR_W : Nat
  DIR_NW : Nat
  DIR_N : Nat
  DIR_NE : Nat
  DIR_E : Nat
  DIR_SE : Nat
  DIR_S : Nat
  DIR_SW : Nat
  DIR_UP : Nat
  DIR_DOWN : Nat
  DIR_SELF : Nat
  /-- The value of `sizeof (cmd->name)`. -/
  NAMESZ : Nat
  /-- The size of the line buffers (`BUFSZ`). -/
  BUFSZ : Nat
  /-- The width of the C type `long` (`int` is taken to be 32 bits wide). -/
  LONG_BIT : Nat

/-- `Ctrl(c)` is `0x1f & c`. -/
def Ctrl (c : Char) : Nat := 0x1f &&& c.toNat

def DIRCMD : Nat := 2 ^ 29
def DIRCMD_SHIFT : Nat := 2 ^ 30
def DIRCMD_CTRL : Nat := 2 ^ 31

/-- The enumerators of `enum internal_commands`, counted from `DIR_SELF + 1`. -/
def UICMD_OPTIONS (E : Env) : Nat := E.DIR_SELF + 1
def UICMD_EXTCMD (E : Env) : Nat := E.DIR_SELF + 2
def UICMD_HELP (E : Env) : Nat := E.DIR_SELF + 3
def UICMD_MAINMENU (E : Env) : Nat := E.DIR_SELF + 4
def UICMD_DETACH (E : Env) : Nat := E.DIR_SELF + 5
def UICMD_STOP (E : Env) : Nat := E.DIR_SELF + 6
def UICMD_PREVMSG (E : Env) : Nat := E.DIR_SELF + 7
def UICMD_WHATDOES (E : Env) : Nat := E.DIR_SELF + 8
def UICMD_TOGGLEPICKUP (E : Env) : Nat := E.DIR_SELF + 9
def UICMD_REPEATCOUNT (E : Env) : Nat := E.DIR_SELF + 10
def UICMD_NOTHING (E : Env) : Nat := E.DIR_SELF + 11
def UICMD_SERVERCANCEL (E : Env) : Nat := E.DIR_SELF + 12

/-! ## Data model -/

/-- The C `struct nh_cmd_desc`. Its declaration is in a header that is not part
of the sources at hand. `keymap.c` stores character constants and `Ctrl(c)` in
the fields `defkey` and `altkey`, indexes `keymap` by them without a range test
and treats `128 .. 255` as their top range; the fields are numbers here, and
the theorems in which their width matters assume `byte_keys`. -/
structure nh_cmd_desc where
  name : List Char
  desc : List Char
  defkey : Nat
  altkey : Nat
  flags : Nat
deriving DecidableEq, Repr

/-- A non-null `struct nh_cmd_desc *`. -/
inductive cmd_ptr where
  | dyn (i : Nat)
  | builtin (i : Nat)
  | unknown (i : Nat)
deriving DecidableEq, Repr

/-- Shorthand used by the command table below. -/
def mkcmd (name desc : String) (defkey altkey flags : Nat) : nh_cmd_desc :=
  { name := name.toList, desc := desc.toList, defkey := defkey, altkey := altkey,
    flags := flags }

/-- The table `builtin_commands[]`. -/
def builtin_commands (E : Env) : List nh_cmd_desc :=
  [ mkcmd "east" "move, fight or interact to the east" 'l'.toNat 0
      (E.CMD_UI ||| DIRCMD ||| E.DIR_E),
    mkcmd "north" "move, fight or interact to the north" 'k'.toNat 0
      (E.CMD_UI ||| DIRCMD ||| E.DIR_N),
    mkcmd "north_east" "move, fight or interact to the northeast" 'u'.toNat 0
      (E.CMD_UI ||| DIRCMD ||| E.DIR_NE),
    mkcmd "north_west" "move, fight or interact to the northwest" 'y'.toNat 0
      (E.CMD_UI ||| DIRCMD ||| E.DIR_NW),
    mkcmd "south" "move, fight or interact to the south" 'j'.toNat 0
      (E.CMD_UI ||| DIRCMD ||| E.DIR_S),
    mkcmd "south_east" "move, fight or interact to the southeast" 'n'.toNat 0
      (E.CMD_UI ||| DIRCMD ||| E.DIR_SE),
    mkcmd "south_west" "move, fight or interact to the southwest" 'b'.toNat 0
      (E.CMD_UI ||| DIRCMD ||| E.DIR_SW),
    mkcmd "west" "move, fight or interact to the west" 'h'.toNat 0
      (E.CMD_UI ||| DIRCMD ||| E.DIR_W),
    mkcmd "up" "climb stairs or ladders" '<'.toNat 0
      (E.CMD_UI ||| DIRCMD ||| E.DIR_UP),
    mkcmd "down" "go down stairs or ladders or jump into holes" '>'.toNat 0
      (E.CMD_UI ||| DIRCMD ||| E.DIR_DOWN),
    mkcmd "run_east" "go east until you run into something" 'L'.toNat 0
      (E.CMD_UI ||| DIRCMD_SHIFT ||| E.DIR_E),
    mkcmd "run_north" "go north until you run into something" 'K'.toNat 0
      (E.CMD_UI ||| DIRCMD_SHIFT ||| E.DIR_N),
    mkcmd "run_north_east" "go northeast until you run into something" 'U'.toNat 0
      (E.CMD_UI ||| DIRCMD_SHIFT ||| E.DIR_NE),
    mkcmd "run_north_west" "go northwest until you run into something" 'Y'.toNat 0
      (E.CMD_UI ||| DIRCMD_SHIFT ||| E.DIR_NW),
    mkcmd "run_south" "go south until you run into something" 'J'.toNat 0
      (E.CMD_UI ||| DIRCMD_SHIFT ||| E.DIR_S),
    mkcmd "run_south_east" "go southeast until you run into something" 'N'.toNat 0
      (E.CMD_UI ||| DIRCMD_SHIFT ||| E.DIR_SE),
    mkcmd "run_south_west" "go southwest until you run into something" 'B'.toNat 0
      (E.CMD_UI ||| DIRCMD_SHIFT ||| E.DIR_SW),
    mkcmd "run_west" "go west until you run into something" 'H'.toNat 0
      (E.CMD_UI ||| DIRCMD_SHIFT ||| E.DIR_W),
    mkcmd "go_east" "run east until something interesting is seen" (Ctrl 'l') 0
      (E.CMD_UI ||| DIRCMD_CTRL ||| E.DIR_E),
    mkcmd "go_north" "run north until something interesting is seen" (Ctrl 'k') 0
      (E.CMD_UI ||| DIRCMD_CTRL ||| E.DIR_N),
    mkcmd "go_north_east" "run northeast until something interesting is seen"
      (Ctrl 'u') 0 (E.CMD_UI ||| DIRCMD_CTRL ||| E.DIR_NE),
    mkcmd "go_north_west" "run northwest until something interesting is seen"
      (Ctrl 'y') 0 (E.CMD_UI ||| DIRCMD_CTRL ||| E.DIR_NW),
    mkcmd "go_south" "run south until something interesting is seen" (Ctrl 'j') 0
      (E.CMD_UI ||| DIRCMD_CTRL ||| E.DIR_S),
    mkcmd "go_south_east" "run southeast until something interesting is seen"
      (Ctrl 'n') 0 (E.CMD_UI ||| DIRCMD_CTRL ||| E.DIR_SE),
    mkcmd "go_south_west" "run southwest until something interesting is seen"
      (Ctrl 'b') 0 (E.CMD_UI ||| DIRCMD_CTRL ||| E.DIR_SW),
    mkcmd "go_west" "run west until something interesting is seen" (Ctrl 'h') 0
      (E.CMD_UI ||| DIRCMD_CTRL ||| E.DIR_W),
    mkcmd "extcommand" "perform an extended command" '#'.toNat 0
      (E.CMD_UI ||| UICMD_EXTCMD E),
    mkcmd "help" "show the help menu" '?'.toNat 0 (E.CMD_UI ||| UICMD_HELP E),
    mkcmd "mainmenu" "show the main menu" '!'.toNat (Ctrl 'c')
      (E.CMD_UI ||| UICMD_MAINMENU E),
    mkcmd "options" "show or change option settings" 'O'.toNat 0
      (E.CMD_UI ||| UICMD_OPTIONS E),
    mkcmd "prevmsg" "list previously displayed messages" (Ctrl 'p') 0
      (E.CMD_UI ||| UICMD_PREVMSG E),
    mkcmd "save" "save or quit the game" 'S'.toNat 0 (E.CMD_UI ||| UICMD_DETACH E),
    mkcmd "stop" "suspend to shell" (Ctrl 'z') 0 (E.CMD_UI ||| UICMD_STOP E),
    mkcmd "togglepickup" "toggle the autopickup option" '@'.toNat 0
      (E.CMD_UI ||| UICMD_TOGGLEPICKUP E),
    mkcmd "whatdoes" "describe what a key does" '&'.toNat 0
      (E.CMD_UI ||| UICMD_WHATDOES E),
    mkcmd "repeatcount" "enter a number of turns to perform a command" 0 0
      (E.CMD_UI ||| UICMD_REPEATCOUNT E),
    mkcmd "(nothing)" "bind keys to this command to suppress \"Bad command\"" 0 0
      (E.CMD_UI ||| UICMD_NOTHING E),
    mkcmd "servercancel" "(internal use only) the server already has a command" 0 0
      (E.CMD_UI ||| E.CMD_INTERNAL ||| UICMD_SERVERCANCEL E) ]

/-- The type of the arrays `keymap` and `unknown_keymap`. -/
abbrev Table := Nat → Option cmd_ptr

/-- The assignment `km[k] = v`. -/
def kset (km : Table) (k : Nat) (v : Option cmd_ptr) : Table :=
  fun j => if j = k then v else km j

/-- The file-scope variables of `keymap.c` that the persistence code and the
binding editor touch, and the keymap file of the user. -/
structure State where
  keymap : Table
  unknown_keymap : Table
  /-- The array `commandlist`; `cmdcount` is its length. -/
  commandlist : List nh_cmd_desc
  /-- The array `builtin_commands`, whose `flags` the loader may change. -/
  builtins : List nh_cmd_desc
  /-- The allocated array `unknown_commands`; `unknown_size` is its length. -/
  unknown_commands : List nh_cmd_desc
  unknown_count : Nat
  /-- The content of the keymap file, when there is one. -/
  conf : Option (List Char)

/-- The C expression `*p`, when `p` points into one of the arrays. -/
def State.deref (s : State) : cmd_ptr → Option nh_cmd_desc
  | .dyn i => s.commandlist.get? i
  | .builtin i => s.builtins.get? i
  | .unknown i => s.unknown_commands.get? i

/-! ## `find_command` -/

/-- The loop `for (i = 0; i < n; i++) if (!strcmp(arr[i].name, cmdname)) return i`,
started at index `i` on the rest `arr` of the array. -/
def find_index (cmdname : List Char) : Nat → List nh_cmd_desc → Option Nat
  | _, [] => none
  | i, c :: cs => if c.name = cmdname then some i else find_index cmdname (i + 1) cs

/-- The function `find_command`: the dynamic commands first, then the built-in ones. -/
def find_command (s : State) (cmdname : List Char) : Option cmd_ptr :=
  match find_index cmdname 0 s.commandlist with
  | some i => some (.dyn i)
  | none =>
    match find_index cmdname 0 s.builtins with
    | some i => some (.builtin i)
    | none => none

/-! ## `init_keymap` -/

/-- The loop `for (i..) if (arr[i].defkey) keymap[arr[i].defkey] = &arr[i]`. -/
def assign_defkeys (mk : Nat → cmd_ptr) : Nat → List nh_cmd_desc → Table → Table
  | _, [], km => km
  | i, c :: cs, km =>
    assign_defkeys mk (i + 1) cs (if c.defkey ≠ 0 then kset km c.defkey (some (mk i)) else km)

/-- The loop `for (i..) if (arr[i].altkey && !keymap[arr[i].altkey])
keymap[arr[i].altkey] = &arr[i]`. -/
def assign_altkeys (mk : Nat → cmd_ptr) : Nat → List nh_cmd_desc → Table → Table
  | _, [], km => km
  | i, c :: cs, km =>
    assign_altkeys mk (i + 1) cs
      (if c.altkey ≠ 0 ∧ km c.altkey = none then kset km c.altkey (some (mk i)) else km)

/-- The last loop of `init_keymap`, `n` iterations from index `i` on:
`keymap[KEY_ALT | (i - 128)] = keymap[i]`. -/
def assign_metakeys (E : Env) : Nat → Nat → Table → Table
  | 0, _, km => km
  | n + 1, i, km => assign_metakeys E n (i + 1) (kset km (E.KEY_ALT ||| (i - 128)) (km i))

/-- The loop `for (i = '1'; i <= '9'; i++) keymap[i] = find_command("repeatcount")`,
`n` iterations from `i` on. -/
def assign_digits (v : Option cmd_ptr) : Nat → Nat → Table → Table
  | 0, _, km => km
  | n + 1, i, km => assign_digits v n (i + 1) (kset km i v)

/-- The hard-coded assignments at the start of `init_keymap`, after the `memset`. -/
def init_keymap_fixed (E : Env) (s : State) : Table :=
  let fc := fun (n : String) => find_command s n.toList
  let km : Table := fun _ => none
  let km := kset km E.KEY_UP (fc "north")
  let km := kset km E.KEY_DOWN (fc "south")
  let km := kset km E.KEY_LEFT (fc "west")
  let km := kset km E.KEY_RIGHT (fc "east")
  let km := kset km E.KEY_A2 (fc "north")
  let km := kset km E.KEY_C2 (fc "south")
  let km := kset km E.KEY_B1 (fc "west")
  let km := kset km E.KEY_B3 (fc "east")
  let km := kset km E.KEY_A1 (fc "north_west")
  let km := kset km E.KEY_A3 (fc "north_east")
  let km := kset km E.KEY_C1 (fc "south_west")
  let km := kset km E.KEY_C3 (fc "south_east")
  let km := kset km E.KEY_B2 (fc "go")
  let km := kset km E.KEY_D1 (fc "inventory")
  let km := kset km E.KEY_HOME (fc "north_west")
  let km := kset km E.KEY_PPAGE (fc "north_east")
  let km := kset km E.KEY_END (fc "south_west")
  let km := kset km E.KEY_NPAGE (fc "south_east")
  let km := kset km '\r'.toNat (fc "(nothing)")
  let km := kset km ' '.toNat (fc "(nothing)")
  km

/-- The table that `init_keymap` leaves in `keymap`. -/
def init_keymap_table (E : Env) (s : State) : Table :=
  let km := init_keymap_fixed E s
  let km := assign_digits (find_command s "repeatcount".toList) 9 '1'.toNat km
  let km := assign_defkeys cmd_ptr.dyn 0 s.commandlist km
  let km := assign_defkeys cmd_ptr.builtin 0 s.builtins km
  let km := assign_altkeys cmd_ptr.dyn 0 s.commandlist km
  let km := assign_altkeys cmd_ptr.builtin 0 s.builtins km
  assign_metakeys E 128 128 km

/-- The function `init_keymap`. -/
def init_keymap (E : Env) (s : State) : State :=
  { s with keymap := init_keymap_table E s }

/-! ## Reading the keymap file -/

/-- The function `isspace` of the C locale. -/
def isspace (c : Char) : Bool :=
  c = ' ' || c = '\t' || c = '\n' || c = '\x0b' || c = '\x0c' || c = '\r'

/-- Membership in the delimiter set `"\r\n"` handed to `strtok`. -/
def isdelim (c : Char) : Bool := c = '\r' || c = '\n'

/-- The bytes of `data` up to the first NUL: what the string functions see. -/
def cstr (data : List Char) : List Char := data.takeWhile (fun c => c != '\x00')

/-- The tokens that the successive calls of `strtok(.., "\r\n")` return;
`cur` holds the token under construction, last character first. -/
def strtok_aux : List Char → List Char → List (List Char)
  | [], cur => if cur = [] then [] else [cur.reverse]
  | c :: cs, cur =>
    if isdelim c then
      (if cur = [] then strtok_aux cs [] else cur.reverse :: strtok_aux cs [])
    else strtok_aux cs (c :: cur)

/-- The lines of the file in the order in which `read_keymap` visits them. -/
def strtok_lines (data : List Char) : List (List Char) := strtok_aux (cstr data) []

/-- The string `&line[pos]` after the two `while` loops that look for the
second word of the line. -/
def second_word (line : List Char) : List Char :=
  (line.dropWhile (fun c => !isspace c)).dropWhile isspace

/-- The value of a hexadecimal digit. -/
def hexval (c : Char) : Option Nat :=
  if '0' ≤ c ∧ c ≤ '9' then some (c.toNat - '0'.toNat)
  else if 'a' ≤ c ∧ c ≤ 'f' then some (c.toNat - 'a'.toNat + 10)
  else if 'A' ≤ c ∧ c ≤ 'F' then some (c.toNat - 'A'.toNat + 10)
  else none

/-- The digit loop of `strtol`: the accumulated value and the number of digits
read, started with `acc` and `n`. -/
def strtol_digits : List Char → Nat → Nat → Nat × Nat
  | [], acc, n => (acc, n)
  | c :: cs, acc, n =>
    match hexval c with
    | some d => strtol_digits cs (16 * acc + d) (n + 1)
    | none => (acc, n)

/-- The optional sign of `strtol`: whether it is `-`, and how many characters it takes. -/
def strtol_sign (r : List Char) : Bool × Nat :=
  if r.head? = some '-' then (true, 1) else if r.head? = some '+' then (false, 1) else (false, 0)

/-- The number of characters of the optional prefix `0x` or `0X` of `strtol` in
base 16; the prefix counts only when a hexadecimal digit follows it. -/
def strtol_prefix (r : List Char) : Nat :=
  if r.head? = some '0' ∧ (r.get? 1 = some 'x' ∨ r.get? 1 = some 'X')
      ∧ ((r.get? 2).bind hexval).isSome then 2
  else 0

/-- The library call `strtol(line, &endptr, 16)`: the `long` it returns and
`endptr - line`. White space is skipped, a sign and a `0x` prefix are
optional, the value saturates at `LONG_MIN` and `LONG_MAX`, and without any
digit nothing is consumed and the value is 0. -/
def strtol16 (E : Env) (line : List Char) : Int × Nat :=
  let ws := (line.takeWhile isspace).length
  let r := line.dropWhile isspace
  let sg := strtol_sign r
  let r1 := r.drop sg.2
  let pl := strtol_prefix r1
  let dg := strtol_digits (r1.drop pl) 0 0
  if dg.2 = 0 then (0, 0)
  else
    let lim : Nat := 2 ^ (E.LONG_BIT - 1)
    let val : Int :=
      if sg.1 then (if dg.1 > lim then -(lim : Int) else -(dg.1 : Int))
      else (if dg.1 ≥ lim then (lim : Int) - 1 else (dg.1 : Int))
    (val, ws + sg.2 + pl + dg.2)

/-- The conversion of a `long` to the 32-bit `int` it is assigned to. -/
def long_to_int (v : Int) : Int := (v + 2 ^ 31) % 2 ^ 32 - 2 ^ 31

/-- The update of `flags` through `flags = f flags` at index `i` of an array. -/
def mod_flags (f : Nat → Nat) : Nat → List nh_cmd_desc → List nh_cmd_desc
  | _, [] => []
  | 0, c :: cs => { c with flags := f c.flags } :: cs
  | i + 1, c :: cs => c :: mod_flags f i cs

/-- The assignment of `name` at index `i` of an array. -/
def set_name (nm : List Char) : Nat → List nh_cmd_desc → List nh_cmd_desc
  | _, [] => []
  | 0, c :: cs => { c with name := nm } :: cs
  | i + 1, c :: cs => c :: set_name nm i cs

/-- The assignment `p->flags = f (p->flags)`. -/
def State.set_flags (s : State) (p : cmd_ptr) (f : Nat → Nat) : State :=
  match p with
  | .dyn i => { s with commandlist := mod_flags f i s.commandlist }
  | .builtin i => { s with builtins := mod_flags f i s.builtins }
  | .unknown i => { s with unknown_commands := mod_flags f i s.unknown_commands }

/-- The expression `flags & ~m` on 32-bit unsigned values. -/
def and_not32 (flags m : Nat) : Nat := flags &&& (0xffffffff ^^^ m)

/-- An all-zero `struct nh_cmd_desc`, as `memset` leaves it. -/
def zero_desc : nh_cmd_desc := { name := [], desc := [], defkey := 0, altkey := 0, flags := 0 }

/-- The growth of `unknown_commands` when `unknown_count >= unknown_size`:
the size becomes `max(unknown_size * 2, 16)` and the new part is zeroed.
Pointers are indices here, so the pointer fix-up loop changes nothing. -/
def grow_unknown (s : State) : State :=
  if s.unknown_count ≥ s.unknown_commands.length then
    let size := max (s.unknown_commands.length * 2) 16
    { s with unknown_commands :=
        s.unknown_commands ++ List.replicate (size - s.unknown_commands.length) zero_desc }
  else s

/-- The string left in `cmd->name` by `strncpy` over `sizeof (cmd->name)` bytes
followed by the write of the final NUL. -/
def strncpy_name (E : Env) (src : List Char) : List Char := src.take (E.NAMESZ - 1)

/-- How the body of the line loop of `read_keymap` ends. -/
inductive line_result where
  /-- The label `nextline` is reached. -/
  | nextline (s : State)
  /-- The second word starts with `-`: the old file format. -/
  | legacy
  /-- The jump `goto badmap`. -/
  | badmap (s : State)

/-- The part of the loop body that records an unknown command: it is run when
`find_command` returned `NULL`, and yields the new state and the new `cmd`. -/
def record_unknown (E : Env) (s : State) (name : List Char) : State × cmd_ptr :=
  let s1 := grow_unknown s
  let idx := s1.unknown_count
  ({ s1 with unknown_count := s1.unknown_count + 1,
             unknown_commands := set_name (strncpy_name E name) idx s1.unknown_commands },
   .unknown idx)

/-- The part of the loop body that settles `cmd`: the state, the pointer `cmd`
and the flag `unknown` after the block that records an unknown command. -/
def resolve_cmd (E : Env) (s : State) (name : List Char) : State × Option cmd_ptr × Bool :=
  match find_command s name with
  | some p => (s, some p, false)
  | none => ((record_unknown E s name).1, some (record_unknown E s name).2, true)

/-- The value of `key` after `key = strtol(line, &endptr, 16)`. -/
def line_key (E : Env) (line : List Char) : Int := long_to_int (strtol16 E line).1

/-- The part of the loop body from `if (cmd)` to the label `nextline`. -/
def apply_line (E : Env) (s : State) (cmd : Option cmd_ptr) (unknown : Bool)
    (line : List Char) : line_result :=
  match cmd with
  | none => .nextline s
  | some p =>
    if line.take 3 = ['E', 'X', 'T'] then
      .nextline (s.set_flags p (fun f => f ||| E.CMD_EXT))
    else if line.take 5 = ['N', 'O', 'E', 'X', 'T'] then
      .nextline (s.set_flags p (fun f => and_not32 f E.CMD_EXT))
    else if line_key E line = 0 ∨ (strtol16 E line).2 = 0 then .badmap s
    else if line_key E line < 0 ∨ line_key E line > (E.KEY_MAX : Int) then .nextline s
    else if unknown = false then
      .nextline { s with keymap := kset s.keymap (line_key E line).toNat (some p) }
    else
      .nextline
        { s with unknown_keymap := kset s.unknown_keymap (line_key E line).toNat (some p) }

/-- The body of the line loop of `read_keymap` on one line. -/
def read_keymap_line (E : Env) (s : State) (line : List Char) : line_result :=
  if (second_word line).head? = some '-' then .legacy
  else
    apply_line E (resolve_cmd E s (second_word line)).1 (resolve_cmd E s (second_word line)).2.1
      (resolve_cmd E s (second_word line)).2.2 line

/-! ## Writing the keymap file -/

/-- A hexadecimal digit in lower case. -/
def hexdigit (d : Nat) : Char :=
  if d < 10 then Char.ofNat ('0'.toNat + d) else Char.ofNat ('a'.toNat + (d - 10))

/-- The digits of `n` in base 16, at most `fuel` of them. -/
def hex_digits : Nat → Nat → List Char
  | 0, _ => []
  | fuel + 1, n =>
    if n < 16 then [hexdigit n] else hex_digits fuel (n / 16) ++ [hexdigit (n % 16)]

/-- The conversion `%x` of `printf` on a 32-bit `unsigned int`. -/
def printf_x (key : Nat) : List Char := hex_digits 8 key

/-- The content of `buf` after `snprintf(buf, BUFSZ, ..)` produced `text`. -/
def snprintf (E : Env) (text : List Char) : List Char := text.take (E.BUFSZ - 1)

/-- The name `p->name`. -/
def State.name_of (s : State) (p : cmd_ptr) : List Char :=
  match s.deref p with
  | some c => c.name
  | none => []

/-- The name that `write_keymap` chooses for `key`. -/
def key_name (s : State) (key : Nat) : List Char :=
  match s.keymap key with
  | some p => s.name_of p
  | none =>
    match s.unknown_keymap key with
    | some p => s.name_of p
    | none => ['-']

/-- What one pass of the key loop of `write_keymap` writes for `key`. -/
def write_keymap_key (E : Env) (s : State) (key : Nat) : List Char :=
  let name := key_name s key
  let buf := snprintf E (printf_x key ++ [' '] ++ name ++ ['\n'])
  if name ≠ ['-'] then buf else []

/-- The key loop of `write_keymap`: `n` passes from `key` on. -/
def write_keymap_keys (E : Env) (s : State) : Nat → Nat → List Char
  | 0, _ => []
  | n + 1, key => write_keymap_key E s key ++ write_keymap_keys E s n (key + 1)

/-- What `write_keymap` writes for one command in its two last loops. -/
def write_keymap_ext (E : Env) (c : nh_cmd_desc) : List Char :=
  if c.flags &&& E.CMD_EXT ≠ 0 then snprintf E ("EXT ".toList ++ c.name ++ ['\n'])
  else snprintf E ("NOEXT ".toList ++ c.name ++ ['\n'])

/-- The two last loops of `write_keymap` on an array. -/
def write_keymap_exts (E : Env) : List nh_cmd_desc → List Char
  | [] => []
  | c :: cs => write_keymap_ext E c ++ write_keymap_exts E cs

/-- Everything `write_keymap` writes when no system call fails. -/
def keymap_text (E : Env) (s : State) : List Char :=
  write_keymap_keys E s E.KEY_MAX 1 ++ write_keymap_exts E s.commandlist
    ++ write_keymap_exts E (s.unknown_commands.take s.unknown_count)

/-- The function `write_keymap`, when the file can be opened and written. -/
def write_keymap (E : Env) (s : State) : State :=
  { s with conf := some (keymap_text E s) }

/-- The line loop of `read_keymap` with its two failure exits. -/
def read_keymap_lines (E : Env) : List (List Char) → State → Bool × State
  | [], s => (true, s)
  | line :: rest, s =>
    match read_keymap_line E s line with
    | .nextline s1 => read_keymap_lines E rest s1
    | .legacy => (false, write_keymap E (init_keymap E s))
    | .badmap s1 => (false, init_keymap E s1)

/-- The function `read_keymap`; a file that cannot be opened is `conf = none`. -/
def read_keymap (E : Env) (s : State) : Bool × State :=
  match s.conf with
  | none => (false, s)
  | some data =>
    read_keymap_lines E (strtok_lines data)
      { s with unknown_count := 0, unknown_keymap := fun _ => none }

/-- The variables as `load_keymap` finds them in a new process, with the
command list `cmdlist` of the game copied into `commandlist`. -/
def load_state (E : Env) (cmdlist : List nh_cmd_desc) (conf : Option (List Char)) : State :=
  { keymap := fun _ => none, unknown_keymap := fun _ => none, commandlist := cmdlist,
    builtins := builtin_commands E, unknown_commands := [], unknown_count := 0,
    conf := conf }

/-- The function `load_keymap`. -/
def load_keymap (E : Env) (cmdlist : List nh_cmd_desc) (conf : Option (List Char)) :
    Bool × State :=
  read_keymap E (init_keymap E (load_state E cmdlist conf))

/-! ## The binding editor -/

/-- One pass of the loop of `command_settings_menu(cmd)` in which the menu was
not cancelled: `selection` is the chosen menu id, `key` the key pressed at the
prompt for a new key and `yn` the answer to the question whether to replace. -/
def command_settings_pass (E : Env) (s : State) (cmd : cmd_ptr) (selection : Int)
    (key : Nat) (yn : Char) : State :=
  if selection > 0 then
    { s with keymap := kset s.keymap selection.toNat (find_command s "(nothing)".toList) }
  else if selection = -1 then
    if key = E.KEY_ESCAPE ∨ key > E.KEY_MAX then s
    else if (s.keymap key).isSome ∧ yn ≠ 'y' then s
    else { s with keymap := kset s.keymap key (some cmd) }
  else if selection = -2 then s.set_flags cmd (fun f => f ^^^ E.CMD_EXT)
  else s

/-- The flags `p->flags`. -/
def State.flags_of (s : State) (p : cmd_ptr) : Nat :=
  match s.deref p with
  | some c => c.flags
  | none => 0

/-- The ids of the items that `command_settings_menu(cmd)` puts into its menu:
one per key bound to `cmd`, `-1` to add a key, and `-2` to toggle the extended
command status unless `cmd` has `CMD_UI`. -/
def menu_offers (E : Env) (s : State) (cmd : cmd_ptr) (selection : Int) : Prop :=
  (0 ≤ selection ∧ selection ≤ (E.KEY_MAX : Int) ∧ s.keymap selection.toNat = some cmd)
    ∨ selection = -1 ∨ (selection = -2 ∧ s.flags_of cmd &&& E.CMD_UI = 0)

/-- The commands that `show_keymap_menu` lists with an id, and that
`set_command_keys` hands to `command_settings_menu`: the entries of the two
arrays without `CMD_INTERNAL`. -/
def listed (E : Env) (s : State) (cmd : cmd_ptr) : Prop :=
  match cmd with
  | .dyn i => ∃ c, s.commandlist.get? i = some c ∧ c.flags &&& E.CMD_INTERNAL = 0
  | .builtin i => ∃ c, s.builtins.get? i = some c ∧ c.flags &&& E.CMD_INTERNAL = 0
  | .unknown _ => False

/-- The loop of `set_command_keys` that restores the flags from the list
`cmdlist` that `nh_get_commands` returns. -/
def reset_extcmds (s : State) : List nh_cmd_desc → State
  | [] => s
  | c :: cs =>
    reset_extcmds
      (match find_command s c.name with
       | some p => s.set_flags p (fun _ => c.flags)
       | none => s) cs

/-- The branch of `set_command_keys` for `RESET_BINDINGS_ID`. -/
def set_command_keys_reset (E : Env) (s : State) (cmdlist : List nh_cmd_desc) : State :=
  reset_extcmds (init_keymap E s) cmdlist

/-- The states that the binding editor reaches from the defaults of
`init_keymap` over the command list `cmdlist` of the game. -/
inductive editor_reach (E : Env) (cmdlist : List nh_cmd_desc) : State → Prop
  | init : editor_reach E cmdlist (init_keymap E (load_state E cmdlist none))
  | pass {s : State} (cmd : cmd_ptr) (selection : Int) (key : Nat) (yn : Char) :
      editor_reach E cmdlist s → listed E s cmd → menu_offers E s cmd selection →
      editor_reach E cmdlist (command_settings_pass E s cmd selection key yn)
  | reset {s : State} :
      editor_reach E cmdlist s → editor_reach E cmdlist (set_command_keys_reset E s cmdlist)

/-! ## Resolving a key: internal commands and the repeat count -/

/-- The fields of `struct nh_cmd_arg` that `keymap.c` writes. -/
structure nh_cmd_arg where
  argtype : Nat
  dir : Nat
  limit : Nat
deriving DecidableEq, Repr

/-- The results of the menu functions that `handle_internal_cmd` calls and whose
outcome depends on what the user selects. -/
structure ui_answers where
  doextcmd : Option cmd_ptr
  show_help : Option cmd_ptr
  show_mainmenu : Option cmd_ptr

/-- The `case` labels of the first group in the `switch` of `handle_internal_cmd`. -/
def direction_cases (E : Env) : List Nat :=
  [E.DIR_NW, E.DIR_N, E.DIR_NE, E.DIR_E, E.DIR_W, E.DIR_SW, E.DIR_S, E.DIR_SE, E.DIR_UP,
   E.DIR_DOWN]

/-- The function `handle_internal_cmd`: the new values of `*cmd` and `*arg`. -/
def handle_internal_cmd (E : Env) (ui : ui_answers) (s : State) (cmd : cmd_ptr)
    (arg : nh_cmd_arg) : Option cmd_ptr × nh_cmd_arg :=
  let flags := s.flags_of cmd
  let id := and_not32 flags (E.CMD_UI ||| DIRCMD ||| DIRCMD_SHIFT ||| DIRCMD_CTRL)
  if id ∈ direction_cases E then
    let arg1 : nh_cmd_arg := { arg with argtype := arg.argtype ||| E.CMD_ARG_DIR, dir := id }
    if flags &&& DIRCMD ≠ 0 then (find_command s "move".toList, arg1)
    else if flags &&& DIRCMD_SHIFT ≠ 0 then (find_command s "run".toList, arg1)
    else if flags &&& DIRCMD_CTRL ≠ 0 then (find_command s "go".toList, arg1)
    else (some cmd, arg1)
  else if id = UICMD_OPTIONS E then (find_command s "interrupt".toList, arg)
  else if id = UICMD_EXTCMD E then (ui.doextcmd, arg)
  else if id = UICMD_HELP E then (ui.show_help, { arg with argtype := 0 })
  else if id = UICMD_MAINMENU E then (ui.show_mainmenu, { arg with argtype := 0 })
  else if id = UICMD_DETACH E then (none, arg)
  else if id = UICMD_STOP E then (none, arg)
  else if id = UICMD_PREVMSG E then (none, arg)
  else if id = UICMD_WHATDOES E then (none, arg)
  else if id = UICMD_TOGGLEPICKUP E then (find_command s "interrupt".toList, arg)
  else if id = UICMD_NOTHING E then (none, arg)
  else (some cmd, arg)

/-- Whether `key` is one of the characters `'0'` to `'9'`. -/
def is_digit_key (key : Nat) : Prop := '0'.toNat ≤ key ∧ key ≤ '9'.toNat

instance (key : Nat) : Decidable (is_digit_key key) := by
  unfold is_digit_key; infer_instance

/-- The body of the `do .. while` loop of `get_command` that accumulates the
count: the new value of `multi` for the key at hand. -/
def count_step (E : Env) (key multi : Nat) : Nat :=
  if key = E.KEY_BACKSPACE then multi / 10
  else if is_digit_key key then
    (if 10 * multi + key - '0'.toNat > 0xffff then (10 * multi + key - '0'.toNat) / 10
     else 10 * multi + key - '0'.toNat)
  else multi

/-- The `do .. while` loop of `get_command` that accumulates the count, entered
with `key` and `multi`; `keys` are the keys that `curses_msgwin` will return.
The result is the count, the key that ended the loop and the keys not yet
read; it is `none` when the loop is still waiting for a key. -/
def get_command_count (E : Env) : List Nat → Nat → Nat → Option (Nat × Nat × List Nat)
  | [], _, _ => none
  | k :: rest, key, multi =>
    if is_digit_key k ∨ (count_step E key multi > 0 ∧ k = E.KEY_BACKSPACE) then
      get_command_count E rest k (count_step E key multi)
    else some (count_step E key multi, k, rest)

/-- The start of a pass of the main loop of `get_command`, from `multi = 0` up
to the end of the count loop: `key` is the key that `get_map_key` returned. -/
def get_command_multi (E : Env) (s : State) (key : Nat) (keys : List Nat) :
    Option (Nat × Nat × List Nat) :=
  if key ≤ E.KEY_MAX ∧ s.keymap key = find_command s "repeatcount".toList then
    get_command_count E keys key 0
  else some (0, key, keys)

/-! ## The main loop of `get_command` -/

/-- The file-scope variables that `get_command` and `set_next_command` use, and
what `get_command` does to the outside: `calls` holds the calls of `callback`
made so far, oldest first, each with the name and the argument it was given,
and `keymap_reads` holds the indices at which `keymap[..]` was read. -/
structure input_state where
  repeats_remaining : Int
  have_next_command : Bool
  next_command_name : List Char
  next_command_arg : nh_cmd_arg
  current_cmd_key : Nat
  in_zero_time_command : Bool
  calls : List (List Char × nh_cmd_arg)
  keymap_reads : List Nat
deriving DecidableEq, Repr

/-- The local variables of `get_command` that live across the passes of its
loop: `ncaa.arg` and `save_repeats`. -/
structure locals where
  arg : nh_cmd_arg
  save_repeats : Int
deriving DecidableEq, Repr

/-- What the functions outside `keymap.c` answer during a call of `get_command`,
by the number `n` of keys that are still unread when they are called: `ui n`
holds the results of the menus that `handle_internal_cmd` opens, and
`sidebar n item` is the call of `set_next_command` that
`item_actions_from_sidebar(item)` makes, if it makes one. -/
structure externals where
  ui : Nat → ui_answers
  sidebar : Nat → Nat → Option (List Char × nh_cmd_arg)

/-- The function `set_next_command`. The array `next_command_name` has 32 bytes
and `strncpy` fills it with at most 32 bytes of `cmd`. -/
def set_next_command (g : input_state) (cmd : List Char) (arg : nh_cmd_arg) : input_state :=
  { g with have_next_command := true, next_command_arg := arg,
           next_command_name := cmd.take 32 }

/-- The statements `have_next_command = FALSE; callback(&(struct nh_cmd_and_arg)
{next_command_name, next_command_arg}, callbackarg)`. -/
def call_next (g : input_state) : input_state :=
  { g with have_next_command := false,
           calls := g.calls ++ [(g.next_command_name, g.next_command_arg)] }

/-- Where the loop of `get_command` stands when it waits for a key: at
`get_map_key` at the top of a pass, at `curses_msgwin` in the count loop with
the count `multi` so far, or at the `get_map_key` that asks for the direction
of `cmd`, which the key `key` selected. -/
inductive stage
  | primary
  | counting (multi : Nat)
  | direction (cmd : cmd_ptr) (key : Nat)
deriving DecidableEq, Repr

/-- How the code that follows the reading of a key ends: the loop starts its
next pass (`again`), the count loop goes round (`count`), the direction is asked
for (`direction`), the loop is left with `cmd` (`leave`), or `get_command`
returns from inside the loop (`returned`). -/
inductive pass_end
  | again (g : input_state) (l : locals)
  | count (multi : Nat) (g : input_state) (l : locals)
  | direction (g : input_state) (l : locals) (cmd : cmd_ptr) (key : Nat)
  | leave (g : input_state) (l : locals) (cmd : cmd_ptr)
  | returned (g : input_state)
deriving DecidableEq, Repr

/-- The test `while (!cmd)` of the loop of `get_command`, which a `continue`
in the loop body jumps to. -/
def loop_test (g : input_state) (l : locals) (cmd : Option cmd_ptr) : pass_end :=
  match cmd with
  | none => .again g l
  | some c => .leave g l c

/-- The statement `if (multi && cmd->flags & CMD_ARG_LIMIT) { .. } else
repeats_remaining = multi;` of `get_command`. -/
def attach_limit (E : Env) (s : State) (g : input_state) (l : locals) (multi : Nat)
    (cmd : cmd_ptr) : input_state × locals :=
  if multi ≠ 0 ∧ s.flags_of cmd &&& E.CMD_ARG_LIMIT ≠ 0 then
    (g, { l with arg := { l.arg with argtype := l.arg.argtype ||| E.CMD_ARG_LIMIT,
                                     limit := multi } })
  else ({ g with repeats_remaining := (multi : Int) }, l)

/-- The statements of `get_command` from `if (multi && cmd->flags &
CMD_ARG_LIMIT)` to the test for the command `repeat`. -/
def attach_count (E : Env) (s : State) (g : input_state) (l : locals) (multi : Nat)
    (cmd : cmd_ptr) : input_state × locals :=
  if some cmd = find_command s "repeat".toList then
    ({ (attach_limit E s g l multi cmd).1 with repeats_remaining := l.save_repeats },
      (attach_limit E s g l multi cmd).2)
  else attach_limit E s g l multi cmd

/-- The value of `cmd` after the statements `if (key == KEY_SIGNAL) .. else if
(key <= KEY_MAX) .. else cmd = NULL` of `get_command`. -/
def key_command (E : Env) (s : State) (key : Nat) : Option cmd_ptr :=
  if key = E.KEY_SIGNAL then find_command s "servercancel".toList
  else if key ≤ E.KEY_MAX then s.keymap key
  else none

/-- The file-scope variables after the same statements: `keymap[key]` was read
and `current_cmd_key` was set, unless `key` is `KEY_SIGNAL` or above `KEY_MAX`. -/
def key_noted (E : Env) (g : input_state) (key : Nat) : input_state :=
  if key ≠ E.KEY_SIGNAL ∧ key ≤ E.KEY_MAX then
    { g with current_cmd_key := key, keymap_reads := g.keymap_reads ++ [key] }
  else g

/-- The block of `get_command` for a key above `KEY_MAX` and below
`KEY_MAX + 128`; `cmd` is the command at hand. -/
def sidebar_click (E : Env) (x : externals) (g : input_state) (l : locals)
    (cmd : Option cmd_ptr) (key n : Nat) : pass_end :=
  let g2 : input_state :=
    match x.sidebar n (key - E.KEY_MAX) with
    | some (name, arg) => set_next_command g name arg
    | none => g
  if g2.have_next_command then .returned (call_next g2) else loop_test g2 l cmd

/-- The block `if (cmd != NULL) { .. }` of `get_command` for the command `c0`,
up to the reading of the direction. -/
def dispatch (E : Env) (x : externals) (s : State) (g : input_state) (l : locals)
    (multi key n : Nat) (c0 : cmd_ptr) : pass_end :=
  let r : Option cmd_ptr × nh_cmd_arg :=
    if s.flags_of c0 &&& E.CMD_UI ≠ 0 then handle_internal_cmd E (x.ui n) s c0 l.arg
    else (some c0, l.arg)
  match r.1 with
  | none => loop_test g { l with arg := r.2 } none
  | some c =>
    let a := attach_count E s g { l with arg := r.2 } multi c
    if s.flags_of c &&& E.CMD_ARG_DIR ≠ 0 ∧ s.flags_of c &&& E.CMD_MOVE ≠ 0
        ∧ a.2.arg.argtype &&& E.CMD_ARG_DIR = 0 then
      .direction a.1 a.2 c key
    else loop_test a.1 a.2 (some c)

/-- The body of the loop of `get_command` from the test for Escape that follows
the count loop up to the reading of the direction; `multi` is the count,
`key` the key at hand and `n` the number of keys still unread. -/
def get_command_key (E : Env) (x : externals) (s : State) (g : input_state) (l : locals)
    (multi key n : Nat) : pass_end :=
  if key = 0x1b ∨ key = E.KEY_ESCAPE then loop_test g l none
  else if E.KEY_MAX < key ∧ key < E.KEY_MAX + 128 then
    sidebar_click E x (key_noted E g key) l (key_command E s key) key n
  else if E.KEY_MAX + 256 ≤ key then loop_test (key_noted E g key) l (key_command E s key)
  else
    match key_command E s key with
    | none => loop_test (key_noted E g key) l none
    | some c0 => dispatch E x s (key_noted E g key) l multi key n c0

/-- The body of the loop of `get_command` after the key `key2` for the direction
has been read. The test before `keymap[key2]` is on `key`, as in the source, and
the index `key2` is recorded in `keymap_reads` whatever its value. -/
def get_command_direction (E : Env) (s : State) (g : input_state) (l : locals)
    (cmd : cmd_ptr) (key key2 : Nat) : pass_end :=
  if key2 = 0x1b ∨ key2 = E.KEY_ESCAPE then loop_test g l (some cmd)
  else if key2 = E.KEY_SIGNAL then loop_test g l (find_command s "servercancel".toList)
  else if key ≤ E.KEY_MAX then
    let g1 : input_state := { g with keymap_reads := g.keymap_reads ++ [key2] }
    match s.keymap key2 with
    | none => loop_test g1 l none
    | some c2 =>
      if s.flags_of c2 &&& E.CMD_UI ≠ 0 ∧ s.flags_of c2 &&& DIRCMD ≠ 0 then
        loop_test g1
          { l with arg := { l.arg with argtype := l.arg.argtype ||| E.CMD_ARG_DIR,
                                       dir := and_not32 (s.flags_of c2) (E.CMD_UI ||| DIRCMD) } }
          (some cmd)
      else loop_test g1 l none
  else loop_test g l none

/-- What `get_command` does with the key `k` that it reads at the stage `st`. -/
def get_command_step (E : Env) (x : externals) (s : State) (st : stage) (g : input_state)
    (l : locals) (k n : Nat) : pass_end :=
  match st with
  | .primary =>
    let l1 : locals := { l with arg := { l.arg with argtype := 0 } }
    if k ≤ E.KEY_MAX then
      let g1 : input_state := { g with keymap_reads := g.keymap_reads ++ [k] }
      if s.keymap k = find_command s "repeatcount".toList then
        .count (count_step E k 0) g1 l1
      else get_command_key E x s g1 l1 0 k n
    else get_command_key E x s g l1 0 k n
  | .counting multi =>
    if is_digit_key k ∨ (multi > 0 ∧ k = E.KEY_BACKSPACE) then
      .count (count_step E k multi) g l
    else get_command_key E x s g l multi k n
  | .direction cmd key => get_command_direction E s g l cmd key k

/-- The statements of `get_command` after its loop, which is left with `cmd`. -/
def get_command_end (E : Env) (s : State) (g : input_state) (l : locals) (cmd : cmd_ptr) :
    input_state :=
  { g with in_zero_time_command := decide (s.flags_of cmd &&& E.CMD_NOTIME ≠ 0),
           calls := g.calls ++ [(s.name_of cmd, l.arg)] }

/-- The loop of `get_command` from the stage `st` on; the list holds the keys
that `get_map_key` and `curses_msgwin` will return. The result is the state in
which `get_command` returns and the keys not yet read; it is `none` when the
function is still waiting for a key after the last one of the list. Key codes
are natural numbers: a negative key is outside the model. The calls
that only draw on the screen (`mark_showlines_seen`, `new_action`, `clear`,
`refresh`, `rebuild_ui`, `curses_print_message`, `wmove`) are left out. -/
def get_command_loop (E : Env) (x : externals) (s : State) :
    List Nat → stage → input_state → locals → Option (input_state × List Nat)
  | [], _, _, _ => none
  | k :: rest, st, g, l =>
    match get_command_step E x s st g l k rest.length with
    | .again g1 l1 => get_command_loop E x s rest .primary g1 l1
    | .count multi g1 l1 => get_command_loop E x s rest (.counting multi) g1 l1
    | .direction g1 l1 cmd key => get_command_loop E x s rest (.direction cmd key) g1 l1
    | .leave g1 l1 cmd => some (get_command_end E s g1 l1 cmd, rest)
    | .returned g1 => some (g1, rest)

/-- The function `get_command`; `arg0` holds the values that the fields of
`ncaa.arg` have before anything is stored in them. -/
def get_command (E : Env) (x : externals) (s : State) (g : input_state) (arg0 : nh_cmd_arg)
    (keys : List Nat) : Option (input_state × List Nat) :=
  let g0 : input_state := { g with repeats_remaining := 0, in_zero_time_command := false }
  if g.have_next_command then some (call_next g0, keys)
  else get_command_loop E x s keys .primary g0
    { arg := arg0, save_repeats := g.repeats_remaining }

/-- What the loop of `get_command` does after a key that ended as `e`, with the
keys `rest` still unread. -/
def get_command_after (E : Env) (x : externals) (s : State) (rest : List Nat)
    (e : pass_end) : Option (input_state × List Nat) :=
  match e with
  | .again g1 l1 => get_command_loop E x s rest .primary g1 l1
  | .count multi g1 l1 => get_command_loop E x s rest (.counting multi) g1 l1
  | .direction g1 l1 cmd key => get_command_loop E x s rest (.direction cmd key) g1 l1
  | .leave g1 l1 cmd => some (get_command_end E s g1 l1 cmd, rest)
  | .returned g1 => some (g1, rest)

/-! ## Notions used in the statements -/

/-- The pair of keys and the name of a descriptor: what `init_keymap` and
`find_command` read of it. -/
def skel (c : nh_cmd_desc) : List Char × Nat × Nat := (c.name, c.defkey, c.altkey)

/-- Two states whose command arrays agree in everything but the flags. -/
def same_skel (t s : State) : Prop :=
  t.commandlist.map skel = s.commandlist.map skel ∧ t.builtins.map skel = s.builtins.map skel

/-- A line on which `read_keymap` gives up whatever the state: its second word
starts with `-`, or it is a binding line whose key field reads as 0 or not at all. -/
def fatal_line (E : Env) (line : List Char) : Prop :=
  (second_word line).head? = some '-'
    ∨ (line.take 3 ≠ ['E', 'X', 'T'] ∧ line.take 5 ≠ ['N', 'O', 'E', 'X', 'T']
        ∧ (line_key E line = 0 ∨ (strtol16 E line).2 = 0))

/-- A property of the states with which the loop body can end. -/
def line_result.holds (P : State → Prop) : line_result → Prop
  | .nextline s1 => P s1
  | .legacy => True
  | .badmap s1 => P s1

/-- A pointer into `commandlist` or `builtin_commands`. -/
def valid_reg (s : State) : cmd_ptr → Prop
  | .dyn i => i < s.commandlist.length
  | .builtin i => i < s.builtins.length
  | .unknown _ => False

/-- The index of the last entry of an array whose default key is `k`, for `k ≠ 0`. -/
def last_def (k : Nat) : List nh_cmd_desc → Option Nat
  | [] => none
  | c :: cs =>
    match last_def k cs with
    | some j => some (j + 1)
    | none => if c.defkey = k ∧ k ≠ 0 then some 0 else none

/-- The command whose default key is the last one that the two default-key loops
of `init_keymap` assign to `d`: the last built-in command that declares `d`,
or else the last command of the game that does. -/
def last_default (s : State) (d : Nat) : Option cmd_ptr :=
  match last_def d s.builtins with
  | some i => some (.builtin i)
  | none => (last_def d s.commandlist).map cmd_ptr.dyn

/-- The command `p` is the one whose default key `d` is assigned last by the two
default-key loops of `init_keymap`: no later entry of its array declares `d`,
and for a command of the game no built-in command declares `d`. -/
def is_last_default (s : State) (d : Nat) : cmd_ptr → Prop
  | .dyn i =>
    (∃ c, s.commandlist.get? i = some c ∧ c.defkey = d)
      ∧ (∀ j c, i < j → s.commandlist.get? j = some c → c.defkey ≠ d)
      ∧ ∀ c ∈ s.builtins, c.defkey ≠ d
  | .builtin i =>
    (∃ c, s.builtins.get? i = some c ∧ c.defkey = d)
      ∧ ∀ j c, i < j → s.builtins.get? j = some c → c.defkey ≠ d
  | .unknown _ => False

/-- The keys `KEY_ALT | 0 .. KEY_ALT | 127` that the last loop of `init_keymap` writes. -/
def mirrored (E : Env) (k : Nat) : Prop := ∃ j, j < 128 ∧ k = E.KEY_ALT ||| j

/-- The default and alternate keys of the commands `l` have the values of a
byte, as the fields `defkey` and `altkey` of the C struct hold them. -/
def byte_keys (l : List nh_cmd_desc) : Prop := ∀ c ∈ l, c.defkey < 256 ∧ c.altkey < 256

instance (l : List nh_cmd_desc) : Decidable (byte_keys l) := by
  unfold byte_keys; infer_instance

/-- Every entry of a table points into `commandlist` or `builtin_commands`. -/
def all_valid (s : State) (km : Table) : Prop := ∀ k p, km k = some p → valid_reg s p

/-- What holds of every state that the binding editor reaches from the defaults
over `cmdlist`: the arrays are those of `load_state` up to the flags, the keys
are bound to commands of these arrays, and nothing unknown is recorded. -/
def editor_inv (E : Env) (cmdlist : List nh_cmd_desc) (s : State) : Prop :=
  same_skel s (load_state E cmdlist none) ∧ all_valid s s.keymap
    ∧ (∀ k, s.unknown_keymap k = none) ∧ s.unknown_count = 0

/-- The text made of the lines `ls`, each followed by a newline. -/
def unlines : List (List Char) → List Char
  | [] => []
  | l :: ls => l ++ '\n' :: unlines ls

/-- The lines that the key loop of `write_keymap` produces in `n` passes from
`key` on, when no line is cut by the buffer. -/
def key_lines (s : State) : Nat → Nat → List (List Char)
  | 0, _ => []
  | n + 1, key =>
    (if key_name s key ≠ ['-'] then [printf_x key ++ ' ' :: key_name s key] else [])
      ++ key_lines s n (key + 1)

/-- The line that `write_keymap` produces for a command in its two last loops,
when the line is not cut by the buffer. -/
def ext_line (E : Env) (c : nh_cmd_desc) : List Char :=
  if c.flags &&& E.CMD_EXT ≠ 0 then "EXT ".toList ++ c.name else "NOEXT ".toList ++ c.name

/-- A character that `printf` writes for `%x`. -/
def hexchar (c : Char) : Prop := ∃ d, d < 16 ∧ c = hexdigit d

/-- A name that survives a save and a reload: no line separator and no NUL in
it, no `-` and no white space at its start, and short enough for the line
buffer. -/
def good_name (E : Env) (n : List Char) : Bool :=
  n.all (fun c => !isdelim c && c != '\x00')
    && (match n with | [] => true | c :: _ => c != '-' && !isspace c)
    && decide (n.length + 16 ≤ E.BUFSZ)

/-- A command registry in which `find_command` finds every command under its
own name, and whose names are good. -/
def good_registry (E : Env) (cmdlist : List nh_cmd_desc) : Prop :=
  ((cmdlist ++ builtin_commands E).map (fun c => c.name)).Nodup
    ∧ ∀ c ∈ cmdlist ++ builtin_commands E, good_name E c.name = true

instance (E : Env) (cmdlist : List nh_cmd_desc) : Decidable (good_registry E cmdlist) := by
  unfold good_registry; infer_instance

/-- A state whose keymap file can be read back: the names of its commands are
pairwise different and good, its keys are bound to these commands, and nothing
unknown is recorded. -/
def saveable (E : Env) (s : State) : Prop :=
  ((s.commandlist ++ s.builtins).map (fun c => c.name)).Nodup
    ∧ (∀ c ∈ s.commandlist ++ s.builtins, good_name E c.name = true)
    ∧ all_valid s s.keymap ∧ (∀ k, s.unknown_keymap k = none) ∧ s.unknown_count = 0

/-- The counter `unknown_count` stays within the allocated array. -/
def unk_ok (t : State) : Prop := t.unknown_count ≤ t.unknown_commands.length

/-- The key `k` is bound in `unknown_keymap` to the record `idx` of
`unknown_commands`, which is in use and holds `name`. -/
def keeps_unknown (k idx : Nat) (name : List Char) (t : State) : Prop :=
  t.unknown_keymap k = some (.unknown idx) ∧ idx < t.unknown_count ∧ unk_ok t
    ∧ ∃ c, t.unknown_commands.get? idx = some c ∧ c.name = name

/-- Whether `line` is a binding line for the key `k`: it starts neither with
`EXT` nor with `NOEXT`, and its key field reads as `k`. -/
def binds_key (E : Env) (line : List Char) (k : Nat) : Prop :=
  line.take 3 ≠ ['E', 'X', 'T'] ∧ line.take 5 ≠ ['N', 'O', 'E', 'X', 'T']
    ∧ line_key E line = (k : Int)

/-- The number that a sequence of digit keys spells in base ten. -/
def decimal_value (keys : List Nat) : Nat :=
  keys.foldl (fun a k => 10 * a + (k - '0'.toNat)) 0

/-! ## An instance of the constants -/

/-- Values for the constants of the headers, used where a statement is
evaluated on concrete data. -/
def demoEnv : Env :=
  { KEY_MAX := 4095, KEY_ALT := 2048,
    KEY_UP := 259, KEY_DOWN := 258, KEY_LEFT := 260, KEY_RIGHT := 261,
    KEY_A1 := 348, KEY_A2 := 353, KEY_A3 := 349, KEY_B1 := 354, KEY_B2 := 350,
    KEY_B3 := 355, KEY_C1 := 351, KEY_C2 := 356, KEY_C3 := 352, KEY_D1 := 357,
    KEY_HOME := 262, KEY_PPAGE := 339, KEY_END := 360, KEY_NPAGE := 338,
    KEY_BACKSPACE := 263, KEY_ESCAPE := 361, KEY_SIGNAL := 4100,
    CMD_ARG_DIR := 2 ^ 0, CMD_ARG_LIMIT := 2 ^ 5, CMD_EXT := 2 ^ 10, CMD_MOVE := 2 ^ 11,
    CMD_NOTIME := 2 ^ 13, CMD_DEBUG := 2 ^ 14, CMD_INTERNAL := 2 ^ 15, CMD_UI := 2 ^ 28,
    DIR_W := 0, DIR_NW := 1, DIR_N := 2, DIR_NE := 3, DIR_E := 4, DIR_SE := 5,
    DIR_S := 6, DIR_SW := 7, DIR_UP := 8, DIR_DOWN := 9, DIR_SELF := 10,
    NAMESZ := 20, BUFSZ := 256, LONG_BIT := 64 }

/-- A small command list of the game for the examples. -/
def demoCommands : List nh_cmd_desc :=
  [ mkcmd "move" "move one step" 0 0 (2 ^ 0 ||| 2 ^ 11),
    mkcmd "run" "run" 0 0 (2 ^ 0 ||| 2 ^ 11),
    mkcmd "go" "go" 0 0 (2 ^ 0 ||| 2 ^ 11),
    mkcmd "search" "search for hidden things" 's'.toNat 0 (2 ^ 5),
    mkcmd "pray" "pray to the gods" (0x80 ||| 'p'.toNat) 0 (2 ^ 10),
    mkcmd "interrupt" "interrupt the current action" 0 0 (2 ^ 13) ]

/-- A command list of the game in which `beta` declares the default key `Q`,
`gamma` declares the meta key `0x80 | 5`, and `delta` declares `Q` as its
alternate key. -/
def metaCommands : List nh_cmd_desc :=
  [ mkcmd "beta" "second command" 'Q'.toNat 0 0,
    mkcmd "gamma" "third command" (0x80 ||| 5) 0 0,
    mkcmd "delta" "fourth command" 0 'Q'.toNat 0 ]

/-- A command list of the game in which `kick` declares the default key `l`. -/
def tieCommands : List nh_cmd_desc :=
  [ mkcmd "kick" "kick something" 'l'.toNat 0 0 ]

/-- A keymap file with a valid binding followed by a line of the old format. -/
def legacyFile : List Char := "6c search\n6d -\n".toList

/-- A keymap file that sets a flag and binds a key to an unknown command before
a line without a key. -/
def damagedFileExt : List Char := "EXT search\n73 foo\nzz move\n".toList

/-- The state after the user has bound the key 0 to the built-in command `east`
in the binding editor, starting from the defaults. -/
def zeroKeyState : State :=
  command_settings_pass demoEnv (init_keymap demoEnv (load_state demoEnv demoCommands none))
    (.builtin 0) (-1) 0 'n'

/-- The state after the user has bound the key `x` to the command `search` of the
game in the binding editor, starting from the defaults. -/
def boundKeyState : State :=
  command_settings_pass demoEnv (init_keymap demoEnv (load_state demoEnv demoCommands none))
    (.dyn 3) (-1) 'x'.toNat 'n'

/-- A keymap file that binds the key `m` to a command with a long name that the
game does not have. -/
def longNameFile : List Char := "6d averyveryverylongcommandname\n".toList

/-- A keymap file that binds the key `l`, which has a default binding, to a
command that the game does not have. -/
def shadowedFile : List Char := "6c foo\n".toList

/-- A keymap file that binds the key `x`, which has no default binding, to a
command that the game does not have. -/
def unknownFile : List Char := "6c search\n78 foo\nEXT foo\n".toList

/-! ## Notions and examples for `get_command` -/

/-- The state of the file-scope variables that `e` carries. -/
def pass_end.state : pass_end → input_state
  | .again g _ => g
  | .count _ g _ => g
  | .direction g _ _ _ => g
  | .leave g _ _ => g
  | .returned g => g

/-- The local variables with which `get_command` goes on after `e`; there are
none when it has returned. -/
def pass_end.locals : pass_end → Option locals
  | .again _ l => some l
  | .count _ _ l => some l
  | .direction _ l _ _ => some l
  | .leave _ l _ => some l
  | .returned _ => none

/-- Whether `callback` was called between the state with the calls `calls` and
`e`: exactly once when `get_command` returned from inside the loop, and not at
all otherwise. -/
def pass_end.calls_from (calls : List (List Char × nh_cmd_arg)) : pass_end → Prop
  | .returned g => ∃ c, g.calls = calls ++ [c]
  | e => e.state.calls = calls

/-- A command list of the game for the examples of `get_command`: `fight` asks
for a direction, `search` takes a count, and `repeat` repeats. -/
def inputCommands : List nh_cmd_desc :=
  [ mkcmd "move" "move one step" 0 0 (2 ^ 0 ||| 2 ^ 11),
    mkcmd "run" "run" 0 0 (2 ^ 0 ||| 2 ^ 11),
    mkcmd "go" "go" 0 0 (2 ^ 0 ||| 2 ^ 11),
    mkcmd "search" "search for hidden things" 's'.toNat 0 (2 ^ 5),
    mkcmd "fight" "attack even if no hostile monster is visible" 'F'.toNat 0
      (2 ^ 0 ||| 2 ^ 11),
    mkcmd "repeat" "repeat the previous command" 1 0 0,
    mkcmd "interrupt" "interrupt the current action" 0 0 (2 ^ 13) ]

/-- The state of the keymap after `load_keymap` without a keymap file, for the
command list `inputCommands`. -/
def inputState : State := init_keymap demoEnv (load_state demoEnv inputCommands none)

/-- File-scope variables as they are at the start of the program, with
`repeats_remaining` set to `r`. -/
def freshInput (r : Int) : input_state :=
  { repeats_remaining := r, have_next_command := false, next_command_name := [],
    next_command_arg := { argtype := 0, dir := 0, limit := 0 }, current_cmd_key := 0,
    in_zero_time_command := false, calls := [], keymap_reads := [] }

/-- Collaborators whose menus select nothing and whose sidebar sets no command. -/
def quietExternals : externals :=
  { ui := fun _ => { doextcmd := none, show_help := none, show_mainmenu := none },
    sidebar := fun _ _ => none }

/-- What the count `m` has become when the command `c` is passed on with the
argument `a` and `get_command` returns in the state `g`: with `CMD_ARG_LIMIT`
on `c` the argument has the type bit and the limit `m`; without it the argument
has no such bit and `repeats_remaining` is `m`, unless `c` is the command
`repeat`, for which `repeats_remaining` is `entry`. -/
def count_attached (E : Env) (s : State) (m : Nat) (c : cmd_ptr) (entry : Int)
    (g : input_state) (a : nh_cmd_arg) : Prop :=
  (s.flags_of c &&& E.CMD_ARG_LIMIT ≠ 0 →
      a.argtype &&& E.CMD_ARG_LIMIT = E.CMD_ARG_LIMIT ∧ a.limit = m)
  ∧ (s.flags_of c &&& E.CMD_ARG_LIMIT = 0 →
      a.argtype &&& E.CMD_ARG_LIMIT = 0
        ∧ (some c ≠ find_command s "repeat".toList → g.repeats_remaining = (m : Int)))
  ∧ (some c = find_command s "repeat".toList → g.repeats_remaining = entry)

/-- A keymap file whose second line has the key field `100000000`, which is
`2 ^ 32` in base 16. -/
def wideKeyFile : List Char := "6c search\n100000000 search\n".toList


/-! ## The colour keys of the tile text format (`tiletext.c`) -/

/-- The constant `TEXTCOLORMAPSPACE`. -/
def TEXTCOLORMAPSPACE : Nat := 4096

/-- The function `bysx2char`, on the arguments `i ≥ 0` that its callers pass. -/
def bysx2char (i : Nat) : Char :=
  if i = 0 then '_'
  else if i < 27 then Char.ofNat ('A'.toNat + i - 1)
  else if i < 53 then Char.ofNat ('a'.toNat + i - 27)
  else if i < 63 then Char.ofNat ('0'.toNat + i - 53)
  else '$'

/-- The function `char2bysx`. -/
def char2bysx (c : Char) : Int :=
  if c = '_' then 0
  else if 'A' ≤ c ∧ c ≤ 'Z' then (c.toNat : Int) - ('A'.toNat : Int) + 1
  else if 'a' ≤ c ∧ c ≤ 'z' then (c.toNat : Int) - ('a'.toNat : Int) + 27
  else if '0' ≤ c ∧ c ≤ '9' then (c.toNat : Int) - ('0'.toNat : Int) + 53
  else if c = '$' then 63
  else -1

/-- The string that `write_text_colormap` has in `c` for the colour `i` when
`num_colors` colours are written: `c` starts as `"?"`, so in the branch for at
most 62 colours `c[1]` is the NUL that ends the string. -/
def color_key (num_colors i : Nat) : List Char :=
  if num_colors > 62 then [bysx2char (i / 64), bysx2char (i % 64)]
  else [bysx2char (i + 1)]

/-- The function `write_text_colormap`: the strings it stores in `charcolors`,
or `none` when it returns FALSE. -/
def write_text_colormap (MAXCOLORMAPSIZE colorsinmainmap : Nat) : Option (List (List Char)) :=
  if colorsinmainmap > MAXCOLORMAPSIZE then none
  else some ((List.range colorsinmainmap).map (color_key colorsinmainmap))

/-- The number `n` that `read_text_colormap` and `read_txttile_info` compute
from the key in `c`: `char2bysx(c[0]) * 64 + char2bysx(c[1])` when `c[1]` is not
NUL, and `char2bysx(c[0])` otherwise. -/
def key_slot (c : List Char) : Int :=
  match c with
  | [] => char2bysx '\x00'
  | [c0] => char2bysx c0
  | c0 :: c1 :: _ => char2bysx c0 * 64 + char2bysx c1

/-- A colour: the three values `r`, `g` and `b`. -/
abbrev rgb := Nat × Nat × Nat

/-- The variables that `read_text_colormap` fills: `color_index`, with -1 for
a slot without a colour, and the colours of `ColorMap`, of which there are
`num_colors`. -/
structure text_colormap where
  color_index : Nat → Int
  ColorMap : List rgb

/-- The value of `colorsinmap` after `read_text_colormap(txtfile, 0)`. -/
def text_colormap.colorsinmap (st : text_colormap) : Nat := st.ColorMap.length

/-- One pass of the `while` loop of `read_text_colormap` with `noact == 0`, for
the key `e.1` and the colour `e.2` that `fscanf` has read. -/
def read_text_colormap_entry (st : text_colormap) (e : List Char × rgb) : text_colormap :=
  if 0 ≤ key_slot e.1 ∧ key_slot e.1 < (TEXTCOLORMAPSPACE : Int) then
    { color_index := fun j =>
        if j = (key_slot e.1).toNat then (st.ColorMap.length : Int) else st.color_index j,
      ColorMap := st.ColorMap ++ [e.2] }
  else st

/-- The function `read_text_colormap` with `noact == 0` on the keys and colours
of the lines of the colour map. -/
def read_text_colormap (entries : List (List Char × rgb)) : text_colormap :=
  entries.foldl read_text_colormap_entry { color_index := fun _ => -1, ColorMap := [] }

/-- The index `k` at which the loop of `write_txttile_info` over `MainColorMap`
stops for the pixel `p`: the first colour equal to `p`, or `colorsinmainmap`. -/
def find_color (MainColorMap : List rgb) (p : rgb) : Nat := MainColorMap.indexOf p

/-- What `write_txttile_info` writes for one row of pixels; an entry of
`charcolors` that `write_text_colormap` did not fill holds the empty string. -/
def write_pixel_row (charcolors : List (List Char)) (MainColorMap : List rgb)
    (row : List rgb) : List Char :=
  "  ".toList ++ row.flatMap (fun p => charcolors.getD (find_color MainColorMap p) [])
    ++ ['\n']

/-- The call `fscanf(txtfile, "%1s", c)` or `fscanf(txtfile, "%2s", c)`, by the
width `w`: white space is skipped, then at most `w` characters other than white
space are read. The result is `c` and the text not yet read, or `none` at the
end of the file. -/
def fscanf_s (w : Nat) (text : List Char) : Option (List Char × List Char) :=
  if text.dropWhile isspace = [] then none
  else
    some (((text.dropWhile isspace).takeWhile (fun c => !isspace c)).take w,
      (text.dropWhile isspace).drop
        (((text.dropWhile isspace).takeWhile (fun c => !isspace c)).take w).length)

/-- The width of `fmt_string` in `read_txttile_info`. -/
def pixel_width (colorsinmap : Nat) : Nat := if colorsinmap > 64 then 2 else 1

/-- The body of the pixel loops of `read_txttile_info` after `fscanf` has
filled `c`: the colour stored in the pixel, or `none` when the pixel is left as
it was. -/
def read_pixel (st : text_colormap) (c : List Char) : Option rgb :=
  if (if 0 ≤ key_slot c ∧ key_slot c < (TEXTCOLORMAPSPACE : Int)
      then st.color_index (key_slot c).toNat else -1) = -1 then none
  else st.ColorMap.get?
    (if 0 ≤ key_slot c ∧ key_slot c < (TEXTCOLORMAPSPACE : Int)
      then st.color_index (key_slot c).toNat else -1).toNat

/-- The pixel loops of `read_txttile_info` for `n` pixels: the colours read and
the text not yet read, or `none` when the file ends. -/
def read_pixels (st : text_colormap) : Nat → List Char → Option (List (Option rgb) × List Char)
  | 0, text => some ([], text)
  | n + 1, text =>
    match fscanf_s (pixel_width st.colorsinmap) text with
    | none => none
    | some (c, rest) =>
      match read_pixels st n rest with
      | none => none
      | some (ps, rest2) => some (read_pixel st c :: ps, rest2)

/-- Whether `ch` is one of the characters of a colour key. -/
def is_key_char (ch : Char) : Bool :=
  ch = '_' || ('A' ≤ ch && ch ≤ 'Z') || ('a' ≤ ch && ch ≤ 'z') || ('0' ≤ ch && ch ≤ '9')
    || ch = '$'

/-- The loop `for (i = 0;; i++)` of `set_tile_size` on one row: the count `i`
of the characters of keys, started at `i`, and the text from the character at
which the loop stops. -/
def count_key_chars : List Char → Nat → Nat × List Char
  | [], i => (i, [])
  | ch :: rest, i =>
    if ch = ' ' ∨ ch = '\t' then count_key_chars rest i
    else if is_key_char ch then count_key_chars rest (i + 1)
    else (i, ch :: rest)

/-- How one pass of the loop over the rows in `set_tile_size` ends. -/
inductive row_scan
  /-- The row has the width `i` in pixels. -/
  | width (i : Nat)
  /-- The `}` that ends the tile was found. -/
  | done
  /-- An error was reported. -/
  | error
deriving DecidableEq, Repr

/-- One pass of the loop over the rows in `set_tile_size`, on the text from the
start of a row. -/
def set_tile_size_row (colorsinmap : Nat) (text : List Char) : row_scan :=
  match (count_key_chars text 0).2 with
  | [] => .error
  | ch :: _ =>
    if (count_key_chars text 0).1 = 0 ∧ ch = '}' then .done
    else if ch ≠ '\n' ∧ ch ≠ '\r' then .error
    else if colorsinmap > 64 then
      (if (count_key_chars text 0).1 % 2 = 1 then .error
       else .width ((count_key_chars text 0).1 / 2))
    else .width (count_key_chars text 0).1

/-! ## Notions and examples for the editor, the tile text format and the file -/

/-- The name under which `key` is bound: that of the command in `keymap`, or
else that of the command in `unknown_keymap`. -/
def bound_name (s : State) (key : Nat) : Option (List Char) :=
  match s.keymap key with
  | some p => some (s.name_of p)
  | none =>
    match s.unknown_keymap key with
    | some p => some (s.name_of p)
    | none => none

/-- One line `<hex key> <name>` for every bound key among the `n` keys from
`key` on, in increasing order of the keys, and nothing for the other keys. -/
def bound_lines (s : State) : Nat → Nat → List (List Char)
  | 0, _ => []
  | n + 1, key =>
    (match bound_name s key with
     | some name => [printf_x key ++ ' ' :: name]
     | none => []) ++ bound_lines s n (key + 1)

/-- A keymap file that marks the built-in command `east` as an extended command. -/
def extEastFile : List Char := "EXT east\n".toList

/-- A keymap file that binds the key `x` to a command that the game does not have. -/
def unknownBindingFile : List Char := "78 foo\n".toList

/-- A colour map of `n` colours: the colour `i` is `(i, 0, 0)`. -/
def rampColors (n : Nat) : List rgb := (List.range n).map (fun i => (i, 0, 0))

/-- The keys and colours that `read_text_colormap` reads from the lines that
`write_text_colormap` wrote for the colour map `rampColors n`. -/
def rampEntries (n : Nat) : List (List Char × rgb) :=
  ((List.range n).map (color_key n)).zip (rampColors n)



/-- What holds of the tables while `read_keymap` reads a file: the keys of
`keymap` are bound to commands of the two command arrays, the keys of
`unknown_keymap` are bound to records in use, and the names of the records in
use have the property `G`. -/
def loaded_ok (G : List Char → Prop) (t : State) : Prop :=
  all_valid t t.keymap ∧ unk_ok t
    ∧ (∀ k p, t.unknown_keymap k = some p → ∃ i, p = .unknown i ∧ i < t.unknown_count)
    ∧ ∀ (i : Nat) (c : nh_cmd_desc), i < t.unknown_count →
        t.unknown_commands.get? i = some c → G c.name

/-- The lines that `write_keymap` produces for a state whose names are good:
those of the bound keys, then those of the commands of the game, then those of
the records of unknown commands in use. -/
def file_lines (E : Env) (s : State) : List (List Char) :=
  bound_lines s E.KEY_MAX 1
    ++ (s.commandlist ++ s.unknown_commands.take s.unknown_count).map (ext_line E)

/-- A keymap file that names commands of the registry only. -/
def knownFile : List Char := "78 search\nNOEXT pray\nEXT east\n".toList

/-! # Theorems

## Facts about `init_keymap` -/

theorem kset_same (km : Table) (k : Nat) (v : Option cmd_ptr) : kset km k v k = v := by
  simp [kset]

theorem kset_other (km : Table) (k j : Nat) (v : Option cmd_ptr) (h : j ≠ k) :
    kset km k v j = km j := by
  simp [kset, h]

theorem last_def_some {k : Nat} {l : List nh_cmd_desc} {i : Nat} (h : last_def k l = some i) :
    k ≠ 0 ∧ (∃ c, l.get? i = some c ∧ c.defkey = k)
      ∧ ∀ j c, i < j → l.get? j = some c → c.defkey ≠ k := by
  induction l generalizing i with
  | nil => simp [last_def] at h
  | cons c cs ih =>
    unfold last_def at h
    cases hr : last_def k cs with
    | some j =>
      rw [hr] at h
      simp only [Option.some.injEq] at h
      subst h
      obtain ⟨h0, ⟨c1, hc1, hd⟩, hlast⟩ := ih hr
      refine ⟨h0, ⟨c1, by simpa using hc1, hd⟩, ?_⟩
      intro j2 c2 hj hget
      cases j2 with
      | zero => omega
      | succ j3 => exact hlast j3 c2 (by omega) (by simpa using hget)
    | none =>
      rw [hr] at h
      by_cases hc : c.defkey = k ∧ k ≠ 0
      · simp only [hc, ne_eq, not_false_eq_true, and_self, if_true, Option.some.injEq] at h
        subst h
        refine ⟨hc.2, ⟨c, by simp, hc.1⟩, ?_⟩
        intro j2 c2 hj hget
        cases j2 with
        | zero => omega
        | succ j3 =>
          intro hk
          have hmem : c2 ∈ cs := List.get?_mem (n := j3) (by simpa using hget)
          clear ih hget hj
          induction cs with
          | nil => simp at hmem
          | cons d ds ihd =>
            unfold last_def at hr
            cases hr2 : last_def k ds with
            | some j => rw [hr2] at hr; simp at hr
            | none =>
              rw [hr2] at hr
              rcases List.mem_cons.1 hmem with h1 | h1
              · subst h1
                simp [hk, hc.2] at hr
              · exact ihd hr2 h1
      · simp [hc] at h

theorem last_def_none {k : Nat} {l : List nh_cmd_desc} (h : last_def k l = none) :
    ∀ c ∈ l, c.defkey ≠ k ∨ k = 0 := by
  induction l with
  | nil => simp
  | cons d ds ih =>
    unfold last_def at h
    cases hr : last_def k ds with
    | some j => rw [hr] at h; simp at h
    | none =>
      rw [hr] at h
      intro c hc
      rcases List.mem_cons.1 hc with h1 | h1
      · subst h1
        by_cases hk : k = 0
        · exact Or.inr hk
        · left
          intro hd
          simp [hd, hk] at h
      · exact ih hr c h1

theorem last_def_of_mem {k : Nat} {l : List nh_cmd_desc} (hk : k ≠ 0)
    (h : ∃ c ∈ l, c.defkey = k) : ∃ i, last_def k l = some i := by
  cases hr : last_def k l with
  | some i => exact ⟨i, rfl⟩
  | none =>
    obtain ⟨c, hc, hd⟩ := h
    rcases last_def_none hr c hc with h1 | h1
    · exact absurd hd h1
    · exact absurd h1 hk

theorem assign_defkeys_eq (mk : Nat → cmd_ptr) (l : List nh_cmd_desc) (i : Nat) (km : Table)
    (k : Nat) :
    assign_defkeys mk i l km k =
      (match last_def k l with
       | some j => some (mk (i + j))
       | none => km k) := by
  induction l generalizing i km with
  | nil => simp [assign_defkeys, last_def]
  | cons c cs ih =>
    rw [assign_defkeys, ih, last_def]
    cases hr : last_def k cs with
    | some j => simp only; congr 2; omega
    | none =>
      simp only
      by_cases hc : c.defkey = k ∧ k ≠ 0
      · obtain ⟨h1, h2⟩ := hc
        subst h1
        simp [h2, kset]
      · rw [if_neg hc]
        by_cases h0 : c.defkey ≠ 0
        · rw [if_pos h0]
          have : k ≠ c.defkey := by
            intro hk
            apply hc
            exact ⟨hk.symm, hk ▸ h0⟩
          simp [kset, this]
        · rw [if_neg h0]

theorem assign_altkeys_of_some (mk : Nat → cmd_ptr) (l : List nh_cmd_desc) (i : Nat)
    (km : Table) (k : Nat) (p : cmd_ptr) (h : km k = some p) :
    assign_altkeys mk i l km k = some p := by
  induction l generalizing i km with
  | nil => simpa [assign_altkeys] using h
  | cons c cs ih =>
    rw [assign_altkeys]
    apply ih
    by_cases hc : c.altkey ≠ 0 ∧ km c.altkey = none
    · rw [if_pos hc]
      have : k ≠ c.altkey := by
        intro hk
        rw [← hk, h] at hc
        simp at hc
      simp [kset, this, h]
    · rw [if_neg hc]; exact h

theorem assign_metakeys_of_not (E : Env) (n i : Nat) (km : Table) (k : Nat)
    (h : ∀ j, j < n → k ≠ E.KEY_ALT ||| (i + j - 128)) :
    assign_metakeys E n i km k = km k := by
  induction n generalizing i km with
  | zero => simp [assign_metakeys]
  | succ n ih =>
    rw [assign_metakeys, ih]
    · have := h 0 (by omega)
      simp only [Nat.add_zero] at this
      simp [kset, this]
    · intro j hj
      have := h (j + 1) (by omega)
      have e : i + (j + 1) - 128 = i + 1 + j - 128 := by omega
      rw [e] at this
      exact this

theorem init_keymap_of_not_mirrored (E : Env) (s : State) (k : Nat) (h : ¬ mirrored E k) :
    (init_keymap E s).keymap k =
      assign_altkeys cmd_ptr.builtin 0 s.builtins
        (assign_altkeys cmd_ptr.dyn 0 s.commandlist
          (assign_defkeys cmd_ptr.builtin 0 s.builtins
            (assign_defkeys cmd_ptr.dyn 0 s.commandlist
              (assign_digits (find_command s "repeatcount".toList) 9 '1'.toNat
                (init_keymap_fixed E s))))) k := by
  simp only [init_keymap, init_keymap_table]
  apply assign_metakeys_of_not
  intro j hj hk
  apply h
  have e : 128 + j - 128 = j := by omega
  rw [e] at hk
  exact ⟨j, hj, hk⟩

theorem init_keymap_last_default (E : Env) (s : State) (d : Nat) (p : cmd_ptr)
    (hnot : ¬ mirrored E d) (hlast : last_default s d = some p) :
    (init_keymap E s).keymap d = some p := by
  rw [init_keymap_of_not_mirrored E s d hnot]
  apply assign_altkeys_of_some
  apply assign_altkeys_of_some
  rw [assign_defkeys_eq]
  unfold last_default at hlast
  cases hb : last_def d s.builtins with
  | some i =>
    rw [hb] at hlast
    simpa using hlast
  | none =>
    rw [hb] at hlast
    simp only
    rw [assign_defkeys_eq]
    cases hdyn : last_def d s.commandlist with
    | some i =>
      rw [hdyn] at hlast
      simpa using hlast
    | none =>
      rw [hdyn] at hlast
      simp at hlast

set_option maxRecDepth 100000 in
theorem builtin_defkeys_small (E : Env) :
    ∀ k ∈ (builtin_commands E).map (fun c => c.defkey), k < 128 := by
  simp only [builtin_commands, mkcmd, List.map_cons, List.map_nil]
  decide

theorem not_mirrored_of_lt (E : Env) (k : Nat) (hE : 128 ≤ E.KEY_ALT) (hk : k < 128) :
    ¬ mirrored E k := by
  rintro ⟨j, _, hj⟩
  have : E.KEY_ALT ≤ E.KEY_ALT ||| j :=
    Nat.le_of_testBit (fun i h => by simp [h])
  omega

theorem last_def_eq_some {k : Nat} {l : List nh_cmd_desc} {i : Nat} (hk : k ≠ 0)
    (hi : ∃ c, l.get? i = some c ∧ c.defkey = k)
    (hlast : ∀ j c, i < j → l.get? j = some c → c.defkey ≠ k) : last_def k l = some i := by
  obtain ⟨c, hc, hd⟩ := hi
  cases hr : last_def k l with
  | none =>
    rcases last_def_none hr c (List.get?_mem hc) with h | h
    · exact absurd hd h
    · exact absurd h hk
  | some j =>
    obtain ⟨_, ⟨c2, hc2, hd2⟩, hl2⟩ := last_def_some hr
    rcases Nat.lt_trichotomy i j with h | h | h
    · exact absurd hd2 (hlast j c2 h hc2)
    · rw [h]
    · exact absurd hd (hl2 i c h hc)

theorem last_default_of_is_last {s : State} {d : Nat} {p : cmd_ptr} (hd : d ≠ 0)
    (h : is_last_default s d p) : last_default s d = some p := by
  unfold last_default
  cases p with
  | dyn i =>
    obtain ⟨h1, h2, h3⟩ := h
    have hb : last_def d s.builtins = none := by
      cases hr : last_def d s.builtins with
      | none => rfl
      | some j =>
        obtain ⟨_, ⟨c, hc, hcd⟩, _⟩ := last_def_some hr
        exact absurd hcd (h3 c (List.get?_mem hc))
    rw [hb, last_def_eq_some hd h1 h2]
    rfl
  | builtin i =>
    obtain ⟨h1, h2⟩ := h
    rw [last_def_eq_some hd h1 h2]
  | unknown i => exact absurd h (by simp [is_last_default])

theorem last_default_exists {s : State} {k : Nat} (hk : k ≠ 0)
    (h : ∃ a, a ∈ s.commandlist ++ s.builtins ∧ a.defkey = k) :
    ∃ p c, last_default s k = some p ∧ s.deref p = some c ∧ c.defkey = k := by
  unfold last_default
  cases hb : last_def k s.builtins with
  | some i =>
    obtain ⟨_, ⟨c, hc, hcd⟩, _⟩ := last_def_some hb
    exact ⟨.builtin i, c, rfl, hc, hcd⟩
  | none =>
    obtain ⟨a, ha, hak⟩ := h
    rcases List.mem_append.1 ha with h1 | h1
    · obtain ⟨i, hi⟩ := last_def_of_mem hk ⟨a, h1, hak⟩
      obtain ⟨_, ⟨c, hc, hcd⟩, _⟩ := last_def_some hi
      exact ⟨.dyn i, c, by simp [hi], hc, hcd⟩
    · rcases last_def_none hb a h1 with h2 | h2
      · exact absurd hak h2
      · exact absurd h2 hk

/-! ## Claims about `init_keymap` -/

/-- A key with the value of a byte is not written by the last loop of
`init_keymap`, when `KEY_ALT` is 256 or more. -/
theorem not_mirrored_of_byte (E : Env) (k : Nat) (hE : 256 ≤ E.KEY_ALT) (hk : k < 256) :
    ¬ mirrored E k := by
  rintro ⟨j, _, hj⟩
  have : E.KEY_ALT ≤ E.KEY_ALT ||| j :=
    Nat.le_of_testBit (fun i h => by simp [h])
  omega

/-- C6: let the default and alternate keys of the commands be bytes, and
`KEY_ALT` be 256 or more. When a key `k` is the default key of a command `a` and
the alternate key of a command `b`, then after `init_keymap` the entry
`keymap[k]` is a command whose default key is `k`. -/
theorem default_key_beats_alternate_key (E : Env) (s : State) (k : Nat) (a b : nh_cmd_desc)
    (hE : 256 ≤ E.KEY_ALT) (hbytes : byte_keys (s.commandlist ++ s.builtins))
    (ha : a ∈ s.commandlist ++ s.builtins) (_hb : b ∈ s.commandlist ++ s.builtins)
    (hak : a.defkey = k) (_hbk : b.altkey = k) (hk : k ≠ 0) :
    ∃ p c, (init_keymap E s).keymap k = some p ∧ s.deref p = some c ∧ c.defkey = k := by
  have hnot : ¬ mirrored E k := not_mirrored_of_byte E k hE (hak ▸ (hbytes a ha).1)
  obtain ⟨p, c, hp, hc, hd⟩ := last_default_exists hk ⟨a, ha, hak⟩
  exact ⟨p, c, init_keymap_last_default E s k p hnot hp, hc, hd⟩

set_option maxRecDepth 100000 in
/-- C6 at the key `Q`, which `beta` declares as its default key and `delta` as
its alternate key. -/
theorem default_key_beats_alternate_key_witness :
    ∃ p c, (init_keymap demoEnv (load_state demoEnv metaCommands none)).keymap 'Q'.toNat
        = some p
      ∧ (load_state demoEnv metaCommands none).deref p = some c
      ∧ c.defkey = 'Q'.toNat :=
  default_key_beats_alternate_key demoEnv (load_state demoEnv metaCommands none)
    'Q'.toNat (mkcmd "beta" "second command" 'Q'.toNat 0 0)
    (mkcmd "delta" "fourth command" 0 'Q'.toNat 0)
    (by decide) (by decide) (by decide) (by decide) (by decide) (by decide) (by decide)

/-- C7: a key that is the default key of a command of the game and of a built-in
command is bound, after `init_keymap`, to the last built-in command that declares it. -/
theorem builtins_win_default_key_ties (E : Env) (s : State) (k : Nat)
    (hE : 128 ≤ E.KEY_ALT)
    (hs : s.builtins.map (fun c => c.defkey) = (builtin_commands E).map (fun c => c.defkey))
    (hk : k ≠ 0) (_hdyn : ∃ c ∈ s.commandlist, c.defkey = k)
    (hbi : ∃ b ∈ s.builtins, b.defkey = k) :
    ∃ i b, (init_keymap E s).keymap k = some (.builtin i) ∧ s.builtins.get? i = some b
      ∧ b.defkey = k ∧ ∀ j b2, i < j → s.builtins.get? j = some b2 → b2.defkey ≠ k := by
  obtain ⟨i, hi⟩ := last_def_of_mem hk hbi
  obtain ⟨_, ⟨b, hb, hbd⟩, hlast⟩ := last_def_some hi
  have hsmall : k < 128 := by
    apply builtin_defkeys_small E
    rw [← hs]
    exact List.mem_map.2 ⟨b, List.get?_mem hb, hbd⟩
  refine ⟨i, b, ?_, hb, hbd, hlast⟩
  apply init_keymap_last_default E s k _ (not_mirrored_of_lt E k hE hsmall)
  simp [last_default, hi]

set_option maxRecDepth 100000 in
/-- C7 at the key `l`, declared by `kick` of the game and by the built-in `east`. -/
theorem builtins_win_default_key_ties_witness :
    ∃ i b, (init_keymap demoEnv (load_state demoEnv tieCommands none)).keymap 'l'.toNat
        = some (.builtin i)
      ∧ (load_state demoEnv tieCommands none).builtins.get? i = some b
      ∧ b.defkey = 'l'.toNat
      ∧ ∀ j b2, i < j → (load_state demoEnv tieCommands none).builtins.get? j = some b2 →
          b2.defkey ≠ 'l'.toNat :=
  builtins_win_default_key_ties demoEnv (load_state demoEnv tieCommands none) 'l'.toNat
    (by decide) rfl (by decide) (by decide) (by decide)

/-- C8: let the default and alternate keys of the commands be bytes, and
`KEY_ALT` be 256 or more. A command `p` whose non-zero default key `d` is the
last default-key assignment to `d` is bound to `d` after `init_keymap`; the last
loop, which writes the keys `KEY_ALT | 0 .. KEY_ALT | 127`, does not write `d`. -/
theorem last_default_key_survives (E : Env) (s : State) (d : Nat) (p : cmd_ptr)
    (hE : 256 ≤ E.KEY_ALT) (hbytes : byte_keys (s.commandlist ++ s.builtins))
    (hd : d ≠ 0) (hlast : is_last_default s d p) :
    (init_keymap E s).keymap d = some p ∧ ¬ mirrored E d := by
  have hbyte : d < 256 := by
    cases p with
    | dyn i =>
      obtain ⟨⟨c, hc, hcd⟩, _⟩ := hlast
      exact hcd ▸ (hbytes c (List.mem_append_left _ (List.get?_mem hc))).1
    | builtin i =>
      obtain ⟨⟨c, hc, hcd⟩, _⟩ := hlast
      exact hcd ▸ (hbytes c (List.mem_append_right _ (List.get?_mem hc))).1
    | unknown i => exact absurd hlast (by simp [is_last_default])
  have hnot := not_mirrored_of_byte E d hE hbyte
  exact ⟨init_keymap_last_default E s d p hnot (last_default_of_is_last hd hlast), hnot⟩

set_option maxRecDepth 100000 in
/-- C8 for `gamma` and its default key `0x80 | 5`, a key of the range
`128 .. 255` that the last loop reads. -/
theorem last_default_key_survives_witness :
    (init_keymap demoEnv (load_state demoEnv metaCommands none)).keymap (0x80 ||| 5)
        = some (.dyn 1)
      ∧ ¬ mirrored demoEnv (0x80 ||| 5) :=
  last_default_key_survives demoEnv (load_state demoEnv metaCommands none) (0x80 ||| 5) (.dyn 1)
    (by decide) (by decide) (by decide)
    ⟨⟨_, rfl, rfl⟩, by
      intro j c hj hc
      match j, hj, hc with
      | 2, _, hc =>
        simp [load_state, metaCommands] at hc
        subst hc
        decide
      | j + 3, _, hc => simp [load_state, metaCommands] at hc, by decide⟩

/-! ## The command arrays during a load -/

theorem same_skel_refl (s : State) : same_skel s s := ⟨rfl, rfl⟩

theorem same_skel_trans {a b c : State} (h1 : same_skel a b) (h2 : same_skel b c) :
    same_skel a c := ⟨h1.1.trans h2.1, h1.2.trans h2.2⟩

theorem find_index_congr (n : List Char) (i : Nat) (l l2 : List nh_cmd_desc)
    (h : l.map skel = l2.map skel) : find_index n i l = find_index n i l2 := by
  induction l generalizing l2 i with
  | nil =>
    cases l2 with
    | nil => rfl
    | cons d ds => simp at h
  | cons c cs ih =>
    cases l2 with
    | nil => simp at h
    | cons d ds =>
      simp only [List.map_cons, List.cons.injEq] at h
      have hn : c.name = d.name := congrArg Prod.fst h.1
      simp only [find_index, hn]
      rw [ih (i + 1) ds h.2]

theorem find_command_congr {t s : State} (h : same_skel t s) (n : List Char) :
    find_command t n = find_command s n := by
  unfold find_command
  rw [find_index_congr n 0 _ _ h.1, find_index_congr n 0 _ _ h.2]

theorem assign_defkeys_congr (mk : Nat → cmd_ptr) (i : Nat) (l l2 : List nh_cmd_desc)
    (km : Table) (h : l.map skel = l2.map skel) :
    assign_defkeys mk i l km = assign_defkeys mk i l2 km := by
  induction l generalizing l2 i km with
  | nil =>
    cases l2 with
    | nil => rfl
    | cons d ds => simp at h
  | cons c cs ih =>
    cases l2 with
    | nil => simp at h
    | cons d ds =>
      simp only [List.map_cons, List.cons.injEq] at h
      have hn : c.defkey = d.defkey := congrArg (fun x => x.2.1) h.1
      simp only [assign_defkeys, hn]
      rw [ih (i + 1) ds _ h.2]

theorem assign_altkeys_congr (mk : Nat → cmd_ptr) (i : Nat) (l l2 : List nh_cmd_desc)
    (km : Table) (h : l.map skel = l2.map skel) :
    assign_altkeys mk i l km = assign_altkeys mk i l2 km := by
  induction l generalizing l2 i km with
  | nil =>
    cases l2 with
    | nil => rfl
    | cons d ds => simp at h
  | cons c cs ih =>
    cases l2 with
    | nil => simp at h
    | cons d ds =>
      simp only [List.map_cons, List.cons.injEq] at h
      have hn : c.altkey = d.altkey := congrArg (fun x => x.2.2) h.1
      simp only [assign_altkeys, hn]
      rw [ih (i + 1) ds _ h.2]

theorem init_keymap_fixed_congr (E : Env) {t s : State} (h : same_skel t s) :
    init_keymap_fixed E t = init_keymap_fixed E s := by
  simp only [init_keymap_fixed, find_command_congr h]

theorem init_keymap_table_congr (E : Env) {t s : State} (h : same_skel t s) :
    init_keymap_table E t = init_keymap_table E s := by
  simp only [init_keymap_table, init_keymap_fixed_congr E h, find_command_congr h]
  rw [assign_defkeys_congr _ _ _ _ _ h.1, assign_defkeys_congr _ _ _ _ _ h.2,
    assign_altkeys_congr _ _ _ _ _ h.1, assign_altkeys_congr _ _ _ _ _ h.2]

theorem mod_flags_skel (f : Nat → Nat) (i : Nat) (l : List nh_cmd_desc) :
    (mod_flags f i l).map skel = l.map skel := by
  induction l generalizing i with
  | nil => cases i <;> rfl
  | cons c cs ih =>
    cases i with
    | zero => simp [mod_flags, skel]
    | succ j => simp [mod_flags, ih]

theorem set_flags_same_skel (s : State) (p : cmd_ptr) (f : Nat → Nat) :
    same_skel (s.set_flags p f) s := by
  cases p with
  | dyn i => exact ⟨mod_flags_skel f i _, rfl⟩
  | builtin i => exact ⟨rfl, mod_flags_skel f i _⟩
  | unknown i => exact ⟨rfl, rfl⟩

theorem set_flags_keymap (s : State) (p : cmd_ptr) (f : Nat → Nat) :
    (s.set_flags p f).keymap = s.keymap := by
  cases p <;> rfl

theorem record_unknown_same_skel (E : Env) (s : State) (n : List Char) :
    same_skel (record_unknown E s n).1 s := by
  unfold record_unknown grow_unknown
  split <;> exact ⟨rfl, rfl⟩

theorem record_unknown_keymap (E : Env) (s : State) (n : List Char) :
    (record_unknown E s n).1.keymap = s.keymap := by
  unfold record_unknown grow_unknown
  split <;> rfl

/-- The exits of `apply_line` for a non-null `cmd`, one hypothesis each. -/
theorem apply_line_cases (E : Env) (s : State) (p : cmd_ptr) (u : Bool) (line : List Char)
    (P : line_result → Prop)
    (h1 : line.take 3 = ['E', 'X', 'T'] →
      P (.nextline (s.set_flags p (fun f => f ||| E.CMD_EXT))))
    (h2 : line.take 5 = ['N', 'O', 'E', 'X', 'T'] →
      P (.nextline (s.set_flags p (fun f => and_not32 f E.CMD_EXT))))
    (h3 : fatal_line E line → P (.badmap s))
    (h4 : (∀ k : Nat, ¬ binds_key E line k) ∨ (∀ k : Nat, binds_key E line k → E.KEY_MAX < k) →
      P (.nextline s))
    (h5 : ∀ k : Nat, k ≠ 0 → k ≤ E.KEY_MAX → binds_key E line k → u = false →
      P (.nextline { s with keymap := kset s.keymap k (some p) }))
    (h6 : ∀ k : Nat, k ≠ 0 → k ≤ E.KEY_MAX → binds_key E line k → u = true →
      P (.nextline { s with unknown_keymap := kset s.unknown_keymap k (some p) })) :
    P (apply_line E s (some p) u line) := by
  unfold apply_line
  simp only
  by_cases c1 : line.take 3 = ['E', 'X', 'T']
  · rw [if_pos c1]; exact h1 c1
  rw [if_neg c1]
  by_cases c2 : line.take 5 = ['N', 'O', 'E', 'X', 'T']
  · rw [if_pos c2]; exact h2 c2
  rw [if_neg c2]
  by_cases c3 : line_key E line = 0 ∨ (strtol16 E line).2 = 0
  · rw [if_pos c3]; exact h3 (Or.inr ⟨c1, c2, c3⟩)
  rw [if_neg c3]
  by_cases c4 : line_key E line < 0
      ∨ line_key E line > (E.KEY_MAX : Int)
  · rw [if_pos c4]
    apply h4
    rcases c4 with c4 | c4
    · left
      intro k hk
      have := hk.2.2
      omega
    · right
      intro k hk
      have := hk.2.2
      omega
  rw [if_neg c4]
  have hk0 : (line_key E line).toNat ≠ 0 := by omega
  have hk1 : (line_key E line).toNat ≤ E.KEY_MAX := by omega
  have hk2 : binds_key E line (line_key E line).toNat :=
    ⟨c1, c2, by omega⟩
  by_cases c5 : u = false
  · rw [if_pos c5]; exact h5 _ hk0 hk1 hk2 c5
  · rw [if_neg c5]; exact h6 _ hk0 hk1 hk2 (by simpa using c5)

theorem resolve_cmd_some (E : Env) (s : State) (n : List Char) :
    ∃ p, (resolve_cmd E s n).2.1 = some p := by
  unfold resolve_cmd
  cases find_command s n with
  | some p => exact ⟨p, rfl⟩
  | none => exact ⟨_, rfl⟩

theorem resolve_cmd_same_skel (E : Env) (s : State) (n : List Char) :
    same_skel (resolve_cmd E s n).1 s := by
  unfold resolve_cmd
  cases find_command s n with
  | some p => exact same_skel_refl s
  | none => exact record_unknown_same_skel E s n

theorem resolve_cmd_keymap (E : Env) (s : State) (n : List Char) :
    (resolve_cmd E s n).1.keymap = s.keymap := by
  unfold resolve_cmd
  cases find_command s n with
  | some p => rfl
  | none => exact record_unknown_keymap E s n

theorem read_keymap_line_same_skel (E : Env) (s : State) (line : List Char) :
    (read_keymap_line E s line).holds (fun s1 => same_skel s1 s) := by
  unfold read_keymap_line
  split
  · trivial
  · obtain ⟨p, hp⟩ := resolve_cmd_some E s (second_word line)
    rw [hp]
    have hr := resolve_cmd_same_skel E s (second_word line)
    apply apply_line_cases
    · intro _; exact same_skel_trans (set_flags_same_skel _ _ _) hr
    · intro _; exact same_skel_trans (set_flags_same_skel _ _ _) hr
    · intro _; exact hr
    · intro _; exact hr
    · intro k _ _ _ _; exact hr
    · intro k _ _ _ _; exact hr

theorem read_keymap_line_keymap_zero (E : Env) (s : State) (line : List Char) :
    (read_keymap_line E s line).holds (fun s1 => s1.keymap 0 = s.keymap 0) := by
  unfold read_keymap_line
  split
  · trivial
  · obtain ⟨p, hp⟩ := resolve_cmd_some E s (second_word line)
    rw [hp]
    have hr := resolve_cmd_keymap E s (second_word line)
    apply apply_line_cases
    · intro _; simp only [line_result.holds]; rw [set_flags_keymap, hr]
    · intro _; simp only [line_result.holds]; rw [set_flags_keymap, hr]
    · intro _; simp only [line_result.holds]; rw [hr]
    · intro _; simp only [line_result.holds]; rw [hr]
    · intro k hk _ _ _
      simp only [line_result.holds]
      rw [kset_other _ _ _ _ (Ne.symm hk), hr]
    · intro k _ _ _ _; simp only [line_result.holds]; rw [hr]

theorem fatal_line_exit (E : Env) (s : State) (line : List Char) (h : fatal_line E line) :
    read_keymap_line E s line = .legacy ∨ ∃ s1, read_keymap_line E s line = .badmap s1 := by
  unfold read_keymap_line
  by_cases c : (second_word line).head? = some '-'
  · left; rw [if_pos c]
  · right
    rw [if_neg c]
    rcases h with h | ⟨c1, c2, c3⟩
    · exact absurd h c
    · obtain ⟨p, hp⟩ := resolve_cmd_some E s (second_word line)
      rw [hp]
      unfold apply_line
      simp only
      rw [if_neg c1, if_neg c2, if_pos c3]
      exact ⟨_, rfl⟩

theorem read_keymap_lines_fatal (E : Env) (ls : List (List Char)) (t : State)
    (h : ∃ l ∈ ls, fatal_line E l) : (read_keymap_lines E ls t).1 = false := by
  induction ls generalizing t with
  | nil => simp at h
  | cons l rest ih =>
    unfold read_keymap_lines
    cases hr : read_keymap_line E t l with
    | legacy => rfl
    | badmap s1 => rfl
    | nextline s1 =>
      simp only
      apply ih
      obtain ⟨l2, hl2, hf⟩ := h
      rcases List.mem_cons.1 hl2 with h1 | h1
      · subst h1
        rcases fatal_line_exit E t l2 hf with h2 | ⟨s2, h2⟩
        · rw [h2] at hr; cases hr
        · rw [h2] at hr; cases hr
      · exact ⟨l2, h1, hf⟩

theorem read_keymap_lines_false_keymap (E : Env) (ls : List (List Char)) (t : State)
    (h : (read_keymap_lines E ls t).1 = false) :
    (read_keymap_lines E ls t).2.keymap = init_keymap_table E t := by
  induction ls generalizing t with
  | nil => simp [read_keymap_lines] at h
  | cons l rest ih =>
    have hs := read_keymap_line_same_skel E t l
    unfold read_keymap_lines at h ⊢
    cases hr : read_keymap_line E t l with
    | legacy => simp only [write_keymap, init_keymap]
    | badmap s1 =>
      rw [hr] at hs
      simp only [init_keymap]
      exact init_keymap_table_congr E hs
    | nextline s1 =>
      rw [hr] at hs h
      simp only at h ⊢
      rw [ih s1 h]
      exact init_keymap_table_congr E hs

theorem read_keymap_lines_keymap_zero (E : Env) (ls : List (List Char)) (t : State) :
    (read_keymap_lines E ls t).2.keymap 0 = t.keymap 0
      ∨ (read_keymap_lines E ls t).2.keymap 0 = init_keymap_table E t 0 := by
  induction ls generalizing t with
  | nil => left; rfl
  | cons l rest ih =>
    have hs := read_keymap_line_same_skel E t l
    have hz := read_keymap_line_keymap_zero E t l
    unfold read_keymap_lines
    cases hr : read_keymap_line E t l with
    | legacy => right; simp only [write_keymap, init_keymap]
    | badmap s1 =>
      rw [hr] at hs
      right
      simp only [init_keymap]
      exact congrFun (init_keymap_table_congr E hs) 0
    | nextline s1 =>
      rw [hr] at hs hz
      simp only [line_result.holds] at hz
      simp only
      rcases ih s1 with h | h
      · left; rw [h, hz]
      · right; rw [h]; exact congrFun (init_keymap_table_congr E hs) 0

theorem read_keymap_lines_false_split (E : Env) (ls : List (List Char)) (t : State)
    (h : (read_keymap_lines E ls t).1 = false) :
    ∃ pre l post u, ls = pre ++ l :: post ∧ read_keymap_lines E pre t = (true, u)
      ∧ ((read_keymap_line E u l = .legacy
            ∧ (read_keymap_lines E ls t).2 = write_keymap E (init_keymap E u))
          ∨ ∃ u1, read_keymap_line E u l = .badmap u1
            ∧ (read_keymap_lines E ls t).2 = init_keymap E u1) := by
  induction ls generalizing t with
  | nil => simp [read_keymap_lines] at h
  | cons l rest ih =>
    cases hr : read_keymap_line E t l with
    | legacy =>
      refine ⟨[], l, rest, t, rfl, rfl, Or.inl ⟨hr, ?_⟩⟩
      simp only [read_keymap_lines, hr]
    | badmap s1 =>
      refine ⟨[], l, rest, t, rfl, rfl, Or.inr ⟨s1, hr, ?_⟩⟩
      simp only [read_keymap_lines, hr]
    | nextline s1 =>
      have e : read_keymap_lines E (l :: rest) t = read_keymap_lines E rest s1 := by
        simp only [read_keymap_lines, hr]
      rw [e] at h ⊢
      obtain ⟨pre, l2, post, u, h1, h2, h3⟩ := ih s1 h
      refine ⟨l :: pre, l2, post, u, by rw [h1]; rfl, ?_, h3⟩
      simp only [read_keymap_lines, hr]
      exact h2

theorem read_keymap_of_conf (E : Env) (s : State) (data : List Char)
    (h : s.conf = some data) :
    read_keymap E s = read_keymap_lines E (strtok_lines data)
      { s with unknown_count := 0, unknown_keymap := fun _ => none } := by
  unfold read_keymap
  split
  · rename_i hc; rw [hc] at h; cases h
  · rename_i d hc; rw [hc] at h; cases h; rfl

/-! ## Claims about a load that fails -/

/-- C3: when some line of the file has `-` as its second word, `read_keymap`
returns FALSE and leaves in `keymap` the table of `init_keymap`, whatever the
lines before it were. The second word is what the code takes for it: the text
from the first non-blank character after the first run of white space. -/
theorem legacy_format_detected (E : Env) (s : State) (data line : List Char)
    (hconf : s.conf = some data) (hl : line ∈ strtok_lines data)
    (h2 : second_word line = ['-']) :
    (read_keymap E s).1 = false ∧ (read_keymap E s).2.keymap = (init_keymap E s).keymap := by
  have hf : fatal_line E line := Or.inl (by rw [h2]; rfl)
  rw [read_keymap_of_conf E s data hconf]
  have h3 := read_keymap_lines_fatal E (strtok_lines data)
    { s with unknown_count := 0, unknown_keymap := fun _ => none } ⟨line, hl, hf⟩
  refine ⟨h3, ?_⟩
  rw [read_keymap_lines_false_keymap E _ _ h3]
  simp only [init_keymap]
  exact init_keymap_table_congr E ⟨rfl, rfl⟩

set_option maxRecDepth 100000 in
/-- C3 on a file whose second line is `6d -`. -/
theorem legacy_format_detected_witness :
    (read_keymap demoEnv (init_keymap demoEnv
        (load_state demoEnv demoCommands (some legacyFile)))).1 = false
      ∧ (read_keymap demoEnv (init_keymap demoEnv
          (load_state demoEnv demoCommands (some legacyFile)))).2.keymap
        = (init_keymap demoEnv (init_keymap demoEnv
            (load_state demoEnv demoCommands (some legacyFile)))).keymap :=
  legacy_format_detected demoEnv
    (init_keymap demoEnv (load_state demoEnv demoCommands (some legacyFile)))
    legacyFile "6d -".toList rfl (by decide) (by decide)

/-- C5, as amended: when `read_keymap` fails on a file it could read, `keymap` is
reset to the table of `init_keymap` and nothing else is undone: the state on
return is `init_keymap` of the state that the lines before the failing one, and
the failing line up to its `goto badmap`, have built (on the old-format exit
followed by `write_keymap`). -/
theorem failed_load_resets_keymap_only (E : Env) (s : State) (data : List Char)
    (hconf : s.conf = some data) (hfail : (read_keymap E s).1 = false) :
    (read_keymap E s).2.keymap = (init_keymap E s).keymap
      ∧ ∃ pre l post u, strtok_lines data = pre ++ l :: post
        ∧ read_keymap_lines E pre { s with unknown_count := 0, unknown_keymap := fun _ => none }
            = (true, u)
        ∧ ((read_keymap_line E u l = .legacy
              ∧ (read_keymap E s).2 = write_keymap E (init_keymap E u))
            ∨ ∃ u1, read_keymap_line E u l = .badmap u1
              ∧ (read_keymap E s).2 = init_keymap E u1) := by
  rw [read_keymap_of_conf E s data hconf] at hfail ⊢
  refine ⟨?_, read_keymap_lines_false_split E _ _ hfail⟩
  rw [read_keymap_lines_false_keymap E _ _ hfail]
  simp only [init_keymap]
  exact init_keymap_table_congr E ⟨rfl, rfl⟩

set_option maxRecDepth 100000 in
/-- The amended C5 on a file whose third line is `zz move`. -/
theorem failed_load_resets_keymap_only_witness :
    (read_keymap demoEnv (init_keymap demoEnv
        (load_state demoEnv demoCommands (some damagedFileExt)))).2.keymap
      = (init_keymap demoEnv (init_keymap demoEnv
          (load_state demoEnv demoCommands (some damagedFileExt)))).keymap
      ∧ ∃ pre l post u, strtok_lines damagedFileExt = pre ++ l :: post
        ∧ read_keymap_lines demoEnv pre
            { init_keymap demoEnv (load_state demoEnv demoCommands (some damagedFileExt)) with
              unknown_count := 0, unknown_keymap := fun _ => none } = (true, u)
        ∧ ((read_keymap_line demoEnv u l = .legacy
              ∧ (read_keymap demoEnv (init_keymap demoEnv
                  (load_state demoEnv demoCommands (some damagedFileExt)))).2
                = write_keymap demoEnv (init_keymap demoEnv u))
            ∨ ∃ u1, read_keymap_line demoEnv u l = .badmap u1
              ∧ (read_keymap demoEnv (init_keymap demoEnv
                  (load_state demoEnv demoCommands (some damagedFileExt)))).2
                = init_keymap demoEnv u1) :=
  failed_load_resets_keymap_only demoEnv
    (init_keymap demoEnv (load_state demoEnv demoCommands (some damagedFileExt)))
    damagedFileExt rfl (by decide)

set_option maxRecDepth 100000 in
/-- C5 fails: the load of a file with the lines `EXT search`, `73 foo` and
`zz move` fails at the third line, and on return `search` has the flag `CMD_EXT`
that it did not have before, and the record of the unknown command `foo` and its
binding are still there. -/
theorem failed_load_keeps_flags_and_unknown :
    (load_keymap demoEnv demoCommands (some damagedFileExt)).1 = false
      ∧ (load_state demoEnv demoCommands (some damagedFileExt)).flags_of (.dyn 3)
          &&& demoEnv.CMD_EXT = 0
      ∧ (load_keymap demoEnv demoCommands (some damagedFileExt)).2.flags_of (.dyn 3)
          &&& demoEnv.CMD_EXT = demoEnv.CMD_EXT
      ∧ (load_keymap demoEnv demoCommands (some damagedFileExt)).2.unknown_count = 1
      ∧ (load_keymap demoEnv demoCommands (some damagedFileExt)).2.unknown_keymap 0x73
          = some (.unknown 0)
      ∧ (load_keymap demoEnv demoCommands (some damagedFileExt)).2.name_of (.unknown 0)
          = "foo".toList := by
  refine ⟨by decide, by decide, by decide, by decide, by decide, by decide⟩

/-! ## Internal commands and the repeat count -/

theorem testBit_of_and_eq_zero {a b : Nat} (h : a &&& b = 0) (i : Nat)
    (ha : a.testBit i = true) : b.testBit i = false := by
  have := congrArg (fun x => x.testBit i) h
  simp only [Nat.testBit_and, Nat.zero_testBit, ha, Bool.true_and] at this
  exact this

theorem dir_mask_testBit (i : Nat) :
    (DIRCMD ||| DIRCMD_SHIFT ||| DIRCMD_CTRL).testBit i = decide (i = 29 ∨ i = 30 ∨ i = 31) := by
  simp only [DIRCMD, DIRCMD_SHIFT, DIRCMD_CTRL, Nat.testBit_or, Nat.testBit_two_pow]
  by_cases h1 : i = 29 <;> by_cases h2 : i = 30 <;> by_cases h3 : i = 31 <;>
    simp [h1, h2, h3, eq_comm]

/-- The `id` that `handle_internal_cmd` extracts from the flags of a direction command. -/
theorem direction_id (ui D kind : Nat) (hui32 : ui < 2 ^ 32)
    (hD : D &&& (ui ||| DIRCMD ||| DIRCMD_SHIFT ||| DIRCMD_CTRL) = 0) (hD32 : D < 2 ^ 32)
    (hkind : kind = DIRCMD ∨ kind = DIRCMD_SHIFT ∨ kind = DIRCMD_CTRL) :
    and_not32 (ui ||| kind ||| D) (ui ||| DIRCMD ||| DIRCMD_SHIFT ||| DIRCMD_CTRL) = D := by
  apply Nat.eq_of_testBit_eq
  intro i
  have e : (0xffffffff : Nat) = 2 ^ 32 - 1 := by norm_num
  have hm : (ui ||| DIRCMD ||| DIRCMD_SHIFT ||| DIRCMD_CTRL).testBit i
      = (ui.testBit i || decide (i = 29 ∨ i = 30 ∨ i = 31)) := by
    rw [← dir_mask_testBit]
    simp only [Nat.testBit_or, Bool.or_assoc]
  have hk : kind.testBit i = true → (i = 29 ∨ i = 30 ∨ i = 31) := by
    intro h
    rcases hkind with h1 | h1 | h1 <;>
      · rw [h1] at h
        simp only [DIRCMD, DIRCMD_SHIFT, DIRCMD_CTRL, Nat.testBit_two_pow, decide_eq_true_eq] at h
        omega
  have hu1 : ui.testBit i = true → i < 32 := by
    intro h
    by_contra hc
    have : ui < 2 ^ i := lt_of_lt_of_le hui32 (Nat.pow_le_pow_right (by norm_num) (by omega))
    rw [Nat.testBit_lt_two_pow this] at h
    cases h
  have hD1 : D.testBit i = true → i < 32 := by
    intro h
    by_contra hc
    have : D < 2 ^ i := lt_of_lt_of_le hD32 (Nat.pow_le_pow_right (by norm_num) (by omega))
    rw [Nat.testBit_lt_two_pow this] at h
    cases h
  have hD2 : D.testBit i = true →
      (ui ||| DIRCMD ||| DIRCMD_SHIFT ||| DIRCMD_CTRL).testBit i = false :=
    testBit_of_and_eq_zero hD i
  simp only [and_not32, e, Nat.testBit_and, Nat.testBit_or, Nat.testBit_xor,
    Nat.testBit_two_pow_sub_one, hm] at hD2 ⊢
  cases hDi : D.testBit i with
  | true =>
    have h32 := hD1 hDi
    have := hD2 hDi
    simp only [Bool.or_eq_false_iff, decide_eq_false_iff_not] at this
    simp [this.1, this.2, h32]
  | false =>
    cases hui_i : ui.testBit i with
    | true => simp [hu1 hui_i]
    | false =>
      cases hki : kind.testBit i with
      | true => simp [hk hki]; have := hk hki; omega
      | false => simp

theorem and_two_pow_ne_zero (a n : Nat) (h : a.testBit n = true) : a &&& 2 ^ n ≠ 0 := by
  intro h0
  have := congrArg (fun x => x.testBit n) h0
  simp [Nat.testBit_two_pow, h] at this

theorem and_two_pow_eq_zero (a n : Nat) (h : a.testBit n = false) : a &&& 2 ^ n = 0 := by
  apply Nat.eq_of_testBit_eq
  intro i
  simp only [Nat.testBit_and, Nat.testBit_two_pow, Nat.zero_testBit]
  by_cases hi : n = i
  · subst hi; simp [h]
  · simp [hi]

theorem dircmd_bit (i : Nat) : DIRCMD.testBit i = decide (29 = i) := by
  unfold DIRCMD; exact Nat.testBit_two_pow

theorem dircmd_shift_bit (i : Nat) : DIRCMD_SHIFT.testBit i = decide (30 = i) := by
  unfold DIRCMD_SHIFT; exact Nat.testBit_two_pow

theorem dircmd_ctrl_bit (i : Nat) : DIRCMD_CTRL.testBit i = decide (31 = i) := by
  unfold DIRCMD_CTRL; exact Nat.testBit_two_pow

theorem and_dircmd_ne_zero (a : Nat) (h : a.testBit 29 = true) : a &&& DIRCMD ≠ 0 :=
  and_two_pow_ne_zero a 29 h

theorem and_dircmd_eq_zero (a : Nat) (h : a.testBit 29 = false) : a &&& DIRCMD = 0 :=
  and_two_pow_eq_zero a 29 h

theorem and_shift_ne_zero (a : Nat) (h : a.testBit 30 = true) : a &&& DIRCMD_SHIFT ≠ 0 :=
  and_two_pow_ne_zero a 30 h

theorem and_shift_eq_zero (a : Nat) (h : a.testBit 30 = false) : a &&& DIRCMD_SHIFT = 0 :=
  and_two_pow_eq_zero a 30 h

theorem and_ctrl_ne_zero (a : Nat) (h : a.testBit 31 = true) : a &&& DIRCMD_CTRL ≠ 0 :=
  and_two_pow_ne_zero a 31 h

theorem dir_bits_false (ui D : Nat)
    (hui : ui &&& (DIRCMD ||| DIRCMD_SHIFT ||| DIRCMD_CTRL) = 0)
    (hD : D &&& (ui ||| DIRCMD ||| DIRCMD_SHIFT ||| DIRCMD_CTRL) = 0) (i : Nat)
    (hi : i = 29 ∨ i = 30 ∨ i = 31) : ui.testBit i = false ∧ D.testBit i = false := by
  have hmask : (DIRCMD ||| DIRCMD_SHIFT ||| DIRCMD_CTRL).testBit i = true := by
    rw [dir_mask_testBit]; simpa using hi
  constructor
  · cases h : ui.testBit i with
    | false => rfl
    | true => rw [testBit_of_and_eq_zero hui i h] at hmask; cases hmask
  · cases h : D.testBit i with
    | false => rfl
    | true =>
      have := testBit_of_and_eq_zero hD i h
      have h2 : (ui ||| DIRCMD ||| DIRCMD_SHIFT ||| DIRCMD_CTRL).testBit i
          = (ui.testBit i || (DIRCMD ||| DIRCMD_SHIFT ||| DIRCMD_CTRL).testBit i) := by
        simp only [Nat.testBit_or, Bool.or_assoc]
      rw [h2, hmask] at this
      simp at this

/-- The first 26 entries of `builtin_commands` are the direction commands: their
flags are `CMD_UI`, one of the three `DIRCMD` flags and a direction. -/
theorem builtin_direction_flags (E : Env) (i : Nat) (c : nh_cmd_desc) (hi : i < 26)
    (hc : (builtin_commands E).get? i = some c) :
    ∃ D ∈ direction_cases E, c.flags = E.CMD_UI ||| DIRCMD ||| D
      ∨ c.flags = E.CMD_UI ||| DIRCMD_SHIFT ||| D ∨ c.flags = E.CMD_UI ||| DIRCMD_CTRL ||| D := by
  interval_cases i <;>
    · simp only [builtin_commands, mkcmd, List.get?_cons_succ, List.get?_cons_zero,
        Option.some.injEq] at hc
      subst hc
      first
        | exact ⟨_, by simp [direction_cases], Or.inl rfl⟩
        | exact ⟨_, by simp [direction_cases], Or.inr (Or.inl rfl)⟩
        | exact ⟨_, by simp [direction_cases], Or.inr (Or.inr rfl)⟩

theorem dir_bits_false_low (ui D : Nat) (hui : ui &&& (DIRCMD ||| DIRCMD_SHIFT) = 0)
    (hD : D &&& (ui ||| DIRCMD ||| DIRCMD_SHIFT ||| DIRCMD_CTRL) = 0) (i : Nat)
    (hi : i = 29 ∨ i = 30) : ui.testBit i = false ∧ D.testBit i = false := by
  constructor
  · cases h : ui.testBit i with
    | false => rfl
    | true =>
      have := testBit_of_and_eq_zero hui i h
      simp only [Nat.testBit_or, DIRCMD, DIRCMD_SHIFT, Nat.testBit_two_pow] at this
      rcases hi with rfl | rfl <;> simp at this
  · cases h : D.testBit i with
    | false => rfl
    | true =>
      have := testBit_of_and_eq_zero hD i h
      simp only [Nat.testBit_or, DIRCMD, DIRCMD_SHIFT, DIRCMD_CTRL, Nat.testBit_two_pow] at this
      rcases hi with rfl | rfl <;> simp at this

/-- The rewrite of the direction commands as the table `builtin_commands`
declares them: `handle_internal_cmd` replaces a built-in command whose flags
are exactly `CMD_UI | DIRCMD | D`, for a direction `D`, by the command that
`find_command` finds under `move`, one with `DIRCMD_SHIFT` by `run` and one with
`DIRCMD_CTRL` by `go`; each time it stores `D` in `arg->dir` and sets
`CMD_ARG_DIR` in `arg->argtype`. The flag `CMD_UI` and the direction codes are
taken to fit 32 bits; `CMD_UI` is neither `DIRCMD` nor `DIRCMD_SHIFT`, and the
direction codes share no bit with `CMD_UI` or the three `DIRCMD` flags. -/
theorem direction_command_rewrite (E : Env) (ui : ui_answers) (s : State) (i : Nat)
    (c : nh_cmd_desc) (D : Nat) (arg : nh_cmd_arg)
    (hui32 : E.CMD_UI < 2 ^ 32)
    (hui : E.CMD_UI &&& (DIRCMD ||| DIRCMD_SHIFT) = 0)
    (hD : D ∈ direction_cases E)
    (hDbits : D &&& (E.CMD_UI ||| DIRCMD ||| DIRCMD_SHIFT ||| DIRCMD_CTRL) = 0)
    (hD32 : D < 2 ^ 32) (hc : s.builtins.get? i = some c) :
    (c.flags = E.CMD_UI ||| DIRCMD ||| D →
        handle_internal_cmd E ui s (.builtin i) arg
          = (find_command s "move".toList,
             { arg with argtype := arg.argtype ||| E.CMD_ARG_DIR, dir := D }))
      ∧ (c.flags = E.CMD_UI ||| DIRCMD_SHIFT ||| D →
        handle_internal_cmd E ui s (.builtin i) arg
          = (find_command s "run".toList,
             { arg with argtype := arg.argtype ||| E.CMD_ARG_DIR, dir := D }))
      ∧ (c.flags = E.CMD_UI ||| DIRCMD_CTRL ||| D →
        handle_internal_cmd E ui s (.builtin i) arg
          = (find_command s "go".toList,
             { arg with argtype := arg.argtype ||| E.CMD_ARG_DIR, dir := D })) := by
  have hfl : s.flags_of (.builtin i) = c.flags := by
    unfold State.flags_of State.deref
    simp only [hc]
  have b29 := dir_bits_false_low E.CMD_UI D hui hDbits 29 (by simp)
  have b30 := dir_bits_false_low E.CMD_UI D hui hDbits 30 (by simp)
  refine ⟨fun hf => ?_, fun hf => ?_, fun hf => ?_⟩
  · have hid := direction_id E.CMD_UI D DIRCMD hui32 hDbits hD32 (Or.inl rfl)
    have h1 : (E.CMD_UI ||| DIRCMD ||| D) &&& DIRCMD ≠ 0 :=
      and_dircmd_ne_zero _ (by simp [Nat.testBit_or, dircmd_bit])
    unfold handle_internal_cmd
    simp only [hfl, hf, hid, hD, if_true, h1, ne_eq, not_false_eq_true]
  · have hid := direction_id E.CMD_UI D DIRCMD_SHIFT hui32 hDbits hD32 (Or.inr (Or.inl rfl))
    have h1 : (E.CMD_UI ||| DIRCMD_SHIFT ||| D) &&& DIRCMD = 0 :=
      and_dircmd_eq_zero _ (by simp [Nat.testBit_or, dircmd_shift_bit, b29.1, b29.2])
    have h2 : (E.CMD_UI ||| DIRCMD_SHIFT ||| D) &&& DIRCMD_SHIFT ≠ 0 :=
      and_shift_ne_zero _ (by simp [Nat.testBit_or, dircmd_shift_bit])
    unfold handle_internal_cmd
    simp only [hfl, hf, hid, hD, if_true, h1, h2, ne_eq, not_true_eq_false, if_false,
      not_false_eq_true]
  · have hid := direction_id E.CMD_UI D DIRCMD_CTRL hui32 hDbits hD32 (Or.inr (Or.inr rfl))
    have h1 : (E.CMD_UI ||| DIRCMD_CTRL ||| D) &&& DIRCMD = 0 :=
      and_dircmd_eq_zero _ (by simp [Nat.testBit_or, dircmd_ctrl_bit, b29.1, b29.2])
    have h2 : (E.CMD_UI ||| DIRCMD_CTRL ||| D) &&& DIRCMD_SHIFT = 0 :=
      and_shift_eq_zero _ (by simp [Nat.testBit_or, dircmd_ctrl_bit, b30.1, b30.2])
    have h3 : (E.CMD_UI ||| DIRCMD_CTRL ||| D) &&& DIRCMD_CTRL ≠ 0 :=
      and_ctrl_ne_zero _ (by simp [Nat.testBit_or, dircmd_ctrl_bit])
    unfold handle_internal_cmd
    simp only [hfl, hf, hid, hD, if_true, h1, h2, h3, ne_eq, not_true_eq_false, if_false,
      not_false_eq_true]

set_option maxRecDepth 100000 in
/-- The built-in command `east` as the table declares it becomes `move` with the
direction `DIR_E`. -/
theorem direction_command_rewrite_witness :
    handle_internal_cmd demoEnv { doextcmd := none, show_help := none, show_mainmenu := none }
        (load_state demoEnv demoCommands none) (.builtin 0)
        { argtype := 0, dir := 0, limit := 0 }
      = (find_command (load_state demoEnv demoCommands none) "move".toList,
         { argtype := 0 ||| demoEnv.CMD_ARG_DIR, dir := demoEnv.DIR_E, limit := 0 }) :=
  (direction_command_rewrite demoEnv { doextcmd := none, show_help := none, show_mainmenu := none }
    (load_state demoEnv demoCommands none) 0
    (mkcmd "east" "move, fight or interact to the east" 'l'.toNat 0
      (demoEnv.CMD_UI ||| DIRCMD ||| demoEnv.DIR_E))
    demoEnv.DIR_E { argtype := 0, dir := 0, limit := 0 }
    (by decide) (by decide) (by decide) (by decide) (by decide) rfl).1 rfl

set_option maxRecDepth 100000 in
/-- C9 after the load of a file with the line `EXT east`: the built-in command
`east`, bound to the key `l`, has the flags `CMD_UI | DIRCMD | DIR_E | CMD_EXT`.
The `id` that `handle_internal_cmd` extracts keeps the bit `CMD_EXT`, so no
`case` is taken and the command and the argument stay as they are: `get_command`
at the key `l` passes `east` to the callback with no direction. From the
defaults it passes `move` with the direction `DIR_E`. -/
theorem ext_line_stops_direction_rewrite :
    (load_keymap demoEnv demoCommands (some extEastFile)).1 = true
      ∧ (load_keymap demoEnv demoCommands (some extEastFile)).2.keymap 'l'.toNat
          = some (.builtin 0)
      ∧ ((load_keymap demoEnv demoCommands (some extEastFile)).2.builtins.get? 0).map
            (fun c => (c.name, c.flags))
          = some ("east".toList, demoEnv.CMD_UI ||| DIRCMD ||| demoEnv.DIR_E ||| demoEnv.CMD_EXT)
      ∧ handle_internal_cmd demoEnv
            { doextcmd := none, show_help := none, show_mainmenu := none }
            (load_keymap demoEnv demoCommands (some extEastFile)).2 (.builtin 0)
            { argtype := 0, dir := 0, limit := 0 }
          = (some (.builtin 0), { argtype := 0, dir := 0, limit := 0 })
      ∧ (get_command demoEnv quietExternals
            (load_keymap demoEnv demoCommands (some extEastFile)).2 (freshInput 0)
            { argtype := 0, dir := 0, limit := 0 } ['l'.toNat]).map (fun r => r.1.calls)
          = some [("east".toList, { argtype := 0, dir := 0, limit := 0 })]
      ∧ (get_command demoEnv quietExternals
            (init_keymap demoEnv (load_state demoEnv demoCommands none)) (freshInput 0)
            { argtype := 0, dir := 0, limit := 0 } ['l'.toNat]).map (fun r => r.1.calls)
          = some [("move".toList,
              { argtype := demoEnv.CMD_ARG_DIR, dir := demoEnv.DIR_E, limit := 0 })] := by
  refine ⟨by decide, by decide, by decide, by decide, by decide, by decide⟩

theorem decimal_step_le (ds : List Nat) (a : Nat) :
    a ≤ ds.foldl (fun a k => 10 * a + (k - '0'.toNat)) a := by
  induction ds generalizing a with
  | nil => exact Nat.le_refl a
  | cons k ds ih =>
    simp only [List.foldl_cons]
    exact Nat.le_trans (by omega) (ih _)

theorem count_step_digit (E : Env) (key multi : Nat) (hbs : ¬ is_digit_key E.KEY_BACKSPACE)
    (hk : is_digit_key key) (hle : 10 * multi + (key - '0'.toNat) ≤ 65535) :
    count_step E key multi = 10 * multi + (key - '0'.toNat) := by
  have hne : key ≠ E.KEY_BACKSPACE := fun h => hbs (h ▸ hk)
  have h48 : '0'.toNat ≤ key := hk.1
  unfold count_step
  rw [if_neg hne, if_pos hk]
  have e : 10 * multi + key - '0'.toNat = 10 * multi + (key - '0'.toNat) := by omega
  rw [e, if_neg (by omega)]

theorem get_command_count_digits (E : Env) (t : Nat) (rest : List Nat)
    (hbs : ¬ is_digit_key E.KEY_BACKSPACE) (ht : ¬ is_digit_key t) (htb : t ≠ E.KEY_BACKSPACE)
    (ds : List Nat) (key multi : Nat) (hk : is_digit_key key) (hds : ∀ k ∈ ds, is_digit_key k)
    (hle : ds.foldl (fun a k => 10 * a + (k - '0'.toNat)) (10 * multi + (key - '0'.toNat))
      ≤ 65535) :
    get_command_count E (ds ++ t :: rest) key multi
      = some (ds.foldl (fun a k => 10 * a + (k - '0'.toNat)) (10 * multi + (key - '0'.toNat)),
          t, rest) := by
  induction ds generalizing key multi with
  | nil =>
    simp only [List.foldl_nil] at hle
    simp only [List.nil_append, List.foldl_nil, get_command_count]
    rw [if_neg (by
      rintro (h | ⟨_, h⟩)
      · exact ht h
      · exact htb h)]
    rw [count_step_digit E key multi hbs hk hle]
  | cons k ds ih =>
    simp only [List.foldl_cons] at hle
    have hm : 10 * multi + (key - '0'.toNat) ≤ 65535 :=
      Nat.le_trans (Nat.le_trans (by omega) (decimal_step_le ds _)) hle
    simp only [List.cons_append, List.foldl_cons, get_command_count]
    rw [if_pos (Or.inl (hds k (List.mem_cons_self _ _)))]
    rw [count_step_digit E key multi hbs hk hm]
    exact ih k _ (hds k (List.mem_cons_self _ _))
      (fun x hx => hds x (List.mem_cons_of_mem _ hx)) hle

/-- C10: when the first key `d` is a digit bound to `repeatcount`, the keys `ds`
after it are digits, and the next key `t` is neither a digit nor backspace, the
count loop ends at `t` with `multi` equal to the number that `d :: ds` spells in
base ten, provided that number is at most 65535. -/
theorem repeat_count_value (E : Env) (s : State) (d : Nat) (ds : List Nat) (t : Nat)
    (rest : List Nat) (hbs : ¬ is_digit_key E.KEY_BACKSPACE) (hd : is_digit_key d)
    (hds : ∀ k ∈ ds, is_digit_key k) (ht : ¬ is_digit_key t) (htb : t ≠ E.KEY_BACKSPACE)
    (hmax : d ≤ E.KEY_MAX) (hbound : s.keymap d = find_command s "repeatcount".toList)
    (hval : decimal_value (d :: ds) ≤ 65535) :
    get_command_multi E s d (ds ++ t :: rest) = some (decimal_value (d :: ds), t, rest) := by
  unfold get_command_multi
  rw [if_pos ⟨hmax, hbound⟩]
  simp only [decimal_value, List.foldl_cons, Nat.mul_zero, Nat.zero_add] at hval ⊢
  have := get_command_count_digits E t rest hbs ht htb ds d 0 hd hds
    (by simpa using hval)
  simpa using this

set_option maxRecDepth 100000 in
/-- C10 for the keys `4`, `2` and then `j`: the count is 42. -/
theorem repeat_count_value_witness :
    get_command_multi demoEnv (init_keymap demoEnv (load_state demoEnv demoCommands none))
        '4'.toNat (['2'.toNat] ++ 'j'.toNat :: [])
      = some (42, 'j'.toNat, []) :=
  repeat_count_value demoEnv (init_keymap demoEnv (load_state demoEnv demoCommands none))
    '4'.toNat ['2'.toNat] 'j'.toNat [] (by decide) (by decide) (by decide) (by decide)
    (by decide) (by decide) (by decide) (by decide)

/-! ## The text of the keymap file -/

theorem strtok_aux_line (l : List Char) (cur rest : List Char)
    (hl : ∀ c ∈ l, isdelim c = false) (hne : cur.reverse ++ l ≠ []) :
    strtok_aux (l ++ '\n' :: rest) cur = (cur.reverse ++ l) :: strtok_aux rest [] := by
  induction l generalizing cur with
  | nil =>
    have hc : cur ≠ [] := by
      intro h; apply hne; simp [h]
    have hd : isdelim '\n' = true := by decide
    simp only [List.nil_append, strtok_aux, hd, if_true, if_neg hc, List.append_nil]
  | cons c l ih =>
    have hcd : isdelim c = false := hl c (List.mem_cons_self _ _)
    simp only [List.cons_append, strtok_aux, hcd, Bool.false_eq_true, if_false, List.append_eq]
    rw [ih (c :: cur) (fun x hx => hl x (List.mem_cons_of_mem _ hx)) (by simp)]
    simp

theorem strtok_aux_unlines (ls : List (List Char))
    (h : ∀ l ∈ ls, l ≠ [] ∧ ∀ c ∈ l, isdelim c = false) : strtok_aux (unlines ls) [] = ls := by
  induction ls with
  | nil => simp [unlines, strtok_aux]
  | cons l ls ih =>
    obtain ⟨h1, h2⟩ := h l (List.mem_cons_self _ _)
    rw [unlines, strtok_aux_line l [] _ h2 (by simpa using h1)]
    rw [ih (fun x hx => h x (List.mem_cons_of_mem _ hx))]
    simp

theorem cstr_of_no_nul (d : List Char) (h : ∀ c ∈ d, c ≠ '\x00') : cstr d = d := by
  unfold cstr
  apply List.takeWhile_eq_self_iff.2
  intro c hc
  simpa using h c hc

theorem mem_unlines (ls : List (List Char)) (c : Char) (hc : c ∈ unlines ls) :
    c = '\n' ∨ ∃ l ∈ ls, c ∈ l := by
  induction ls with
  | nil => simp [unlines] at hc
  | cons l ls ih =>
    rw [unlines] at hc
    rcases List.mem_append.1 hc with h | h
    · exact Or.inr ⟨l, List.mem_cons_self _ _, h⟩
    · rcases List.mem_cons.1 h with h | h
      · exact Or.inl h
      · rcases ih h with h2 | ⟨l2, hl2, hc2⟩
        · exact Or.inl h2
        · exact Or.inr ⟨l2, List.mem_cons_of_mem _ hl2, hc2⟩

/-- The lines of a text in which each line is followed by a newline. -/
theorem strtok_lines_unlines (ls : List (List Char))
    (h : ∀ l ∈ ls, l ≠ [] ∧ ∀ c ∈ l, isdelim c = false ∧ c ≠ '\x00') :
    strtok_lines (unlines ls) = ls := by
  unfold strtok_lines
  rw [cstr_of_no_nul]
  · exact strtok_aux_unlines ls (fun l hl => ⟨(h l hl).1, fun c hc => ((h l hl).2 c hc).1⟩)
  · intro c hc
    rcases mem_unlines ls c hc with h1 | ⟨l, hl, hcl⟩
    · rw [h1]; decide
    · exact ((h l hl).2 c hcl).2

theorem unlines_append (a b : List (List Char)) : unlines (a ++ b) = unlines a ++ unlines b := by
  induction a with
  | nil => rfl
  | cons l a ih => simp [unlines, ih]

/-! ### Hexadecimal digits -/

theorem hexval_hexdigit (d : Nat) (h : d < 16) : hexval (hexdigit d) = some d := by
  interval_cases d <;> decide

theorem hexchar_facts (c : Char) (h : hexchar c) :
    isspace c = false ∧ isdelim c = false ∧ c ≠ '\x00' ∧ c ≠ '-' ∧ c ≠ '+' ∧ c ≠ 'x'
      ∧ c ≠ 'X' ∧ c ≠ 'E' ∧ c ≠ 'N' := by
  obtain ⟨d, hd, rfl⟩ := h
  interval_cases d <;> decide

theorem hex_digits_hexchar (fuel n : Nat) : ∀ c ∈ hex_digits fuel n, hexchar c := by
  induction fuel generalizing n with
  | zero => simp [hex_digits]
  | succ f ih =>
    intro c hc
    unfold hex_digits at hc
    split at hc
    · rename_i h
      simp only [List.mem_singleton] at hc
      exact ⟨n, h, hc⟩
    · rcases List.mem_append.1 hc with h1 | h1
      · exact ih _ c h1
      · simp only [List.mem_singleton] at h1
        exact ⟨n % 16, Nat.mod_lt _ (by norm_num), h1⟩

theorem hex_digits_ne_nil (fuel n : Nat) : hex_digits (fuel + 1) n ≠ [] := by
  unfold hex_digits
  split <;> simp

theorem hex_digits_length_le (fuel n : Nat) : (hex_digits fuel n).length ≤ fuel := by
  induction fuel generalizing n with
  | zero => simp [hex_digits]
  | succ f ih =>
    unfold hex_digits
    split
    · simp
    · have := ih (n / 16)
      simp only [List.length_append, List.length_singleton]
      omega

theorem strtol_digits_append (l1 rest : List Char) (acc n : Nat)
    (h : ∀ c ∈ l1, hexchar c) :
    strtol_digits (l1 ++ rest) acc n
      = strtol_digits rest (l1.foldl (fun a c => 16 * a + (hexval c).getD 0) acc)
          (n + l1.length) := by
  induction l1 generalizing acc n with
  | nil => simp
  | cons c l ih =>
    obtain ⟨d, hd, hcd⟩ := h c (List.mem_cons_self _ _)
    have hv : hexval c = some d := by rw [hcd]; exact hexval_hexdigit d hd
    simp only [List.cons_append, strtol_digits, hv, List.foldl_cons, Option.getD_some,
      List.length_cons, List.append_eq]
    rw [ih _ _ (fun x hx => h x (List.mem_cons_of_mem _ hx))]
    congr 1
    omega

theorem hex_digits_value (fuel n : Nat) (h : n < 16 ^ fuel) (acc : Nat) :
    (hex_digits fuel n).foldl (fun a c => 16 * a + (hexval c).getD 0) acc
      = acc * 16 ^ (hex_digits fuel n).length + n := by
  induction fuel generalizing n acc with
  | zero => simp at h; subst h; simp [hex_digits]
  | succ f ih =>
    unfold hex_digits
    split
    · rename_i hlt
      simp only [List.foldl_cons, List.foldl_nil, hexval_hexdigit n hlt, Option.getD_some,
        List.length_singleton, pow_one]
      ring
    · rename_i hge
      have hq : n / 16 < 16 ^ f := by
        rw [Nat.div_lt_iff_lt_mul (by norm_num)]
        rw [pow_succ] at h
        exact h
      simp only [List.foldl_append, List.foldl_cons, List.foldl_nil, ih (n / 16) hq,
        hexval_hexdigit (n % 16) (Nat.mod_lt _ (by norm_num)), Option.getD_some,
        List.length_append, List.length_singleton, pow_succ]
      have := Nat.div_add_mod n 16
      nlinarith [this]

/-! ### The loop body on the lines that `write_keymap` writes -/

theorem dropWhile_append_all (p : Char → Bool) (h l : List Char)
    (hall : ∀ c ∈ h, p c = true) : (h ++ l).dropWhile p = l.dropWhile p := by
  induction h with
  | nil => rfl
  | cons c h ih =>
    have hc := hall c (List.mem_cons_self _ _)
    simp only [List.cons_append, List.dropWhile_cons, hc, if_true]
    exact ih (fun x hx => hall x (List.mem_cons_of_mem _ hx))

theorem dropWhile_isspace_name (name : List Char)
    (hn : ∀ c, name.head? = some c → isspace c = false) : name.dropWhile isspace = name := by
  cases name with
  | nil => rfl
  | cons c t =>
    have := hn c rfl
    simp [List.dropWhile_cons, this]

theorem second_word_sep (h name : List Char) (hh : ∀ c ∈ h, isspace c = false)
    (hn : ∀ c, name.head? = some c → isspace c = false) :
    second_word (h ++ ' ' :: name) = name := by
  unfold second_word
  rw [dropWhile_append_all _ h _ (fun c hc => by simp [hh c hc])]
  have e1 : isspace ' ' = true := by decide
  simp only [List.dropWhile_cons, e1, Bool.not_true, Bool.false_eq_true, if_false, if_true]
  exact dropWhile_isspace_name name hn

/-- On a line that starts with a word, the second word of the loop body is what
follows the first run of white space. -/
theorem second_word_of_words (tok ws rest : List Char) (h1 : ∀ c ∈ tok, isspace c = false)
    (h2 : ∀ c ∈ ws, isspace c = true) (hws : ws ≠ [])
    (h3 : ∀ c, rest.head? = some c → isspace c = false) :
    second_word (tok ++ (ws ++ rest)) = rest := by
  unfold second_word
  rw [dropWhile_append_all _ tok _ (fun c hc => by simp [h1 c hc])]
  cases ws with
  | nil => exact absurd rfl hws
  | cons w ws2 =>
    have hw := h2 w (List.mem_cons_self _ _)
    have e : ((w :: ws2) ++ rest).dropWhile (fun c => !isspace c) = (w :: ws2) ++ rest := by
      simp [List.dropWhile_cons, hw]
    rw [e, dropWhile_append_all _ _ _ h2]
    exact dropWhile_isspace_name rest h3

theorem printf_x_cons (k : Nat) : ∃ c t, printf_x k = c :: t ∧ hexchar c ∧ ∀ x ∈ t, hexchar x := by
  have hne := hex_digits_ne_nil 7 k
  have hall := hex_digits_hexchar 8 k
  unfold printf_x
  cases hp : hex_digits 8 k with
  | nil => exact absurd hp hne
  | cons c t =>
    rw [hp] at hall
    exact ⟨c, t, rfl, hall c (List.mem_cons_self _ _),
      fun x hx => hall x (List.mem_cons_of_mem _ hx)⟩

theorem printf_x_value (k : Nat) (hk : k < 2 ^ 32) (rest : List Char) (c : Char)
    (hc : hexval c = none) :
    strtol_digits (printf_x k ++ c :: rest) 0 0 = (k, (printf_x k).length) := by
  unfold printf_x
  rw [strtol_digits_append _ _ _ _ (hex_digits_hexchar 8 k)]
  rw [hex_digits_value 8 k (by norm_num at hk ⊢; exact hk)]
  simp [strtol_digits, hc]

theorem long_to_int_small (k : Nat) (hk : k < 2 ^ 31) : long_to_int (k : Int) = (k : Int) := by
  unfold long_to_int
  have h1 : (0 : Int) ≤ (k : Int) + 2 ^ 31 := by positivity
  have h2 : (k : Int) + 2 ^ 31 < 2 ^ 32 := by
    have : (k : Int) < 2 ^ 31 := by exact_mod_cast hk
    linarith
  rw [Int.emod_eq_of_lt h1 h2]
  ring

/-- What `strtol` makes of a line that `write_keymap` wrote for the key `k`. -/
theorem strtol16_key_line (E : Env) (k : Nat) (name : List Char) (hk : k < 2 ^ 31)
    (hE : 32 ≤ E.LONG_BIT) :
    strtol16 E (printf_x k ++ ' ' :: name) = ((k : Int), (printf_x k).length)
      ∧ (printf_x k).length ≠ 0 := by
  obtain ⟨c, t, hp, hc, ht⟩ := printf_x_cons k
  have hcf := hexchar_facts c hc
  have hval := printf_x_value k (lt_trans hk (by norm_num)) name ' ' (by decide)
  have hlen : (printf_x k).length ≠ 0 := by rw [hp]; simp
  refine ⟨?_, hlen⟩
  have htw : (printf_x k ++ ' ' :: name).takeWhile isspace = [] := by
    rw [hp]; simp [List.takeWhile_cons, hcf.1]
  have hdw : (printf_x k ++ ' ' :: name).dropWhile isspace = printf_x k ++ ' ' :: name := by
    rw [hp]; simp [List.dropWhile_cons, hcf.1]
  have hsg : strtol_sign (printf_x k ++ ' ' :: name) = (false, 0) := by
    rw [hp]
    simp [strtol_sign, hcf.2.2.2.1, hcf.2.2.2.2.1]
  have hpl : strtol_prefix (printf_x k ++ ' ' :: name) = 0 := by
    rw [hp]
    unfold strtol_prefix
    rw [if_neg]
    rintro ⟨_, h2, _⟩
    cases t with
    | nil =>
      simp at h2
    | cons c2 t2 =>
      have := hexchar_facts c2 (ht c2 (List.mem_cons_self _ _))
      simp at h2
      rcases h2 with h2 | h2
      · exact this.2.2.2.2.2.1 h2
      · exact this.2.2.2.2.2.2.1 h2
  have hlim : k < 2 ^ (E.LONG_BIT - 1) :=
    lt_of_lt_of_le hk (Nat.pow_le_pow_right (by norm_num) (by omega))
  unfold strtol16
  simp only [htw, hdw, hsg, hpl, List.drop_zero, hval, if_neg hlen, List.length_nil,
    Bool.false_eq_true, if_false, ge_iff_le, if_neg (not_le.2 hlim), Nat.zero_add]

theorem key_line_not_ext (k : Nat) (name : List Char) :
    (printf_x k ++ ' ' :: name).take 3 ≠ ['E', 'X', 'T']
      ∧ (printf_x k ++ ' ' :: name).take 5 ≠ ['N', 'O', 'E', 'X', 'T'] := by
  obtain ⟨c, t, hp, hc, _⟩ := printf_x_cons k
  have hcf := hexchar_facts c hc
  rw [hp]
  constructor
  · intro h
    simp only [List.cons_append, List.take_succ_cons, List.cons.injEq] at h
    exact hcf.2.2.2.2.2.2.2.1 h.1
  · intro h
    simp only [List.cons_append, List.take_succ_cons, List.cons.injEq] at h
    exact hcf.2.2.2.2.2.2.2.2 h.1

theorem line_key_key_line (E : Env) (k : Nat) (name : List Char) (hk : k < 2 ^ 31)
    (hE : 32 ≤ E.LONG_BIT) : line_key E (printf_x k ++ ' ' :: name) = (k : Int) := by
  unfold line_key
  rw [(strtol16_key_line E k name hk hE).1]
  exact long_to_int_small k hk

/-- The second word of a line that `write_keymap` wrote for a key. -/
theorem second_word_key_line (k : Nat) (name : List Char)
    (hn : ∀ c, name.head? = some c → isspace c = false) :
    second_word (printf_x k ++ ' ' :: name) = name :=
  second_word_sep _ _ (fun c hc => (hexchar_facts c (hex_digits_hexchar 8 k c hc)).1) hn

/-- The loop body on a line `<hex key> <name>`, given what `resolve_cmd` yields
for the name. -/
theorem read_keymap_line_key (E : Env) (t : State) (k : Nat) (name : List Char)
    (hk1 : 1 ≤ k) (hk2 : k ≤ E.KEY_MAX) (hE1 : E.KEY_MAX < 2 ^ 31) (hE2 : 32 ≤ E.LONG_BIT)
    (hn : ∀ c, name.head? = some c → c ≠ '-' ∧ isspace c = false) :
    read_keymap_line E t (printf_x k ++ ' ' :: name)
      = apply_line E (resolve_cmd E t name).1 (resolve_cmd E t name).2.1
          (resolve_cmd E t name).2.2 (printf_x k ++ ' ' :: name)
      ∧ ∀ (u : State) (p : cmd_ptr) (b : Bool),
          apply_line E u (some p) b (printf_x k ++ ' ' :: name)
            = if b = false then .nextline { u with keymap := kset u.keymap k (some p) }
              else .nextline { u with unknown_keymap := kset u.unknown_keymap k (some p) } := by
  have hsw := second_word_key_line k name (fun c hc => (hn c hc).2)
  have hkl := line_key_key_line E k name (lt_of_le_of_lt hk2 hE1) hE2
  have hst := strtol16_key_line E k name (lt_of_le_of_lt hk2 hE1) hE2
  have hne := key_line_not_ext k name
  constructor
  · unfold read_keymap_line
    rw [hsw, if_neg]
    intro h
    cases name with
    | nil => simp at h
    | cons c tl =>
      simp only [List.head?_cons, Option.some.injEq] at h
      exact (hn c rfl).1 h
  · intro u p b
    unfold apply_line
    simp only [if_neg hne.1, if_neg hne.2, hkl, hst.1]
    rw [if_neg, if_neg]
    · simp
    · omega
    · rintro (h | h)
      · omega
      · exact hst.2 h

theorem ext_line_facts (E : Env) (c : nh_cmd_desc)
    (hn : ∀ x, c.name.head? = some x → x ≠ '-' ∧ isspace x = false) :
    second_word (ext_line E c) = c.name
      ∧ ((ext_line E c).take 3 = ['E', 'X', 'T']
          ∨ ((ext_line E c).take 3 ≠ ['E', 'X', 'T']
              ∧ (ext_line E c).take 5 = ['N', 'O', 'E', 'X', 'T'])) := by
  have hs : ∀ x, c.name.head? = some x → isspace x = false := fun x hx => (hn x hx).2
  unfold ext_line
  split
  · constructor
    · exact second_word_sep ['E', 'X', 'T'] c.name (by decide) hs
    · left; rfl
  · constructor
    · exact second_word_sep ['N', 'O', 'E', 'X', 'T'] c.name (by decide) hs
    · right
      refine ⟨?_, rfl⟩
      intro h
      have e : "NOEXT ".toList ++ c.name = 'N' :: 'O' :: 'E' :: 'X' :: 'T' :: ' ' :: c.name := rfl
      rw [e] at h
      simp at h

/-- The loop body on a line `EXT <name>` or `NOEXT <name>` for a known command. -/
theorem read_keymap_line_ext (E : Env) (t : State) (c : nh_cmd_desc) (p : cmd_ptr)
    (hn : ∀ x, c.name.head? = some x → x ≠ '-' ∧ isspace x = false)
    (hf : find_command t c.name = some p) :
    ∃ f, read_keymap_line E t (ext_line E c) = .nextline (t.set_flags p f) := by
  obtain ⟨hsw, hpre⟩ := ext_line_facts E c hn
  have hr : resolve_cmd E t c.name = (t, some p, false) := by
    unfold resolve_cmd; rw [hf]
  unfold read_keymap_line
  rw [hsw, if_neg, hr]
  · unfold apply_line
    simp only
    rcases hpre with h | ⟨h1, h2⟩
    · rw [if_pos h]; exact ⟨_, rfl⟩
    · rw [if_neg h1, if_pos h2]; exact ⟨_, rfl⟩
  · intro h
    cases hc : c.name with
    | nil => rw [hc] at h; simp at h
    | cons x tl =>
      rw [hc] at h
      simp only [List.head?_cons, Option.some.injEq] at h
      exact (hn x (by rw [hc]; rfl)).1 h

/-! ### The states of the binding editor -/

theorem same_skel_symm {a b : State} (h : same_skel a b) : same_skel b a :=
  ⟨h.1.symm, h.2.symm⟩

theorem names_of_skel {l l2 : List nh_cmd_desc} (h : l.map skel = l2.map skel) :
    l.map (fun c => c.name) = l2.map (fun c => c.name) := by
  have := congrArg (List.map Prod.fst) h
  simpa [List.map_map, Function.comp, skel] using this

theorem length_of_skel {l l2 : List nh_cmd_desc} (h : l.map skel = l2.map skel) :
    l.length = l2.length := by
  have := congrArg List.length h
  simpa using this

theorem valid_reg_congr {t s : State} (h : same_skel t s) (p : cmd_ptr)
    (hv : valid_reg t p) : valid_reg s p := by
  cases p with
  | dyn i => simp only [valid_reg] at hv ⊢; rw [← length_of_skel h.1]; exact hv
  | builtin i => simp only [valid_reg] at hv ⊢; rw [← length_of_skel h.2]; exact hv
  | unknown i => exact hv

theorem all_valid_congr {t s : State} (h : same_skel t s) (km : Table)
    (hv : all_valid t km) : all_valid s km :=
  fun k p hk => valid_reg_congr h p (hv k p hk)

theorem find_index_bound {n : List Char} {i j : Nat} {l : List nh_cmd_desc}
    (h : find_index n i l = some j) : i ≤ j ∧ j < i + l.length := by
  induction l generalizing i with
  | nil => simp [find_index] at h
  | cons c cs ih =>
    unfold find_index at h
    split at h
    · simp only [Option.some.injEq] at h
      subst h
      simp
    · have := ih h
      simp only [List.length_cons]
      omega

theorem find_command_valid {s : State} {n : List Char} {p : cmd_ptr}
    (h : find_command s n = some p) : valid_reg s p := by
  unfold find_command at h
  cases h1 : find_index n 0 s.commandlist with
  | some i =>
    rw [h1] at h
    simp only [Option.some.injEq] at h
    subst h
    have := find_index_bound h1
    simp only [valid_reg]
    omega
  | none =>
    rw [h1] at h
    cases h2 : find_index n 0 s.builtins with
    | some i =>
      rw [h2] at h
      simp only [Option.some.injEq] at h
      subst h
      have := find_index_bound h2
      simp only [valid_reg]
      omega
    | none => rw [h2] at h; cases h

theorem find_index_none {n : List Char} {l : List nh_cmd_desc} (i : Nat)
    (h : n ∉ l.map (fun c => c.name)) : find_index n i l = none := by
  induction l generalizing i with
  | nil => rfl
  | cons c cs ih =>
    simp only [List.map_cons, List.mem_cons, not_or] at h
    unfold find_index
    rw [if_neg (fun e => h.1 e.symm)]
    exact ih (i + 1) h.2

theorem find_index_of_get {l : List nh_cmd_desc} {j : Nat} {c : nh_cmd_desc} (i : Nat)
    (hnd : (l.map (fun c => c.name)).Nodup) (hc : l.get? j = some c) :
    find_index c.name i l = some (i + j) := by
  induction l generalizing i j with
  | nil => simp at hc
  | cons d ds ih =>
    simp only [List.map_cons, List.nodup_cons] at hnd
    cases j with
    | zero =>
      simp only [List.get?_cons_zero, Option.some.injEq] at hc
      subst hc
      simp [find_index]
    | succ j2 =>
      simp only [List.get?_cons_succ] at hc
      have hmem : c.name ∈ ds.map (fun c => c.name) :=
        List.mem_map.2 ⟨c, List.get?_mem hc, rfl⟩
      have hne : d.name ≠ c.name := fun e => hnd.1 (e ▸ hmem)
      unfold find_index
      rw [if_neg hne, ih (i + 1) hnd.2 hc]
      congr 1
      omega

theorem find_index_some_of_mem {n : List Char} {l : List nh_cmd_desc} (i : Nat)
    (h : n ∈ l.map (fun c => c.name)) : ∃ j, find_index n i l = some j := by
  induction l generalizing i with
  | nil => simp at h
  | cons c cs ih =>
    unfold find_index
    by_cases e : c.name = n
    · rw [if_pos e]; exact ⟨i, rfl⟩
    · rw [if_neg e]
      simp only [List.map_cons, List.mem_cons] at h
      rcases h with h | h
      · exact absurd h.symm e
      · exact ih (i + 1) h

/-- With pairwise different names, `find_command` finds a command under its own name. -/
theorem find_command_name_of (s : State) (p : cmd_ptr)
    (hnd : ((s.commandlist ++ s.builtins).map (fun c => c.name)).Nodup)
    (hv : valid_reg s p) : find_command s (s.name_of p) = some p := by
  rw [List.map_append] at hnd
  obtain ⟨h1, h2, h3⟩ := List.nodup_append.1 hnd
  cases p with
  | dyn i =>
    simp only [valid_reg] at hv
    have hc : s.commandlist.get? i = some (s.commandlist.get ⟨i, hv⟩) := List.get?_eq_get hv
    unfold State.name_of State.deref find_command
    simp only [hc]
    rw [find_index_of_get 0 h1 hc]
    simp
  | builtin i =>
    simp only [valid_reg] at hv
    have hc : s.builtins.get? i = some (s.builtins.get ⟨i, hv⟩) := List.get?_eq_get hv
    have hmem : (s.builtins.get ⟨i, hv⟩).name ∈ s.builtins.map (fun c => c.name) :=
      List.mem_map.2 ⟨_, List.get?_mem hc, rfl⟩
    have hnot : (s.builtins.get ⟨i, hv⟩).name ∉ s.commandlist.map (fun c => c.name) :=
      fun hm => h3 hm hmem
    unfold State.name_of State.deref find_command
    simp only [hc]
    rw [find_index_none 0 hnot, find_index_of_get 0 h2 hc]
    simp
  | unknown i => exact absurd hv (by simp [valid_reg])

theorem name_of_mem (s : State) (p : cmd_ptr) (hv : valid_reg s p) :
    ∃ c ∈ s.commandlist ++ s.builtins, s.name_of p = c.name := by
  cases p with
  | dyn i =>
    simp only [valid_reg] at hv
    have hc : s.commandlist.get? i = some (s.commandlist.get ⟨i, hv⟩) := List.get?_eq_get hv
    refine ⟨_, List.mem_append_left _ (List.get?_mem hc), ?_⟩
    unfold State.name_of State.deref
    simp only [hc]
  | builtin i =>
    simp only [valid_reg] at hv
    have hc : s.builtins.get? i = some (s.builtins.get ⟨i, hv⟩) := List.get?_eq_get hv
    refine ⟨_, List.mem_append_right _ (List.get?_mem hc), ?_⟩
    unfold State.name_of State.deref
    simp only [hc]
  | unknown i => exact absurd hv (by simp [valid_reg])

/-! #### The table of `init_keymap` holds valid pointers -/

theorem all_valid_kset {s : State} {km : Table} (k : Nat) (v : Option cmd_ptr)
    (h : all_valid s km) (hv : ∀ p, v = some p → valid_reg s p) : all_valid s (kset km k v) := by
  intro j p hj
  unfold kset at hj
  split at hj
  · exact hv p hj
  · exact h j p hj

theorem all_valid_defkeys (s : State) (mk : Nat → cmd_ptr) (l : List nh_cmd_desc) (i : Nat)
    (km : Table) (h : all_valid s km) (hmk : ∀ j, j < l.length → valid_reg s (mk (i + j))) :
    all_valid s (assign_defkeys mk i l km) := by
  induction l generalizing i km with
  | nil => exact h
  | cons c cs ih =>
    unfold assign_defkeys
    apply ih
    · split
      · apply all_valid_kset _ _ h
        intro p hp
        simp only [Option.some.injEq] at hp
        subst hp
        simpa using hmk 0 (by simp)
      · exact h
    · intro j hj
      have := hmk (j + 1) (by simpa using hj)
      have e : i + (j + 1) = i + 1 + j := by omega
      rw [e] at this
      exact this

theorem all_valid_altkeys (s : State) (mk : Nat → cmd_ptr) (l : List nh_cmd_desc) (i : Nat)
    (km : Table) (h : all_valid s km) (hmk : ∀ j, j < l.length → valid_reg s (mk (i + j))) :
    all_valid s (assign_altkeys mk i l km) := by
  induction l generalizing i km with
  | nil => exact h
  | cons c cs ih =>
    unfold assign_altkeys
    apply ih
    · split
      · apply all_valid_kset _ _ h
        intro p hp
        simp only [Option.some.injEq] at hp
        subst hp
        simpa using hmk 0 (by simp)
      · exact h
    · intro j hj
      have := hmk (j + 1) (by simpa using hj)
      have e : i + (j + 1) = i + 1 + j := by omega
      rw [e] at this
      exact this

theorem all_valid_metakeys (E : Env) (s : State) (n i : Nat) (km : Table)
    (h : all_valid s km) : all_valid s (assign_metakeys E n i km) := by
  induction n generalizing i km with
  | zero => exact h
  | succ n ih =>
    unfold assign_metakeys
    apply ih
    exact all_valid_kset _ _ h (fun p hp => h i p hp)

theorem all_valid_digits (s : State) (v : Option cmd_ptr) (n i : Nat) (km : Table)
    (h : all_valid s km) (hv : ∀ p, v = some p → valid_reg s p) :
    all_valid s (assign_digits v n i km) := by
  induction n generalizing i km with
  | zero => exact h
  | succ n ih =>
    unfold assign_digits
    apply ih
    exact all_valid_kset _ _ h hv

theorem all_valid_fixed (E : Env) (s : State) : all_valid s (init_keymap_fixed E s) := by
  unfold init_keymap_fixed
  simp only
  repeat
    first
    | apply all_valid_kset _ _ _ (fun p hp => find_command_valid hp)
    | exact fun k p hk => by cases hk

theorem all_valid_init (E : Env) (s : State) : all_valid s (init_keymap_table E s) := by
  unfold init_keymap_table
  simp only
  apply all_valid_metakeys
  apply all_valid_altkeys
  · apply all_valid_altkeys
    · apply all_valid_defkeys
      · apply all_valid_defkeys
        · apply all_valid_digits
          · exact all_valid_fixed E s
          · exact fun p hp => find_command_valid hp
        · intro j hj; simpa [valid_reg] using hj
      · intro j hj; simpa [valid_reg] using hj
    · intro j hj; simpa [valid_reg] using hj
  · intro j hj; simpa [valid_reg] using hj

/-! #### The invariant of the editor -/

theorem set_flags_unknown (s : State) (p : cmd_ptr) (f : Nat → Nat) (hp : valid_reg s p) :
    (s.set_flags p f).unknown_keymap = s.unknown_keymap
      ∧ (s.set_flags p f).unknown_count = s.unknown_count
      ∧ (s.set_flags p f).unknown_commands = s.unknown_commands := by
  cases p with
  | dyn i => exact ⟨rfl, rfl, rfl⟩
  | builtin i => exact ⟨rfl, rfl, rfl⟩
  | unknown i => exact absurd hp (by simp [valid_reg])

theorem editor_inv_set_flags (E : Env) (cmdlist : List nh_cmd_desc) (s : State)
    (p : cmd_ptr) (f : Nat → Nat) (hp : valid_reg s p) (h : editor_inv E cmdlist s) :
    editor_inv E cmdlist (s.set_flags p f) := by
  obtain ⟨h1, h2, h3, h4⟩ := h
  have hu := set_flags_unknown s p f hp
  refine ⟨same_skel_trans (set_flags_same_skel s p f) h1, ?_, ?_, ?_⟩
  · rw [set_flags_keymap]
    exact all_valid_congr (same_skel_symm (set_flags_same_skel s p f)) _ h2
  · rw [hu.1]; exact h3
  · rw [hu.2.1]; exact h4

theorem editor_inv_init (E : Env) (cmdlist : List nh_cmd_desc) (s : State)
    (h : editor_inv E cmdlist s) : editor_inv E cmdlist (init_keymap E s) := by
  obtain ⟨h1, _, h3, h4⟩ := h
  exact ⟨h1, all_valid_init E s, h3, h4⟩

theorem editor_inv_reset (E : Env) (cmdlist : List nh_cmd_desc) (l : List nh_cmd_desc)
    (s : State) (h : editor_inv E cmdlist s) : editor_inv E cmdlist (reset_extcmds s l) := by
  induction l generalizing s with
  | nil => exact h
  | cons c cs ih =>
    unfold reset_extcmds
    apply ih
    cases hf : find_command s c.name with
    | none => exact h
    | some p => exact editor_inv_set_flags E cmdlist s p _ (find_command_valid hf) h

theorem listed_valid (E : Env) (s : State) (p : cmd_ptr) (h : listed E s p) :
    valid_reg s p := by
  cases p with
  | dyn i =>
    obtain ⟨c, hc, _⟩ := h
    exact (List.get?_eq_some.1 hc).1
  | builtin i =>
    obtain ⟨c, hc, _⟩ := h
    exact (List.get?_eq_some.1 hc).1
  | unknown i => exact h

theorem editor_inv_pass (E : Env) (cmdlist : List nh_cmd_desc) (s : State) (cmd : cmd_ptr)
    (selection : Int) (key : Nat) (yn : Char) (hl : listed E s cmd)
    (h : editor_inv E cmdlist s) :
    editor_inv E cmdlist (command_settings_pass E s cmd selection key yn) := by
  have hv := listed_valid E s cmd hl
  obtain ⟨h1, h2, h3, h4⟩ := h
  unfold command_settings_pass
  split
  · exact ⟨h1, all_valid_kset _ _ h2 (fun p hp => find_command_valid hp), h3, h4⟩
  · split
    · split
      · exact ⟨h1, h2, h3, h4⟩
      · split
        · exact ⟨h1, h2, h3, h4⟩
        · refine ⟨h1, all_valid_kset _ _ h2 ?_, h3, h4⟩
          intro p hp
          simp only [Option.some.injEq] at hp
          subst hp
          exact hv
    · split
      · exact editor_inv_set_flags E cmdlist s cmd _ hv ⟨h1, h2, h3, h4⟩
      · exact ⟨h1, h2, h3, h4⟩

/-- Every state that the editor reaches satisfies the invariant. -/
theorem editor_reach_inv (E : Env) (cmdlist : List nh_cmd_desc) (s : State)
    (h : editor_reach E cmdlist s) : editor_inv E cmdlist s := by
  induction h with
  | init =>
    apply editor_inv_init
    refine ⟨same_skel_refl _, ?_, fun _ => rfl, rfl⟩
    intro k p hk
    exact absurd hk (by simp [load_state])
  | pass cmd selection key yn _ hl _ ih => exact editor_inv_pass E cmdlist _ cmd selection key yn hl ih
  | reset _ ih => exact editor_inv_reset E cmdlist cmdlist _ (editor_inv_init E cmdlist _ ih)

/-! ### What `write_keymap` writes for a state of the editor -/

theorem good_name_facts (E : Env) (n : List Char) (h : good_name E n = true) :
    (∀ c ∈ n, isdelim c = false ∧ c ≠ '\x00')
      ∧ (∀ c, n.head? = some c → c ≠ '-' ∧ isspace c = false)
      ∧ n.length + 16 ≤ E.BUFSZ := by
  unfold good_name at h
  simp only [Bool.and_eq_true, List.all_eq_true, decide_eq_true_eq, Bool.not_eq_true',
    bne_iff_ne, ne_eq] at h
  obtain ⟨⟨h1, h2⟩, h3⟩ := h
  refine ⟨h1, ?_, h3⟩
  intro c hc
  cases n with
  | nil => simp at hc
  | cons d t =>
    simp only [List.head?_cons, Option.some.injEq] at hc
    subst hc
    simpa using h2

theorem editor_saveable (E : Env) (cmdlist : List nh_cmd_desc) (s : State)
    (hreg : good_registry E cmdlist) (h : editor_inv E cmdlist s) : saveable E s := by
  obtain ⟨h1, h2, h3, h4⟩ := h
  have e1 : s.commandlist.map (fun c => c.name) = cmdlist.map (fun c => c.name) :=
    names_of_skel h1.1
  have e2 : s.builtins.map (fun c => c.name) = (builtin_commands E).map (fun c => c.name) :=
    names_of_skel h1.2
  refine ⟨?_, ?_, h2, h3, h4⟩
  · rw [List.map_append, e1, e2, ← List.map_append]
    exact hreg.1
  · intro c hc
    have hmem : c.name ∈ (cmdlist ++ builtin_commands E).map (fun c => c.name) := by
      rw [List.map_append, ← e1, ← e2, ← List.map_append]
      exact List.mem_map.2 ⟨c, hc, rfl⟩
    obtain ⟨d, hd, hdn⟩ := List.mem_map.1 hmem
    rw [← hdn]
    exact hreg.2 d hd

theorem key_name_some (s : State) (key : Nat) (p : cmd_ptr) (h : s.keymap key = some p) :
    key_name s key = s.name_of p := by
  unfold key_name; rw [h]

theorem key_name_none (s : State) (key : Nat) (h : s.keymap key = none)
    (hu : s.unknown_keymap key = none) : key_name s key = ['-'] := by
  unfold key_name; rw [h, hu]

theorem saveable_name (E : Env) (s : State) (hs : saveable E s) (key : Nat) (p : cmd_ptr)
    (h : s.keymap key = some p) : good_name E (s.name_of p) = true := by
  obtain ⟨c, hc, hn⟩ := name_of_mem s p (hs.2.2.1 key p h)
  rw [hn]
  exact hs.2.1 c hc

theorem good_name_ne_dash (E : Env) (n : List Char) (h : good_name E n = true) : n ≠ ['-'] := by
  intro e
  subst e
  exact absurd rfl ((good_name_facts E _ h).2.1 '-' rfl).1

theorem snprintf_eq (E : Env) (t : List Char) (h : t.length + 1 ≤ E.BUFSZ) :
    snprintf E t = t := by
  unfold snprintf
  apply List.take_of_length_le
  omega

theorem printf_x_length (k : Nat) : (printf_x k).length ≤ 8 := hex_digits_length_le 8 k

theorem write_keymap_key_eq (E : Env) (s : State) (hs : saveable E s) (key : Nat) :
    write_keymap_key E s key
      = unlines (if key_name s key ≠ ['-'] then [printf_x key ++ ' ' :: key_name s key]
          else []) := by
  unfold write_keymap_key
  simp only
  cases hk : s.keymap key with
  | none =>
    rw [key_name_none s key hk (hs.2.2.2.1 key)]
    simp [unlines]
  | some p =>
    have hg := saveable_name E s hs key p hk
    rw [key_name_some s key p hk]
    have hne := good_name_ne_dash E _ hg
    have hlen := (good_name_facts E _ hg).2.2
    have hx := printf_x_length key
    rw [if_pos hne, if_pos hne, snprintf_eq]
    · simp [unlines]
    · simp only [List.length_append, List.length_singleton]
      omega

theorem write_keymap_keys_eq (E : Env) (s : State) (hs : saveable E s) (n key : Nat) :
    write_keymap_keys E s n key = unlines (key_lines s n key) := by
  induction n generalizing key with
  | zero => rfl
  | succ n ih =>
    rw [write_keymap_keys, key_lines, unlines_append, write_keymap_key_eq E s hs, ih]

theorem write_keymap_ext_eq (E : Env) (c : nh_cmd_desc) (hc : c.name.length + 16 ≤ E.BUFSZ) :
    write_keymap_ext E c = ext_line E c ++ ['\n'] := by
  unfold write_keymap_ext ext_line
  split
  · rw [snprintf_eq]
    have e : "EXT ".toList.length = 4 := rfl
    simp only [List.length_append, List.length_singleton, e]
    omega
  · rw [snprintf_eq]
    have e : "NOEXT ".toList.length = 6 := rfl
    simp only [List.length_append, List.length_singleton, e]
    omega

theorem write_keymap_exts_eq (E : Env) (cs : List nh_cmd_desc)
    (h : ∀ c ∈ cs, c.name.length + 16 ≤ E.BUFSZ) :
    write_keymap_exts E cs = unlines (cs.map (ext_line E)) := by
  induction cs with
  | nil => rfl
  | cons c cs ih =>
    have hc := h c (List.mem_cons_self _ _)
    rw [write_keymap_exts, List.map_cons, unlines, ih (fun x hx => h x (List.mem_cons_of_mem _ hx)),
      write_keymap_ext_eq E c hc]
    simp

/-- The text of the keymap file of a saveable state, line by line. -/
theorem keymap_text_eq (E : Env) (s : State) (hs : saveable E s) :
    keymap_text E s
      = unlines (key_lines s E.KEY_MAX 1 ++ s.commandlist.map (ext_line E)) := by
  unfold keymap_text
  rw [hs.2.2.2.2, List.take_zero, write_keymap_keys_eq E s hs, write_keymap_exts_eq E s.commandlist]
  · simp [write_keymap_exts, unlines_append]
  · intro c hc
    exact (good_name_facts E _ (hs.2.1 c (List.mem_append_left _ hc))).2.2

theorem mem_key_lines (s : State) (n key : Nat) (l : List Char) (h : l ∈ key_lines s n key) :
    ∃ k, key ≤ k ∧ k < key + n ∧ key_name s k ≠ ['-'] ∧ l = printf_x k ++ ' ' :: key_name s k := by
  induction n generalizing key with
  | zero => simp [key_lines] at h
  | succ n ih =>
    rw [key_lines] at h
    rcases List.mem_append.1 h with h1 | h1
    · split at h1
      · rename_i hne
        simp only [List.mem_singleton] at h1
        exact ⟨key, Nat.le_refl _, by omega, hne, h1⟩
      · simp at h1
    · obtain ⟨k, hk1, hk2, hk3, hk4⟩ := ih (key + 1) h1
      exact ⟨k, by omega, by omega, hk3, hk4⟩

theorem key_name_good (E : Env) (s : State) (hs : saveable E s) (k : Nat)
    (h : key_name s k ≠ ['-']) : good_name E (key_name s k) = true := by
  cases hk : s.keymap k with
  | none => exact absurd (key_name_none s k hk (hs.2.2.2.1 k)) h
  | some p =>
    rw [key_name_some s k p hk]
    exact saveable_name E s hs k p hk

/-- The lines of the keymap file of a saveable state are those that `strtok` returns. -/
theorem strtok_lines_keymap_text (E : Env) (s : State) (hs : saveable E s) :
    strtok_lines (keymap_text E s)
      = key_lines s E.KEY_MAX 1 ++ s.commandlist.map (ext_line E) := by
  rw [keymap_text_eq E s hs]
  apply strtok_lines_unlines
  intro l hl
  rcases List.mem_append.1 hl with h | h
  · obtain ⟨k, _, _, hne, rfl⟩ := mem_key_lines s _ _ l h
    have hg := good_name_facts E _ (key_name_good E s hs k hne)
    obtain ⟨c, t, hp, hc, _⟩ := printf_x_cons k
    refine ⟨by rw [hp]; simp, ?_⟩
    intro x hx
    rcases List.mem_append.1 hx with h1 | h1
    · have := hexchar_facts x (hex_digits_hexchar 8 k x h1)
      exact ⟨this.2.1, this.2.2.1⟩
    · rcases List.mem_cons.1 h1 with h2 | h2
      · rw [h2]; exact ⟨by decide, by decide⟩
      · exact hg.1 x h2
  · obtain ⟨c, hc, rfl⟩ := List.mem_map.1 h
    have hg := good_name_facts E _ (hs.2.1 c (List.mem_append_left _ hc))
    unfold ext_line
    split
    · refine ⟨by simp, ?_⟩
      intro x hx
      rcases List.mem_append.1 hx with h1 | h1
      · have : x ∈ ['E', 'X', 'T', ' '] := h1
        simp only [List.mem_cons, List.mem_singleton, List.not_mem_nil, or_false] at this
        rcases this with e | e | e | e <;> rw [e] <;> exact ⟨by decide, by decide⟩
      · exact hg.1 x h1
    · refine ⟨by simp, ?_⟩
      intro x hx
      rcases List.mem_append.1 hx with h1 | h1
      · have : x ∈ ['N', 'O', 'E', 'X', 'T', ' '] := h1
        simp only [List.mem_cons, List.mem_singleton, List.not_mem_nil, or_false] at this
        rcases this with e | e | e | e | e | e <;> rw [e] <;> exact ⟨by decide, by decide⟩
      · exact hg.1 x h1

/-! ### Reading back what `write_keymap` wrote -/

theorem read_keymap_lines_cons_nextline (E : Env) (l : List Char) (rest : List (List Char))
    (t t1 : State) (h : read_keymap_line E t l = .nextline t1) :
    read_keymap_lines E (l :: rest) t = read_keymap_lines E rest t1 := by
  simp only [read_keymap_lines, h]

/-- The line loop over the lines that the key loop of `write_keymap` wrote. -/
theorem read_key_lines (E : Env) (s : State) (hs : saveable E s) (hE1 : E.KEY_MAX < 2 ^ 31)
    (hE2 : 32 ≤ E.LONG_BIT) (n : Nat) :
    ∀ (key : Nat) (t : State) (rest : List (List Char)), same_skel t s → 1 ≤ key →
      key + n ≤ E.KEY_MAX + 1 →
      ∃ t2, read_keymap_lines E (key_lines s n key ++ rest) t = read_keymap_lines E rest t2
        ∧ same_skel t2 s
        ∧ ∀ k, t2.keymap k
            = if key ≤ k ∧ k < key + n ∧ (s.keymap k).isSome then s.keymap k else t.keymap k := by
  induction n with
  | zero =>
    intro key t rest ht _ _
    refine ⟨t, rfl, ht, ?_⟩
    intro k
    rw [if_neg]
    omega
  | succ n ih =>
    intro key t rest ht hk1 hk2
    rw [key_lines]
    cases hk : s.keymap key with
    | none =>
      rw [key_name_none s key hk (hs.2.2.2.1 key)]
      simp only [ne_eq, not_true_eq_false, if_false, List.nil_append]
      obtain ⟨t2, h1, h2, h3⟩ := ih (key + 1) t rest ht (by omega) (by omega)
      refine ⟨t2, h1, h2, ?_⟩
      intro k
      rw [h3 k]
      by_cases e : k = key
      · subst e
        rw [if_neg (by omega), if_neg (by simp [hk])]
      · by_cases c : key + 1 ≤ k ∧ k < key + 1 + n ∧ (s.keymap k).isSome
        · rw [if_pos c, if_pos ⟨by omega, by omega, c.2.2⟩]
        · rw [if_neg c, if_neg]
          rintro ⟨c1, c2, c3⟩
          exact c ⟨by omega, by omega, c3⟩
    | some p =>
      have hg := saveable_name E s hs key p hk
      have hgf := good_name_facts E _ hg
      have hv : valid_reg s p := hs.2.2.1 key p hk
      rw [key_name_some s key p hk, if_pos (good_name_ne_dash E _ hg)]
      have hfind : find_command t (s.name_of p) = some p := by
        rw [find_command_congr ht]
        exact find_command_name_of s p hs.1 hv
      have hres : resolve_cmd E t (s.name_of p) = (t, some p, false) := by
        unfold resolve_cmd; rw [hfind]
      obtain ⟨hl1, hl2⟩ := read_keymap_line_key E t key (s.name_of p) hk1 (by omega) hE1 hE2 hgf.2.1
      have hline : read_keymap_line E t (printf_x key ++ ' ' :: s.name_of p)
          = .nextline { t with keymap := kset t.keymap key (some p) } := by
        rw [hl1, hres]
        simp only
        rw [hl2]
        simp
      simp only [List.singleton_append, List.cons_append]
      rw [read_keymap_lines_cons_nextline E _ _ t _ hline]
      obtain ⟨t2, h1, h2, h3⟩ := ih (key + 1) { t with keymap := kset t.keymap key (some p) }
        rest ⟨ht.1, ht.2⟩ (by omega) (by omega)
      refine ⟨t2, h1, h2, ?_⟩
      intro k
      rw [h3 k]
      by_cases e : k = key
      · subst e
        rw [if_neg (by omega), if_pos ⟨Nat.le_refl _, by omega, by simp [hk]⟩, hk]
        simp [kset]
      · by_cases c : key + 1 ≤ k ∧ k < key + 1 + n ∧ (s.keymap k).isSome
        · rw [if_pos c, if_pos ⟨by omega, by omega, c.2.2⟩]
        · rw [if_neg c, if_neg]
          · simp [kset, e]
          · rintro ⟨c1, c2, c3⟩
            exact c ⟨by omega, by omega, c3⟩

/-- The line loop over the lines `EXT` and `NOEXT` for the commands of the game. -/
theorem read_ext_lines (E : Env) (s : State) (hs : saveable E s) (cs : List nh_cmd_desc) :
    ∀ (t : State) (rest : List (List Char)), (∀ c ∈ cs, c ∈ s.commandlist) → same_skel t s →
      ∃ t2, read_keymap_lines E (cs.map (ext_line E) ++ rest) t = read_keymap_lines E rest t2
        ∧ same_skel t2 s ∧ t2.keymap = t.keymap := by
  induction cs with
  | nil =>
    intro t rest _ ht
    exact ⟨t, rfl, ht, rfl⟩
  | cons c cs ih =>
    intro t rest hc ht
    have hmem : c ∈ s.commandlist := hc c (List.mem_cons_self _ _)
    have hgf := good_name_facts E _ (hs.2.1 c (List.mem_append_left _ hmem))
    obtain ⟨j, hj⟩ := find_index_some_of_mem (l := s.commandlist) 0
      (List.mem_map.2 ⟨c, hmem, rfl⟩)
    have hfind : find_command t c.name = some (.dyn j) := by
      rw [find_command_congr ht]
      unfold find_command
      rw [hj]
    obtain ⟨f, hline⟩ := read_keymap_line_ext E t c (.dyn j) hgf.2.1 hfind
    simp only [List.map_cons, List.cons_append]
    rw [read_keymap_lines_cons_nextline E _ _ t _ hline]
    obtain ⟨t2, h1, h2, h3⟩ := ih (t.set_flags (.dyn j) f) rest
      (fun x hx => hc x (List.mem_cons_of_mem _ hx))
      (same_skel_trans (set_flags_same_skel _ _ _) ht)
    exact ⟨t2, h1, h2, by rw [h3, set_flags_keymap]⟩

/-- Reading the file of a saveable state succeeds and restores every bound key. -/
theorem read_keymap_text (E : Env) (s t : State) (hs : saveable E s)
    (hE1 : E.KEY_MAX < 2 ^ 31) (hE2 : 32 ≤ E.LONG_BIT) (ht : same_skel t s) :
    (read_keymap_lines E (strtok_lines (keymap_text E s)) t).1 = true
      ∧ ∀ k, 1 ≤ k → k ≤ E.KEY_MAX → (s.keymap k).isSome →
          (read_keymap_lines E (strtok_lines (keymap_text E s)) t).2.keymap k = s.keymap k := by
  rw [strtok_lines_keymap_text E s hs]
  obtain ⟨t2, h1, h2, h3⟩ := read_key_lines E s hs hE1 hE2 E.KEY_MAX 1 t
    (s.commandlist.map (ext_line E)) ht (Nat.le_refl _) (by omega)
  obtain ⟨t3, g1, _, g3⟩ := read_ext_lines E s hs s.commandlist t2 [] (fun c hc => hc) h2
  rw [List.append_nil] at g1
  rw [h1, g1]
  refine ⟨rfl, ?_⟩
  intro k hk1 hk2 hb
  simp only [read_keymap_lines]
  rw [g3, h3 k, if_pos ⟨hk1, by omega, hb⟩]

theorem load_keymap_eq (E : Env) (cmdlist : List nh_cmd_desc) (data : List Char) :
    load_keymap E cmdlist (some data)
      = read_keymap_lines E (strtok_lines data)
          { init_keymap E (load_state E cmdlist (some data)) with
            unknown_count := 0, unknown_keymap := fun _ => none } := by
  unfold load_keymap
  exact read_keymap_of_conf E _ data rfl

theorem load_keymap_keymap_zero (E : Env) (cmdlist : List nh_cmd_desc) (data : List Char) :
    (load_keymap E cmdlist (some data)).2.keymap 0
      = init_keymap_table E (load_state E cmdlist none) 0 := by
  rw [load_keymap_eq]
  have e : init_keymap_table E (load_state E cmdlist (some data))
      = init_keymap_table E (load_state E cmdlist none) :=
    init_keymap_table_congr E ⟨rfl, rfl⟩
  rcases read_keymap_lines_keymap_zero E (strtok_lines data)
    { init_keymap E (load_state E cmdlist (some data)) with
      unknown_count := 0, unknown_keymap := fun _ => none } with h | h
  · rw [h]
    simp only [init_keymap]
    rw [e]
  · rw [h, ← e]
    exact congrFun (init_keymap_table_congr E ⟨rfl, rfl⟩) 0

/-! ## Claims about saving and loading -/

/-- C1, as amended: for a registry with pairwise different, good names and a
state `s` that the binding editor reaches from the defaults, loading the text of
`write_keymap` into the freshly initialised table succeeds and binds every key
`k` in `1 .. KEY_MAX` that was bound in `s` to the same command as in `s`. -/
theorem save_load_round_trip (E : Env) (cmdlist : List nh_cmd_desc) (s : State) (k : Nat)
    (hE1 : E.KEY_MAX < 2 ^ 31) (hE2 : 32 ≤ E.LONG_BIT) (hreg : good_registry E cmdlist)
    (hs : editor_reach E cmdlist s) (hk1 : 1 ≤ k) (hk2 : k ≤ E.KEY_MAX)
    (hb : s.keymap k ≠ none) :
    (load_keymap E cmdlist (write_keymap E s).conf).1 = true
      ∧ (load_keymap E cmdlist (write_keymap E s).conf).2.keymap k = s.keymap k := by
  have hinv := editor_reach_inv E cmdlist s hs
  have hsave := editor_saveable E cmdlist s hreg hinv
  have hconf : (write_keymap E s).conf = some (keymap_text E s) := rfl
  rw [hconf, load_keymap_eq]
  have ht : same_skel
      { init_keymap E (load_state E cmdlist (some (keymap_text E s))) with
        unknown_count := 0, unknown_keymap := fun _ => none } s :=
    ⟨hinv.1.1.symm, hinv.1.2.symm⟩
  obtain ⟨h1, h2⟩ := read_keymap_text E s _ hsave hE1 hE2 ht
  refine ⟨h1, h2 k hk1 hk2 ?_⟩
  cases hk : s.keymap k with
  | none => exact absurd hk hb
  | some p => rfl

set_option maxRecDepth 100000 in
/-- The amended C1 for the key `x` after the user has bound it to `search`. -/
theorem save_load_round_trip_witness :
    (load_keymap demoEnv demoCommands (write_keymap demoEnv boundKeyState).conf).1 = true
      ∧ (load_keymap demoEnv demoCommands (write_keymap demoEnv boundKeyState).conf).2.keymap
          'x'.toNat = boundKeyState.keymap 'x'.toNat :=
  save_load_round_trip demoEnv demoCommands boundKeyState 'x'.toNat (by decide) (by decide)
    (by decide)
    (editor_reach.pass (.dyn 3) (-1) 'x'.toNat 'n' editor_reach.init ⟨_, rfl, by decide⟩
      (Or.inr (Or.inl rfl)))
    (by decide) (by decide) (by decide)

set_option maxRecDepth 100000 in
/-- C1 fails at the key 0: the editor binds it to `east`, `write_keymap` writes
the keys from 1 on only, and after the reload the key 0 is unbound. -/
theorem round_trip_loses_key_zero :
    good_registry demoEnv demoCommands
      ∧ editor_reach demoEnv demoCommands zeroKeyState
      ∧ zeroKeyState.keymap 0 = some (.builtin 0)
      ∧ (load_keymap demoEnv demoCommands (write_keymap demoEnv zeroKeyState).conf).2.keymap 0
          = none := by
  refine ⟨by decide, ?_, by decide, ?_⟩
  · exact editor_reach.pass (.builtin 0) (-1) 0 'n' editor_reach.init ⟨_, rfl, by decide⟩
      (Or.inr (Or.inl rfl))
  · have hconf : (write_keymap demoEnv zeroKeyState).conf
        = some (keymap_text demoEnv zeroKeyState) := rfl
    rw [hconf, load_keymap_keymap_zero]
    decide

/-! ### Bindings of unknown commands -/

theorem mod_flags_length (f : Nat → Nat) (j : Nat) (l : List nh_cmd_desc) :
    (mod_flags f j l).length = l.length := by
  induction l generalizing j with
  | nil => cases j <;> rfl
  | cons c cs ih => cases j <;> simp [mod_flags, ih]

theorem mod_flags_get_name (f : Nat → Nat) (j : Nat) (l : List nh_cmd_desc) (i : Nat)
    (c : nh_cmd_desc) (h : l.get? i = some c) :
    ∃ c2, (mod_flags f j l).get? i = some c2 ∧ c2.name = c.name := by
  induction l generalizing i j with
  | nil => simp at h
  | cons d ds ih =>
    cases j with
    | zero =>
      cases i with
      | zero =>
        simp only [List.get?_cons_zero, Option.some.injEq] at h
        subst h
        exact ⟨_, rfl, rfl⟩
      | succ i2 => exact ⟨c, by simpa [mod_flags] using h, rfl⟩
    | succ j2 =>
      cases i with
      | zero => exact ⟨c, by simpa [mod_flags] using h, rfl⟩
      | succ i2 =>
        simp only [List.get?_cons_succ] at h
        obtain ⟨c2, h1, h2⟩ := ih j2 i2 h
        exact ⟨c2, by simpa [mod_flags] using h1, h2⟩

theorem set_name_length (nm : List Char) (j : Nat) (l : List nh_cmd_desc) :
    (set_name nm j l).length = l.length := by
  induction l generalizing j with
  | nil => cases j <;> rfl
  | cons c cs ih => cases j <;> simp [set_name, ih]

theorem set_name_get_other (nm : List Char) (j : Nat) (l : List nh_cmd_desc) (i : Nat)
    (h : i ≠ j) : (set_name nm j l).get? i = l.get? i := by
  induction l generalizing i j with
  | nil => cases j <;> rfl
  | cons d ds ih =>
    cases j with
    | zero =>
      cases i with
      | zero => exact absurd rfl h
      | succ i2 => simp [set_name]
    | succ j2 =>
      cases i with
      | zero => simp [set_name]
      | succ i2 =>
        simp only [set_name, List.get?_cons_succ]
        exact ih j2 i2 (by omega)

theorem set_name_get_same (nm : List Char) (j : Nat) (l : List nh_cmd_desc)
    (h : j < l.length) : ∃ c, (set_name nm j l).get? j = some c ∧ c.name = nm := by
  induction l generalizing j with
  | nil => simp at h
  | cons d ds ih =>
    cases j with
    | zero => exact ⟨_, rfl, rfl⟩
    | succ j2 =>
      simp only [set_name, List.get?_cons_succ]
      exact ih j2 (by simpa using h)

theorem grow_unknown_facts (t : State) (h : unk_ok t) :
    (grow_unknown t).unknown_count = t.unknown_count
      ∧ (grow_unknown t).unknown_keymap = t.unknown_keymap
      ∧ (grow_unknown t).keymap = t.keymap
      ∧ t.unknown_count < (grow_unknown t).unknown_commands.length
      ∧ ∀ i, i < t.unknown_count →
          (grow_unknown t).unknown_commands.get? i = t.unknown_commands.get? i := by
  unfold unk_ok at h
  unfold grow_unknown
  split
  · rename_i hge
    refine ⟨rfl, rfl, rfl, ?_, ?_⟩
    · simp only [List.length_append, List.length_replicate]
      omega
    · intro i hi
      simp only
      simp only [List.get?_eq_getElem?]
      exact List.getElem?_append_left (show i < t.unknown_commands.length by omega)
  · rename_i hlt
    exact ⟨rfl, rfl, rfl, by omega, fun _ _ => rfl⟩

/-- What the block that records an unknown command leaves behind. -/
theorem record_unknown_facts (E : Env) (t : State) (n : List Char) (h : unk_ok t) :
    (record_unknown E t n).2 = .unknown t.unknown_count
      ∧ (record_unknown E t n).1.unknown_count = t.unknown_count + 1
      ∧ (record_unknown E t n).1.unknown_keymap = t.unknown_keymap
      ∧ unk_ok (record_unknown E t n).1
      ∧ (∃ c, (record_unknown E t n).1.unknown_commands.get? t.unknown_count = some c
          ∧ c.name = strncpy_name E n)
      ∧ ∀ i, i < t.unknown_count →
          (record_unknown E t n).1.unknown_commands.get? i = t.unknown_commands.get? i := by
  obtain ⟨g1, g2, _, g4, g5⟩ := grow_unknown_facts t h
  refine ⟨?_, ?_, g2, ?_, ?_, ?_⟩
  · show cmd_ptr.unknown (grow_unknown t).unknown_count = _
    rw [g1]
  · show (grow_unknown t).unknown_count + 1 = _
    rw [g1]
  · show (grow_unknown t).unknown_count + 1 ≤ (set_name _ _ _).length
    rw [set_name_length, g1]
    omega
  · show ∃ c, (set_name (strncpy_name E n) (grow_unknown t).unknown_count
        (grow_unknown t).unknown_commands).get? t.unknown_count = some c ∧ _
    rw [g1]
    exact set_name_get_same _ _ _ g4
  · intro i hi
    show (set_name (strncpy_name E n) (grow_unknown t).unknown_count
        (grow_unknown t).unknown_commands).get? i = _
    rw [g1, set_name_get_other _ _ _ _ (by omega)]
    exact g5 i hi

theorem set_flags_unk_ok (t : State) (p : cmd_ptr) (f : Nat → Nat) (h : unk_ok t) :
    unk_ok (t.set_flags p f) := by
  unfold unk_ok at h ⊢
  cases p with
  | dyn i => exact h
  | builtin i => exact h
  | unknown i =>
    simp only [State.set_flags, mod_flags_length]
    exact h

theorem resolve_cmd_unk_ok (E : Env) (t : State) (n : List Char) (h : unk_ok t) :
    unk_ok (resolve_cmd E t n).1 := by
  unfold resolve_cmd
  cases find_command t n with
  | some p => exact h
  | none => exact (record_unknown_facts E t n h).2.2.2.1

theorem read_keymap_line_unk_ok (E : Env) (t : State) (l : List Char) (h : unk_ok t) :
    (read_keymap_line E t l).holds unk_ok := by
  unfold read_keymap_line
  split
  · trivial
  · obtain ⟨p, hp⟩ := resolve_cmd_some E t (second_word l)
    rw [hp]
    have hr := resolve_cmd_unk_ok E t (second_word l) h
    apply apply_line_cases
    · intro _; exact set_flags_unk_ok _ _ _ hr
    · intro _; exact set_flags_unk_ok _ _ _ hr
    · intro _; exact hr
    · intro _; exact hr
    · intro k _ _ _ _; exact hr
    · intro k _ _ _ _; exact hr

/-- A property that every pass of the loop body keeps holds after a load that succeeds. -/
theorem read_keymap_lines_inv (E : Env) (P : State → Prop) (ls : List (List Char))
    (hstep : ∀ t l, l ∈ ls → P t → (read_keymap_line E t l).holds P) (t : State) (h : P t)
    (hok : (read_keymap_lines E ls t).1 = true) : P (read_keymap_lines E ls t).2 := by
  induction ls generalizing t with
  | nil => exact h
  | cons l rest ih =>
    have h1 := hstep t l (List.mem_cons_self _ _) h
    unfold read_keymap_lines at hok ⊢
    cases hr : read_keymap_line E t l with
    | legacy => rw [hr] at hok; cases hok
    | badmap s1 => rw [hr] at hok; cases hok
    | nextline s1 =>
      rw [hr] at hok h1
      simp only at hok ⊢
      exact ih (fun t2 l2 hl2 => hstep t2 l2 (List.mem_cons_of_mem _ hl2)) s1 h1 hok

theorem read_keymap_lines_append (E : Env) (pre rest : List (List Char)) (t : State)
    (hok : (read_keymap_lines E (pre ++ rest) t).1 = true) :
    (read_keymap_lines E pre t).1 = true
      ∧ read_keymap_lines E (pre ++ rest) t
          = read_keymap_lines E rest (read_keymap_lines E pre t).2 := by
  induction pre generalizing t with
  | nil => exact ⟨rfl, rfl⟩
  | cons l pre ih =>
    rw [List.cons_append] at hok ⊢
    cases hr : read_keymap_line E t l with
    | legacy =>
      have e : read_keymap_lines E (l :: (pre ++ rest)) t
          = (false, write_keymap E (init_keymap E t)) := by
        simp only [read_keymap_lines, hr]
      rw [e] at hok; cases hok
    | badmap s1 =>
      have e : read_keymap_lines E (l :: (pre ++ rest)) t = (false, init_keymap E s1) := by
        simp only [read_keymap_lines, hr]
      rw [e] at hok; cases hok
    | nextline s1 =>
      rw [read_keymap_lines_cons_nextline E l (pre ++ rest) t s1 hr] at hok ⊢
      rw [read_keymap_lines_cons_nextline E l pre t s1 hr]
      exact ih s1 hok

theorem set_flags_keeps_unknown (k idx : Nat) (name : List Char) (t : State) (p : cmd_ptr)
    (f : Nat → Nat) (h : keeps_unknown k idx name t) :
    keeps_unknown k idx name (t.set_flags p f) := by
  obtain ⟨h1, h2, h3, c, h4, h5⟩ := h
  cases p with
  | dyn i => exact ⟨h1, h2, h3, c, h4, h5⟩
  | builtin i => exact ⟨h1, h2, h3, c, h4, h5⟩
  | unknown i =>
    obtain ⟨c2, g1, g2⟩ := mod_flags_get_name f i t.unknown_commands idx c h4
    exact ⟨h1, h2, set_flags_unk_ok t (.unknown i) f h3, c2, g1, g2.trans h5⟩

theorem resolve_cmd_keeps_unknown (E : Env) (k idx : Nat) (name : List Char) (t : State)
    (n : List Char) (h : keeps_unknown k idx name t) :
    keeps_unknown k idx name (resolve_cmd E t n).1 := by
  unfold resolve_cmd
  cases find_command t n with
  | some p => exact h
  | none =>
    obtain ⟨h1, h2, h3, c, h4, h5⟩ := h
    obtain ⟨_, r2, r3, r4, _, r6⟩ := record_unknown_facts E t n h3
    refine ⟨by rw [r3]; exact h1, by rw [r2]; omega, r4, c, ?_, h5⟩
    rw [r6 idx h2]
    exact h4

/-- A line that does not bind the key `k` leaves its unknown binding alone. -/
theorem read_keymap_line_keeps_unknown (E : Env) (k idx : Nat) (name : List Char) (t : State)
    (l : List Char) (hnb : ¬ binds_key E l k) (h : keeps_unknown k idx name t) :
    (read_keymap_line E t l).holds (keeps_unknown k idx name) := by
  unfold read_keymap_line
  split
  · trivial
  · obtain ⟨p, hp⟩ := resolve_cmd_some E t (second_word l)
    rw [hp]
    have hr := resolve_cmd_keeps_unknown E k idx name t (second_word l) h
    apply apply_line_cases
    · intro _; exact set_flags_keeps_unknown _ _ _ _ _ _ hr
    · intro _; exact set_flags_keeps_unknown _ _ _ _ _ _ hr
    · intro _; exact hr
    · intro _; exact hr
    · intro k2 _ _ _ _; exact hr
    · intro k2 _ _ hb _
      obtain ⟨h1, h2, h3, h4⟩ := hr
      refine ⟨?_, h2, h3, h4⟩
      have hne : k ≠ k2 := fun e => hnb (e ▸ hb)
      simp only
      rw [kset_other _ _ _ _ hne]
      exact h1

theorem write_keymap_keys_split (E : Env) (s : State) (n key k : Nat) (h1 : key ≤ k)
    (h2 : k < key + n) :
    ∃ a b, write_keymap_keys E s n key = a ++ write_keymap_key E s k ++ b := by
  induction n generalizing key with
  | zero => omega
  | succ n ih =>
    rw [write_keymap_keys]
    by_cases e : key = k
    · subst e
      exact ⟨[], write_keymap_keys E s n (key + 1), by simp⟩
    · obtain ⟨a, b, hab⟩ := ih (key + 1) (by omega) (by omega)
      exact ⟨write_keymap_key E s key ++ a, b, by rw [hab]; simp⟩

theorem holds_mono {P Q : State → Prop} {r : line_result} (h : r.holds P)
    (hPQ : ∀ x, P x → Q x) : r.holds Q := by
  cases r with
  | nextline s1 => exact hPQ s1 h
  | legacy => trivial
  | badmap s1 => exact hPQ s1 h

theorem read_keymap_lines_same_skel (E : Env) (ls : List (List Char)) (t : State)
    (hok : (read_keymap_lines E ls t).1 = true) : same_skel (read_keymap_lines E ls t).2 t :=
  read_keymap_lines_inv E (fun x => same_skel x t) ls
    (fun u l _ hu => holds_mono (read_keymap_line_same_skel E u l)
      (fun _ hx => same_skel_trans hx hu))
    t (same_skel_refl t) hok

/-- After a load that succeeds, a line `<hex key> <name>` with an unknown name,
after which no line binds the same key, is still recorded for that key. -/
theorem read_keymap_lines_unknown (E : Env) (t : State) (pre post : List (List Char))
    (k : Nat) (name : List Char) (h0 : unk_ok t) (hunk : find_command t name = none)
    (hk1 : 1 ≤ k) (hk2 : k ≤ E.KEY_MAX) (hE1 : E.KEY_MAX < 2 ^ 31) (hE2 : 32 ≤ E.LONG_BIT)
    (hlen : name.length < E.NAMESZ)
    (hhead : ∀ c, name.head? = some c → c ≠ '-' ∧ isspace c = false)
    (hpost : ∀ l ∈ post, ¬ binds_key E l k)
    (hok : (read_keymap_lines E (pre ++ (printf_x k ++ ' ' :: name) :: post) t).1 = true) :
    ∃ idx, keeps_unknown k idx name
      (read_keymap_lines E (pre ++ (printf_x k ++ ' ' :: name) :: post) t).2 := by
  obtain ⟨hpre, hsplit⟩ := read_keymap_lines_append E pre _ t hok
  rw [hsplit] at hok ⊢
  have hu_ok : unk_ok (read_keymap_lines E pre t).2 :=
    read_keymap_lines_inv E unk_ok pre (fun u l _ hu => read_keymap_line_unk_ok E u l hu)
      t h0 hpre
  have hu_skel := read_keymap_lines_same_skel E pre t hpre
  generalize (read_keymap_lines E pre t).2 = u at hok hu_ok hu_skel ⊢
  have hfind : find_command u name = none := by
    rw [find_command_congr hu_skel]; exact hunk
  have hres : resolve_cmd E u name
      = ((record_unknown E u name).1, some (record_unknown E u name).2, true) := by
    unfold resolve_cmd; rw [hfind]
  obtain ⟨hl1, hl2⟩ := read_keymap_line_key E u k name hk1 hk2 hE1 hE2 hhead
  obtain ⟨r1, r2, _, r4, ⟨c, r5, r5n⟩, _⟩ := record_unknown_facts E u name hu_ok
  have hline : read_keymap_line E u (printf_x k ++ ' ' :: name)
      = .nextline { (record_unknown E u name).1 with
          unknown_keymap := kset (record_unknown E u name).1.unknown_keymap k
            (some (.unknown u.unknown_count)) } := by
    rw [hl1, hres]
    simp only
    rw [hl2, r1]
    simp
  rw [read_keymap_lines_cons_nextline E _ post u _ hline] at hok ⊢
  have hname : strncpy_name E name = name := by
    unfold strncpy_name
    apply List.take_of_length_le
    omega
  refine ⟨u.unknown_count, ?_⟩
  apply read_keymap_lines_inv E (keeps_unknown k u.unknown_count name) post
    (fun y l hl hy => read_keymap_line_keeps_unknown E k u.unknown_count name y l
      (hpost l hl) hy) _ _ hok
  refine ⟨kset_same _ _ _, ?_, r4, c, r5, r5n.trans hname⟩
  show u.unknown_count < (record_unknown E u name).1.unknown_count
  rw [r2]
  omega

/-! ## Claims about unknown commands -/

/-- C2, as amended: let a file that `read_keymap` loads with success hold the
line `<hex-key> <name>` where the key `k` in `1 .. KEY_MAX` is written as `%x`
writes it and followed by one space, and `name` is shorter than
`sizeof (cmd->name)`, starts neither with `-` nor with white space, and is not
found by `find_command`. If no later line of the file binds `k`, and `k` is not
bound to a known command after the load, then the pass of the key loop of
`write_keymap` for `k` writes exactly that line and a newline, and this is part
of the text that `write_keymap` writes. -/
theorem unknown_binding_written_back (E : Env) (s : State) (data : List Char)
    (pre post : List (List Char)) (k : Nat) (name : List Char)
    (hconf : s.conf = some data)
    (hlines : strtok_lines data = pre ++ (printf_x k ++ ' ' :: name) :: post)
    (hk1 : 1 ≤ k) (hk2 : k ≤ E.KEY_MAX) (hE1 : E.KEY_MAX < 2 ^ 31) (hE2 : 32 ≤ E.LONG_BIT)
    (hE3 : E.NAMESZ + 10 ≤ E.BUFSZ) (hlen : name.length < E.NAMESZ)
    (hhead : ∀ c, name.head? = some c → c ≠ '-' ∧ isspace c = false)
    (hunk : find_command s name = none)
    (hpost : ∀ l ∈ post, ¬ binds_key E l k)
    (hok : (read_keymap E s).1 = true)
    (hfree : (read_keymap E s).2.keymap k = none) :
    write_keymap_key E (read_keymap E s).2 k = printf_x k ++ ' ' :: name ++ ['\n']
      ∧ ∃ a b, keymap_text E (read_keymap E s).2
          = a ++ (printf_x k ++ ' ' :: name ++ ['\n']) ++ b := by
  rw [read_keymap_of_conf E s data hconf, hlines] at hok hfree ⊢
  have h0 : unk_ok { s with unknown_count := 0, unknown_keymap := fun _ => none } := by
    unfold unk_ok; exact Nat.zero_le _
  have hunk0 : find_command { s with unknown_count := 0, unknown_keymap := fun _ => none } name
      = none :=
    (find_command_congr (s := s) ⟨rfl, rfl⟩ name).trans hunk
  obtain ⟨idx, hw1, _, _, c, hc, hcn⟩ := read_keymap_lines_unknown E _ pre post k name h0 hunk0
    hk1 hk2 hE1 hE2 hlen hhead hpost hok
  generalize (read_keymap_lines E (pre ++ (printf_x k ++ ' ' :: name) :: post)
    { s with unknown_count := 0, unknown_keymap := fun _ => none }).2 = w at hfree hw1 hc ⊢
  have hkn : key_name w k = name := by
    unfold key_name
    rw [hfree, hw1]
    unfold State.name_of State.deref
    simp only [hc, hcn]
  have hne : name ≠ ['-'] := by
    intro e
    subst e
    exact (hhead '-' rfl).1 rfl
  have hx := printf_x_length k
  have hkey : write_keymap_key E w k = printf_x k ++ ' ' :: name ++ ['\n'] := by
    unfold write_keymap_key
    simp only [hkn]
    rw [if_pos hne, snprintf_eq]
    · simp
    · simp only [List.length_append, List.length_singleton]
      omega
  refine ⟨hkey, ?_⟩
  obtain ⟨a, b, hab⟩ := write_keymap_keys_split E w E.KEY_MAX 1 k hk1 (by omega)
  refine ⟨a, b ++ (write_keymap_exts E w.commandlist
    ++ write_keymap_exts E (w.unknown_commands.take w.unknown_count)), ?_⟩
  unfold keymap_text
  rw [hab, hkey]
  simp

set_option maxRecDepth 100000 in
/-- The amended C2 on a file that binds the key `x` to the unknown command `foo`. -/
theorem unknown_binding_written_back_witness :
    write_keymap_key demoEnv
        (read_keymap demoEnv (init_keymap demoEnv
          (load_state demoEnv demoCommands (some unknownFile)))).2 'x'.toNat
        = printf_x 'x'.toNat ++ ' ' :: "foo".toList ++ ['\n']
      ∧ ∃ a b, keymap_text demoEnv
          (read_keymap demoEnv (init_keymap demoEnv
            (load_state demoEnv demoCommands (some unknownFile)))).2
          = a ++ (printf_x 'x'.toNat ++ ' ' :: "foo".toList ++ ['\n']) ++ b :=
  unknown_binding_written_back demoEnv
    (init_keymap demoEnv (load_state demoEnv demoCommands (some unknownFile))) unknownFile
    ["6c search".toList] ["EXT foo".toList] 'x'.toNat "foo".toList rfl (by decide) (by decide)
    (by decide) (by decide) (by decide) (by decide) (by decide) (by decide) (by decide)
    (by
      intro l hl
      simp only [List.mem_singleton] at hl
      subst hl
      intro h
      exact h.1 (by decide))
    (by decide) (by decide)

set_option maxRecDepth 100000 in
/-- C2 fails for a long name and for a key with a default binding. The file
`6d averyveryverylongcommandname` loads with success, and for the key `6d`
`write_keymap` writes the name cut to 19 characters. The file `6c foo` loads
with success, and for the key `6c` `write_keymap` writes the default binding
`east` of that key. Neither command is in the registry. -/
theorem unknown_binding_not_preserved :
    find_command (load_state demoEnv demoCommands none) "averyveryverylongcommandname".toList
        = none
      ∧ (load_keymap demoEnv demoCommands (some longNameFile)).1 = true
      ∧ write_keymap_key demoEnv (load_keymap demoEnv demoCommands (some longNameFile)).2 0x6d
          = "6d averyveryverylongco\n".toList
      ∧ find_command (load_state demoEnv demoCommands none) "foo".toList = none
      ∧ (load_keymap demoEnv demoCommands (some shadowedFile)).1 = true
      ∧ write_keymap_key demoEnv (load_keymap demoEnv demoCommands (some shadowedFile)).2 0x6c
          = "6c east\n".toList := by
  refine ⟨by decide, by decide, by decide, by decide, by decide, by decide⟩

/-! ## The cap and the backspace of the repeat count -/

theorem count_step_le (E : Env) (key multi : Nat) (hm : multi ≤ 65535) :
    count_step E key multi ≤ 65535 := by
  have e0 : '0'.toNat = 48 := rfl
  have e9 : '9'.toNat = 57 := rfl
  unfold count_step
  split
  · omega
  · split
    · rename_i hk
      have h48 : '0'.toNat ≤ key := hk.1
      have h57 : key ≤ '9'.toNat := hk.2
      split <;> omega
    · exact hm

theorem get_command_count_le (E : Env) (keys : List Nat) (key multi : Nat)
    (hm : multi ≤ 65535) {m k : Nat} {rest : List Nat}
    (h : get_command_count E keys key multi = some (m, k, rest)) : m ≤ 65535 := by
  induction keys generalizing key multi with
  | nil => simp [get_command_count] at h
  | cons k2 ks ih =>
    unfold get_command_count at h
    split at h
    · exact ih k2 _ (count_step_le E key multi hm) h
    · simp only [Option.some.injEq, Prod.mk.injEq] at h
      rw [← h.1]
      exact count_step_le E key multi hm

/-- C11: a count of at most 65535 stays at most 65535 after every key of the
count loop and at the end of the loop; a digit `key` with `10 * multi + d` above
65535, where `d` is its value, leaves the count `multi` as it is; and the sum
`10 * multi + key` that the code forms on the way is below `2 ^ 31`. -/
theorem repeat_count_cap (E : Env) (key multi : Nat) (hbs : ¬ is_digit_key E.KEY_BACKSPACE)
    (hm : multi ≤ 65535) :
    count_step E key multi ≤ 65535
    ∧ (is_digit_key key → 10 * multi + (key - '0'.toNat) > 65535 →
        count_step E key multi = multi)
    ∧ (is_digit_key key → 10 * multi + key < 2 ^ 31 ∧ '0'.toNat ≤ 10 * multi + key)
    ∧ (∀ keys m k rest, get_command_count E keys key multi = some (m, k, rest) → m ≤ 65535)
    ∧ (∀ s keys m k rest, get_command_multi E s key keys = some (m, k, rest) → m ≤ 65535) := by
  refine ⟨count_step_le E key multi hm, ?_, ?_, ?_, ?_⟩
  · intro hk hgt
    have hne : key ≠ E.KEY_BACKSPACE := fun h => hbs (h ▸ hk)
    have h48 : '0'.toNat ≤ key := hk.1
    have h57 : key ≤ '9'.toNat := hk.2
    have e0 : '0'.toNat = 48 := rfl
    have e9 : '9'.toNat = 57 := rfl
    unfold count_step
    rw [if_neg hne, if_pos hk]
    have e : 10 * multi + key - '0'.toNat = 10 * multi + (key - '0'.toNat) := by omega
    rw [e, if_pos (by omega)]
    omega
  · intro hk
    have h48 : '0'.toNat ≤ key := hk.1
    have h57 : key ≤ '9'.toNat := hk.2
    have e9 : '9'.toNat = 57 := rfl
    constructor <;> omega
  · intro keys m k rest h
    exact get_command_count_le E keys key multi hm h
  · intro s keys m k rest h
    unfold get_command_multi at h
    split at h
    · exact get_command_count_le E keys key 0 (by omega) h
    · simp only [Option.some.injEq, Prod.mk.injEq] at h
      omega

/-- C11 for the count 65535 and the digit `9`: the count stays 65535. -/
theorem repeat_count_cap_witness :
    count_step demoEnv '9'.toNat 65535 = 65535 :=
  (repeat_count_cap demoEnv '9'.toNat 65535 (by decide) (by decide)).2.1 (by decide)
    (by decide)

/-- C12: in the count loop a backspace puts `m / 10` in the place of the count
`m`, and the loop takes a backspace as long as the count is positive; after a
digit that was taken into the count, a backspace gives back the count from
before the digit, and so does the loop on a digit and a backspace; the key `4`
followed by a backspace gives the count 0. -/
theorem repeat_count_backspace (E : Env) (hbs : ¬ is_digit_key E.KEY_BACKSPACE) (m : Nat) :
    count_step E E.KEY_BACKSPACE m = m / 10
    ∧ (∀ x s g l n, 0 < m →
        get_command_step E x s (.counting m) g l E.KEY_BACKSPACE n = .count (m / 10) g l)
    ∧ (∀ key multi k rest, 0 < count_step E key multi →
        get_command_count E (E.KEY_BACKSPACE :: k :: rest) key multi
          = get_command_count E (k :: rest) E.KEY_BACKSPACE (count_step E key multi))
    ∧ (∀ d, is_digit_key d → 10 * m + (d - '0'.toNat) ≤ 65535 →
        count_step E E.KEY_BACKSPACE (count_step E d m) = m)
    ∧ (∀ d t rest, is_digit_key d → 10 * m + (d - '0'.toNat) ≤ 65535 → ¬ is_digit_key t →
        (0 < m → t ≠ E.KEY_BACKSPACE) →
        ∃ k r, get_command_count E (E.KEY_BACKSPACE :: t :: rest) d m = some (m, k, r))
    ∧ (∀ s t rest, '4'.toNat ≤ E.KEY_MAX →
        s.keymap '4'.toNat = find_command s "repeatcount".toList → ¬ is_digit_key t →
        get_command_multi E s '4'.toNat (E.KEY_BACKSPACE :: t :: rest) = some (0, t, rest)) := by
  have hb : ∀ a, count_step E E.KEY_BACKSPACE a = a / 10 := by
    intro a
    unfold count_step
    rw [if_pos rfl]
  have hd : ∀ d a, is_digit_key d → 10 * a + (d - '0'.toNat) ≤ 65535 →
      count_step E d a = 10 * a + (d - '0'.toNat) := by
    intro d a hk hle
    have hne : d ≠ E.KEY_BACKSPACE := fun h => hbs (h ▸ hk)
    have h48 : '0'.toNat ≤ d := hk.1
    unfold count_step
    rw [if_neg hne, if_pos hk]
    have e : 10 * a + d - '0'.toNat = 10 * a + (d - '0'.toNat) := by omega
    rw [e, if_neg (by omega)]
  refine ⟨hb m, ?_, ?_, ?_, ?_, ?_⟩
  · intro x s g l n hpos
    simp [get_command_step, hpos, hb]
  · intro key multi k rest hpos
    conv_lhs => unfold get_command_count
    rw [if_pos (Or.inr ⟨hpos, rfl⟩)]
  · intro d hk hle
    have h57 : d ≤ '9'.toNat := hk.2
    have h48 : '0'.toNat ≤ d := hk.1
    have e0 : '0'.toNat = 48 := rfl
    have e9 : '9'.toNat = 57 := rfl
    rw [hb, hd d m hk hle]
    omega
  · intro d t rest hk hle ht htb
    have h57 : d ≤ '9'.toNat := hk.2
    have h48 : '0'.toNat ≤ d := hk.1
    have e0 : '0'.toNat = 48 := rfl
    have e9 : '9'.toNat = 57 := rfl
    by_cases hv : 0 < 10 * m + (d - '0'.toNat)
    · refine ⟨t, rest, ?_⟩
      unfold get_command_count
      rw [hd d m hk hle, if_pos (Or.inr ⟨hv, rfl⟩)]
      unfold get_command_count
      rw [hb]
      have e : (10 * m + (d - '0'.toNat)) / 10 = m := by omega
      rw [e, if_neg (by
        rintro (h | ⟨h, h2⟩)
        · exact ht h
        · exact htb h h2)]
    · refine ⟨E.KEY_BACKSPACE, t :: rest, ?_⟩
      unfold get_command_count
      rw [hd d m hk hle, if_neg (by
        rintro (h | ⟨h, _⟩)
        · exact hbs h
        · exact hv h)]
      have e : 10 * m + (d - '0'.toNat) = m := by omega
      rw [e]
  · intro s t rest hmax hbound ht
    have h4 : count_step E '4'.toNat 0 = 4 := by
      rw [hd '4'.toNat 0 (by decide) (by decide)]
      rfl
    unfold get_command_multi
    rw [if_pos ⟨hmax, hbound⟩]
    unfold get_command_count
    rw [h4, if_pos (Or.inr ⟨by omega, rfl⟩)]
    unfold get_command_count
    rw [hb]
    rw [if_neg (by
      rintro (h | ⟨h, _⟩)
      · exact ht h
      · simp at h)]

set_option maxRecDepth 100000 in
/-- C12 for the keys `4`, backspace and then `j`: the count is 0. -/
theorem repeat_count_backspace_witness :
    get_command_multi demoEnv (init_keymap demoEnv (load_state demoEnv demoCommands none))
        '4'.toNat (demoEnv.KEY_BACKSPACE :: 'j'.toNat :: [])
      = some (0, 'j'.toNat, []) :=
  (repeat_count_backspace demoEnv (by decide) 4).2.2.2.2.2
    (init_keymap demoEnv (load_state demoEnv demoCommands none)) 'j'.toNat []
    (by decide) (by decide) (by decide)


/-! ## The search order of `find_command` -/

theorem find_index_eq_none_iff (n : List Char) (i : Nat) (l : List nh_cmd_desc) :
    find_index n i l = none ↔ ∀ c ∈ l, c.name ≠ n := by
  induction l generalizing i with
  | nil => simp [find_index]
  | cons c cs ih =>
    unfold find_index
    by_cases e : c.name = n
    · rw [if_pos e]
      simp [e]
    · rw [if_neg e, ih]
      simp [e]

theorem find_index_eq_some_iff (n : List Char) (i j : Nat) (l : List nh_cmd_desc) :
    find_index n i l = some (i + j) ↔
      (∃ c, l.get? j = some c ∧ c.name = n)
        ∧ ∀ k, k < j → ∀ c, l.get? k = some c → c.name ≠ n := by
  induction l generalizing i j with
  | nil => simp [find_index]
  | cons d ds ih =>
    unfold find_index
    by_cases e : d.name = n
    · rw [if_pos e]
      constructor
      · intro h
        simp only [Option.some.injEq] at h
        have hj : j = 0 := by omega
        subst hj
        exact ⟨⟨d, rfl, e⟩, fun k hk => absurd hk (Nat.not_lt_zero k)⟩
      · rintro ⟨_, hlow⟩
        cases j with
        | zero => rfl
        | succ j2 => exact absurd e (hlow 0 (Nat.succ_pos j2) d rfl)
    · rw [if_neg e]
      cases j with
      | zero =>
        constructor
        · intro h
          have := (find_index_bound h).1
          omega
        · rintro ⟨⟨c, hc, hn⟩, _⟩
          simp only [List.get?_cons_zero, Option.some.injEq] at hc
          exact absurd (hc ▸ hn) e
      | succ j2 =>
        have e2 : i + (j2 + 1) = (i + 1) + j2 := by omega
        rw [e2, ih (i + 1) j2]
        constructor
        · rintro ⟨⟨c, hc, hn⟩, hlow⟩
          refine ⟨⟨c, by simpa using hc, hn⟩, ?_⟩
          intro k hk c2 hc2
          cases k with
          | zero =>
            simp only [List.get?_cons_zero, Option.some.injEq] at hc2
            exact hc2 ▸ e
          | succ k2 =>
            simp only [List.get?_cons_succ] at hc2
            exact hlow k2 (by omega) c2 hc2
        · rintro ⟨⟨c, hc, hn⟩, hlow⟩
          refine ⟨⟨c, by simpa using hc, hn⟩, ?_⟩
          intro k hk c2 hc2
          exact hlow (k + 1) (by omega) c2 (by simpa using hc2)

/-- C18: `find_command` gives the dynamic command of index `i` exactly when that
command has the name and no dynamic command of a lower index has it; it gives
the built-in command of index `i` exactly when no dynamic command has the name,
that built-in command has it and no built-in command of a lower index has it;
it gives no command exactly when no command of either array has the name. So a
dynamic command with the name is found whatever the built-in commands are. -/
theorem find_command_search_order (s : State) (name : List Char) :
    (∀ i, find_command s name = some (.dyn i) ↔
        (∃ c, s.commandlist.get? i = some c ∧ c.name = name)
          ∧ ∀ k, k < i → ∀ c, s.commandlist.get? k = some c → c.name ≠ name)
    ∧ (∀ i, find_command s name = some (.builtin i) ↔
        (∀ c ∈ s.commandlist, c.name ≠ name)
          ∧ (∃ c, s.builtins.get? i = some c ∧ c.name = name)
          ∧ ∀ k, k < i → ∀ c, s.builtins.get? k = some c → c.name ≠ name)
    ∧ (find_command s name = none ↔
        (∀ c ∈ s.commandlist, c.name ≠ name) ∧ ∀ c ∈ s.builtins, c.name ≠ name)
    ∧ (∀ i, find_command s name ≠ some (.unknown i))
    ∧ ((∃ c ∈ s.commandlist, c.name = name) → ∃ i, find_command s name = some (.dyn i)) := by
  have hd := find_index_eq_some_iff name 0
  have hn := find_index_eq_none_iff name 0
  simp only [Nat.zero_add] at hd
  unfold find_command
  cases h1 : find_index name 0 s.commandlist with
  | some a =>
    have hne : ¬ ∀ c ∈ s.commandlist, c.name ≠ name := by
      rw [← hn]
      simp [h1]
    refine ⟨?_, ?_, ?_, ?_, ?_⟩
    · intro i
      simp only [Option.some.injEq, cmd_ptr.dyn.injEq]
      rw [← hd i s.commandlist, h1]
      simp
    · intro i
      simp only [Option.some.injEq]
      constructor
      · intro h; cases h
      · rintro ⟨h, _⟩; exact absurd h hne
    · constructor
      · intro h; cases h
      · rintro ⟨h, _⟩; exact absurd h hne
    · intro i h
      cases h
    · intro _
      exact ⟨a, rfl⟩
  | none =>
    have hall : ∀ c ∈ s.commandlist, c.name ≠ name := (hn s.commandlist).1 h1
    have hnodyn : ∀ i, ¬ ∃ c, s.commandlist.get? i = some c ∧ c.name = name := by
      rintro i ⟨c, hc, hcn⟩
      exact hall c (List.get?_mem hc) hcn
    cases h2 : find_index name 0 s.builtins with
    | some b =>
      refine ⟨?_, ?_, ?_, ?_, ?_⟩
      · intro i
        constructor
        · intro h; cases h
        · rintro ⟨h, _⟩; exact absurd h (hnodyn i)
      · intro i
        simp only [Option.some.injEq, cmd_ptr.builtin.injEq]
        rw [← hd i s.builtins, h2]
        simp only [Option.some.injEq]
        constructor
        · intro h; exact ⟨hall, h⟩
        · intro h; exact h.2
      · constructor
        · intro h; cases h
        · rintro ⟨_, h⟩
          have := (hn s.builtins).2 h
          rw [h2] at this
          cases this
      · intro i h
        cases h
      · rintro ⟨c, hc, hcn⟩
        exact absurd hcn (hall c hc)
    | none =>
      have hallb : ∀ c ∈ s.builtins, c.name ≠ name := (hn s.builtins).1 h2
      refine ⟨?_, ?_, ?_, ?_, ?_⟩
      · intro i
        constructor
        · intro h; cases h
        · rintro ⟨h, _⟩; exact absurd h (hnodyn i)
      · intro i
        constructor
        · intro h; cases h
        · rintro ⟨_, ⟨c, hc, hcn⟩, _⟩
          exact absurd hcn (hallb c (List.get?_mem hc))
      · simp only [true_iff]
        exact ⟨hall, hallb⟩
      · intro i h
        cases h
      · rintro ⟨c, hc, hcn⟩
        exact absurd hcn (hall c hc)


/-! ## The loop of `get_command` -/

theorem get_command_loop_cons (E : Env) (x : externals) (s : State) (k : Nat)
    (rest : List Nat) (st : stage) (g : input_state) (l : locals) :
    get_command_loop E x s (k :: rest) st g l
      = get_command_after E x s rest (get_command_step E x s st g l k rest.length) := by
  rw [get_command_loop]
  unfold get_command_after
  rfl

/-- The count loop inside `get_command_loop` is the loop `get_command_count`. -/
theorem get_command_loop_counting (E : Env) (x : externals) (s : State) (g : input_state)
    (l : locals) (keys : List Nat) (key multi : Nat) :
    get_command_loop E x s keys (.counting (count_step E key multi)) g l
      = match get_command_count E keys key multi with
        | none => none
        | some (m, k, rest) =>
          get_command_after E x s rest (get_command_key E x s g l m k rest.length) := by
  induction keys generalizing key multi with
  | nil => rfl
  | cons k ks ih =>
    rw [get_command_loop_cons]
    unfold get_command_count
    by_cases hc : is_digit_key k ∨ (count_step E key multi > 0 ∧ k = E.KEY_BACKSPACE)
    · rw [if_pos hc]
      simp only [get_command_step]
      rw [if_pos hc]
      exact ih k _
    · rw [if_neg hc]
      simp only [get_command_step]
      rw [if_neg hc]

theorem loop_test_calls (g : input_state) (l : locals) (cmd : Option cmd_ptr) :
    (loop_test g l cmd).calls_from g.calls := by
  cases cmd <;> rfl

theorem attach_count_calls (E : Env) (s : State) (g : input_state) (l : locals)
    (multi : Nat) (cmd : cmd_ptr) : (attach_count E s g l multi cmd).1.calls = g.calls := by
  unfold attach_count attach_limit
  split <;> split <;> rfl

theorem key_noted_calls (E : Env) (g : input_state) (key : Nat) :
    (key_noted E g key).calls = g.calls := by
  unfold key_noted
  split <;> rfl

theorem sidebar_click_calls (E : Env) (x : externals) (g : input_state) (l : locals)
    (cmd : Option cmd_ptr) (key n : Nat) :
    (sidebar_click E x g l cmd key n).calls_from g.calls := by
  unfold sidebar_click
  cases x.sidebar n (key - E.KEY_MAX) with
  | none =>
    simp only []
    split
    · exact ⟨_, rfl⟩
    · exact loop_test_calls g l cmd
  | some p =>
    obtain ⟨name, arg⟩ := p
    simp only []
    split
    · exact ⟨_, rfl⟩
    · exact loop_test_calls (set_next_command g name arg) l cmd

theorem dispatch_calls (E : Env) (x : externals) (s : State) (g : input_state) (l : locals)
    (multi key n : Nat) (c0 : cmd_ptr) :
    (dispatch E x s g l multi key n c0).calls_from g.calls := by
  unfold dispatch
  generalize (if s.flags_of c0 &&& E.CMD_UI ≠ 0 then handle_internal_cmd E (x.ui n) s c0 l.arg
    else (some c0, l.arg)) = r
  obtain ⟨r1, r2⟩ := r
  cases r1 with
  | none => exact loop_test_calls g _ none
  | some c =>
    simp only []
    split
    · exact attach_count_calls E s g _ multi _
    · exact attach_count_calls E s g _ multi _

theorem get_command_key_calls (E : Env) (x : externals) (s : State) (g : input_state)
    (l : locals) (multi key n : Nat) :
    (get_command_key E x s g l multi key n).calls_from g.calls := by
  unfold get_command_key
  split
  · exact loop_test_calls g l none
  · split
    · rw [← key_noted_calls E g key]
      exact sidebar_click_calls E x _ l _ key n
    · split
      · rw [← key_noted_calls E g key]
        exact loop_test_calls _ l _
      · split
        · rw [← key_noted_calls E g key]
          exact loop_test_calls _ l none
        · rw [← key_noted_calls E g key]
          exact dispatch_calls E x s _ l multi key n _

theorem get_command_direction_calls (E : Env) (s : State) (g : input_state) (l : locals)
    (cmd : cmd_ptr) (key key2 : Nat) :
    (get_command_direction E s g l cmd key key2).calls_from g.calls := by
  unfold get_command_direction
  split
  · exact loop_test_calls g l _
  · split
    · exact loop_test_calls g l _
    · split
      · simp only []
        split
        · rfl
        · split <;> rfl
      · exact loop_test_calls g l none

theorem get_command_step_calls (E : Env) (x : externals) (s : State) (st : stage)
    (g : input_state) (l : locals) (k n : Nat) :
    (get_command_step E x s st g l k n).calls_from g.calls := by
  cases st with
  | primary =>
    simp only [get_command_step]
    split
    · split
      · rfl
      · exact get_command_key_calls E x s _ _ 0 k n
    · exact get_command_key_calls E x s g _ 0 k n
  | counting multi =>
    simp only [get_command_step]
    split
    · rfl
    · exact get_command_key_calls E x s g l multi k n
  | direction cmd key =>
    exact get_command_direction_calls E s g l cmd key k

theorem get_command_loop_calls (E : Env) (x : externals) (s : State) (keys : List Nat)
    (st : stage) (g : input_state) (l : locals) {g2 : input_state} {rest : List Nat}
    (h : get_command_loop E x s keys st g l = some (g2, rest)) :
    ∃ c, g2.calls = g.calls ++ [c] := by
  induction keys generalizing st g l with
  | nil => simp [get_command_loop] at h
  | cons k ks ih =>
    rw [get_command_loop_cons] at h
    have hc := get_command_step_calls E x s st g l k ks.length
    cases he : get_command_step E x s st g l k ks.length with
    | again g1 l1 =>
      rw [he] at h hc
      have := ih _ g1 l1 h
      rwa [show g1.calls = g.calls from hc] at this
    | count m g1 l1 =>
      rw [he] at h hc
      have := ih _ g1 l1 h
      rwa [show g1.calls = g.calls from hc] at this
    | direction g1 l1 c key =>
      rw [he] at h hc
      have := ih _ g1 l1 h
      rwa [show g1.calls = g.calls from hc] at this
    | leave g1 l1 c =>
      rw [he] at h hc
      simp only [get_command_after, Option.some.injEq, Prod.mk.injEq] at h
      rw [← h.1]
      exact ⟨_, by rw [← show g1.calls = g.calls from hc]; rfl⟩
    | returned g1 =>
      rw [he] at h hc
      simp only [get_command_after, Option.some.injEq, Prod.mk.injEq] at h
      rw [← h.1]
      exact hc

/-- C13: whenever `get_command` returns, whatever the keys, the answers of the
menus and of the sidebar, and whichever path it took, the calls of `callback` at
its return are those from before followed by exactly one more. -/
theorem one_callback_per_return (E : Env) (x : externals) (s : State) (g : input_state)
    (arg0 : nh_cmd_arg) (keys : List Nat) (g2 : input_state) (rest : List Nat)
    (h : get_command E x s g arg0 keys = some (g2, rest)) :
    ∃ c, g2.calls = g.calls ++ [c] := by
  unfold get_command at h
  simp only [] at h
  split at h
  · simp only [Option.some.injEq, Prod.mk.injEq] at h
    rw [← h.1]
    exact ⟨_, rfl⟩
  · have := get_command_loop_calls E x s keys _ _ _ h
    exact this


set_option maxRecDepth 100000 in
/-- C13 for the key `s`: `get_command` returns after one call of `callback`. -/
theorem one_callback_per_return_witness :
    ∃ c, ({ freshInput 0 with
            current_cmd_key := 's'.toNat,
            calls := [("search".toList, { argtype := 0, dir := 0, limit := 0 })],
            keymap_reads := ['s'.toNat, 's'.toNat] } : input_state).calls
      = (freshInput 0).calls ++ [c] :=
  one_callback_per_return demoEnv quietExternals inputState (freshInput 0)
    { argtype := 0, dir := 0, limit := 0 } ['s'.toNat] _ [] (by decide)

/-! ## Escape at the first key -/

set_option maxRecDepth 100000 in
/-- C14 fails: after the key Escape alone `get_command` has not returned, it
waits for a key; and after Escape and `s` it has read `s`, which is left over in
no list, and has called `callback` with the command `search`. -/
theorem escape_reads_another_key :
    get_command demoEnv quietExternals inputState (freshInput 0)
        { argtype := 0, dir := 0, limit := 0 } [0x1b] = none
    ∧ (get_command demoEnv quietExternals inputState (freshInput 0)
        { argtype := 0, dir := 0, limit := 0 } [0x1b, 's'.toNat]).map
          (fun r => (r.1.calls, r.2))
        = some ([("search".toList, { argtype := 0, dir := 0, limit := 0 })], []) := by
  constructor
  · decide
  · decide

/-- C14 as the code has it: when the key read at the top of a pass, or the key
that ends the count loop, is Escape, `get_command` neither calls `callback` nor
returns; it starts a new pass of its loop, for which it reads the next key, and
the count is dropped. With Escape as the only key it is still waiting. -/
theorem escape_restarts_pass (E : Env) (x : externals) (s : State) (g : input_state)
    (l : locals) (k : Nat) (rest : List Nat) (hk : k = 0x1b ∨ k = E.KEY_ESCAPE)
    (hrc : ¬ (k ≤ E.KEY_MAX ∧ s.keymap k = find_command s "repeatcount".toList))
    (hnd : ¬ is_digit_key k) (hnb : k ≠ E.KEY_BACKSPACE) :
    get_command_loop E x s (k :: rest) .primary g l
        = get_command_loop E x s rest .primary
            (if k ≤ E.KEY_MAX then { g with keymap_reads := g.keymap_reads ++ [k] } else g)
            { l with arg := { l.arg with argtype := 0 } }
    ∧ (∀ m, get_command_loop E x s (k :: rest) (.counting m) g l
        = get_command_loop E x s rest .primary g l)
    ∧ (g.have_next_command = false → ∀ arg0, get_command E x s g arg0 [k] = none) := by
  have hkey : ∀ g l m n, get_command_key E x s g l m k n = .again g l := by
    intro g l m n
    unfold get_command_key
    rw [if_pos hk]
    rfl
  have h1 : ∀ (rest : List Nat) (g : input_state) (l : locals),
      get_command_loop E x s (k :: rest) .primary g l
        = get_command_loop E x s rest .primary
            (if k ≤ E.KEY_MAX then { g with keymap_reads := g.keymap_reads ++ [k] } else g)
            { l with arg := { l.arg with argtype := 0 } } := by
    intro rest g l
    rw [get_command_loop_cons]
    simp only [get_command_step]
    by_cases hmax : k ≤ E.KEY_MAX
    · rw [if_pos hmax, if_pos hmax, if_neg (fun h => hrc ⟨hmax, h⟩), hkey]
      rfl
    · rw [if_neg hmax, if_neg hmax, hkey]
      rfl
  refine ⟨h1 rest g l, ?_, ?_⟩
  · intro m
    rw [get_command_loop_cons]
    simp only [get_command_step]
    rw [if_neg (by
      rintro (h | ⟨_, h⟩)
      · exact hnd h
      · exact hnb h), hkey]
    rfl
  · intro hn arg0
    unfold get_command
    simp only [hn, Bool.false_eq_true, if_false]
    rw [h1 []]
    rfl


set_option maxRecDepth 100000 in
/-- C14 as the code has it, for the key Escape followed by `s`. -/
theorem escape_restarts_pass_witness :
    get_command_loop demoEnv quietExternals inputState (0x1b :: ['s'.toNat]) .primary
        (freshInput 0) { arg := { argtype := 0, dir := 0, limit := 0 }, save_repeats := 0 }
      = get_command_loop demoEnv quietExternals inputState ['s'.toNat] .primary
          (if 0x1b ≤ demoEnv.KEY_MAX then
            { freshInput 0 with keymap_reads := (freshInput 0).keymap_reads ++ [0x1b] }
            else freshInput 0)
          { arg := { argtype := 0, dir := 0, limit := 0 }, save_repeats := 0 } :=
  (escape_restarts_pass demoEnv quietExternals inputState (freshInput 0)
    { arg := { argtype := 0, dir := 0, limit := 0 }, save_repeats := 0 } 0x1b ['s'.toNat]
    (Or.inl rfl) (by decide) (by decide) (by decide)).1

/-! ## The key for the direction -/

theorem get_command_direction_escape (E : Env) (s : State) (g : input_state) (l : locals)
    (cmd : cmd_ptr) (key key2 : Nat) (hk : key2 = 0x1b ∨ key2 = E.KEY_ESCAPE) :
    get_command_direction E s g l cmd key key2 = .leave g l cmd := by
  unfold get_command_direction
  rw [if_pos hk]
  rfl

/-- A key that is neither Escape nor `KEY_SIGNAL` and is bound to no plain
direction command makes the loop start a new pass: the command is dropped. -/
theorem get_command_direction_other (E : Env) (s : State) (g : input_state) (l : locals)
    (cmd : cmd_ptr) (key key2 : Nat) (hk : ¬ (key2 = 0x1b ∨ key2 = E.KEY_ESCAPE))
    (hs : key2 ≠ E.KEY_SIGNAL)
    (hdir : ∀ c2, s.keymap key2 = some c2 →
      ¬ (s.flags_of c2 &&& E.CMD_UI ≠ 0 ∧ s.flags_of c2 &&& DIRCMD ≠ 0)) :
    ∃ g1, get_command_direction E s g l cmd key key2 = .again g1 l := by
  unfold get_command_direction
  rw [if_neg hk, if_neg hs]
  split
  · simp only []
    cases hc : s.keymap key2 with
    | none => exact ⟨_, rfl⟩
    | some c2 =>
      simp only []
      rw [if_neg (hdir c2 hc)]
      exact ⟨_, rfl⟩
  · exact ⟨_, rfl⟩

set_option maxRecDepth 100000 in
/-- C15 at the keys `F` and Escape: `F` selects the command `fight`, which has
`CMD_ARG_DIR` and `CMD_MOVE`; after Escape as the key for the direction,
`get_command` returns and has called `callback` with `fight` and an argument
whose type is 0, so without a direction. -/
theorem direction_escape_dispatches_command :
    (get_command demoEnv quietExternals inputState (freshInput 0)
        { argtype := 0, dir := 0, limit := 0 } ['F'.toNat, 0x1b]).map
          (fun r => (r.1.calls, r.2))
      = some ([("fight".toList, { argtype := 0, dir := 0, limit := 0 })], []) := by
  decide

/-! ## The command set by `set_next_command` -/

/-- C17: after `set_next_command(name, arg)` with a name of fewer than 32 bytes,
`get_command` returns with one more call of `callback`, for `name` and `arg`;
it reads no key, the result is the same for every keymap and every answer of
the collaborators, no index of `keymap` is read, and `have_next_command` is
false again, so that the next call of `get_command` enters its loop. -/
theorem next_command_override (E : Env) (x : externals) (s : State) (g : input_state)
    (name : List Char) (arg arg0 : nh_cmd_arg) (keys : List Nat)
    (hlen : name.length < 32) :
    get_command E x s (set_next_command g name arg) arg0 keys
      = some ({ g with repeats_remaining := 0, in_zero_time_command := false,
                       have_next_command := false, next_command_name := name,
                       next_command_arg := arg, calls := g.calls ++ [(name, arg)] }, keys)
    ∧ (∀ g1 rest, get_command E x s (set_next_command g name arg) arg0 keys = some (g1, rest) →
        ∀ x2 s2 arg1 keys2, get_command E x2 s2 g1 arg1 keys2
          = get_command_loop E x2 s2 keys2 .primary
              { g1 with repeats_remaining := 0, in_zero_time_command := false }
              { arg := arg1, save_repeats := g1.repeats_remaining }) := by
  have ht : name.take 32 = name := List.take_of_length_le (by omega)
  have h1 : get_command E x s (set_next_command g name arg) arg0 keys
      = some ({ g with repeats_remaining := 0, in_zero_time_command := false,
                       have_next_command := false, next_command_name := name,
                       next_command_arg := arg, calls := g.calls ++ [(name, arg)] }, keys) := by
    simp only [get_command, set_next_command, call_next, ht, if_true]
  refine ⟨h1, ?_⟩
  intro g1 rest hg x2 s2 arg1 keys2
  rw [h1] at hg
  simp only [Option.some.injEq, Prod.mk.injEq] at hg
  rw [← hg.1]
  simp only [get_command, Bool.false_eq_true, if_false]

/-- C17 for the command `apply` with an argument of type 0: `get_command`
calls `callback` with them although the list of keys is empty. -/
theorem next_command_override_witness :
    get_command demoEnv quietExternals inputState
        (set_next_command (freshInput 3) "apply".toList { argtype := 0, dir := 0, limit := 0 })
        { argtype := 0, dir := 0, limit := 0 } []
      = some ({ freshInput 3 with
                  repeats_remaining := 0, in_zero_time_command := false,
                  have_next_command := false, next_command_name := "apply".toList,
                  next_command_arg := { argtype := 0, dir := 0, limit := 0 },
                  calls := (freshInput 3).calls
                    ++ [("apply".toList, { argtype := 0, dir := 0, limit := 0 })] }, []) :=
  (next_command_override demoEnv quietExternals inputState (freshInput 3) "apply".toList
    { argtype := 0, dir := 0, limit := 0 } { argtype := 0, dir := 0, limit := 0 } []
    (by decide)).1


/-! ## The count and the command -/

theorem or_and_self (a b : Nat) : (a ||| b) &&& b = b := by
  apply Nat.eq_of_testBit_eq
  intro i
  simp only [Nat.testBit_and, Nat.testBit_or]
  cases a.testBit i <;> cases b.testBit i <;> rfl

theorem or_and_of_disjoint (a d b : Nat) (h : d &&& b = 0) : (a ||| d) &&& b = a &&& b := by
  apply Nat.eq_of_testBit_eq
  intro i
  have hi := congrArg (fun v => Nat.testBit v i) h
  simp only [Nat.testBit_and, Nat.zero_testBit] at hi
  simp only [Nat.testBit_and, Nat.testBit_or]
  cases hd : d.testBit i <;> cases hb : b.testBit i <;> simp_all

theorem ite_cases {α : Type} (P : α → Prop) (c : Prop) [Decidable c] (a b : α)
    (ha : P a) (hb : P b) : P (if c then a else b) := by
  split <;> assumption

theorem handle_internal_cmd_arg (E : Env) (ui : ui_answers) (s : State) (cmd : cmd_ptr)
    (arg : nh_cmd_arg) :
    (handle_internal_cmd E ui s cmd arg).2.argtype = arg.argtype ||| E.CMD_ARG_DIR
      ∨ (handle_internal_cmd E ui s cmd arg).2.argtype = arg.argtype
      ∨ (handle_internal_cmd E ui s cmd arg).2.argtype = 0 := by
  show (fun r : Option cmd_ptr × nh_cmd_arg =>
    r.2.argtype = arg.argtype ||| E.CMD_ARG_DIR ∨ r.2.argtype = arg.argtype
      ∨ r.2.argtype = 0) (handle_internal_cmd E ui s cmd arg)
  unfold handle_internal_cmd
  repeat (first
    | exact Or.inl rfl
    | exact Or.inr (Or.inl rfl)
    | exact Or.inr (Or.inr rfl)
    | refine ite_cases (fun r : Option cmd_ptr × nh_cmd_arg =>
        r.2.argtype = arg.argtype ||| E.CMD_ARG_DIR ∨ r.2.argtype = arg.argtype
          ∨ r.2.argtype = 0) _ _ _ ?_ ?_)


theorem handle_internal_cmd_argtype (E : Env) (ui : ui_answers) (s : State) (cmd : cmd_ptr)
    (arg : nh_cmd_arg) (hdisj : E.CMD_ARG_DIR &&& E.CMD_ARG_LIMIT = 0)
    (harg : arg.argtype &&& E.CMD_ARG_LIMIT = 0) :
    (handle_internal_cmd E ui s cmd arg).2.argtype &&& E.CMD_ARG_LIMIT = 0 := by
  have h1 : (arg.argtype ||| E.CMD_ARG_DIR) &&& E.CMD_ARG_LIMIT = 0 := by
    rw [or_and_of_disjoint _ _ _ hdisj, harg]
  rcases handle_internal_cmd_arg E ui s cmd arg with h | h | h
  · rw [h]; exact h1
  · rw [h]; exact harg
  · rw [h]; exact Nat.zero_and _

theorem attach_count_facts (E : Env) (s : State) (g : input_state) (l : locals) (m : Nat)
    (c : cmd_ptr) (hm : 0 < m) (harg : l.arg.argtype &&& E.CMD_ARG_LIMIT = 0) :
    count_attached E s m c l.save_repeats (attach_count E s g l m c).1
        (attach_count E s g l m c).2.arg := by
  have hm0 : m ≠ 0 := by omega
  by_cases hl : s.flags_of c &&& E.CMD_ARG_LIMIT ≠ 0
  · have e : attach_limit E s g l m c
        = (g, { l with arg := { l.arg with argtype := l.arg.argtype ||| E.CMD_ARG_LIMIT,
                                           limit := m } }) := by
      unfold attach_limit
      rw [if_pos ⟨hm0, hl⟩]
    unfold count_attached attach_count
    rw [e]
    by_cases hr : some c = find_command s "repeat".toList
    · rw [if_pos hr]
      exact ⟨fun _ => ⟨or_and_self _ _, rfl⟩, fun h => absurd h hl, fun _ => rfl⟩
    · rw [if_neg hr]
      exact ⟨fun _ => ⟨or_and_self _ _, rfl⟩, fun h => absurd h hl, fun h => absurd h hr⟩
  · have e : attach_limit E s g l m c = ({ g with repeats_remaining := (m : Int) }, l) := by
      unfold attach_limit
      rw [if_neg (fun h => hl h.2)]
    unfold count_attached attach_count
    rw [e]
    by_cases hr : some c = find_command s "repeat".toList
    · rw [if_pos hr]
      exact ⟨fun h => absurd h hl, fun _ => ⟨harg, fun h => absurd hr h⟩, fun _ => rfl⟩
    · rw [if_neg hr]
      exact ⟨fun h => absurd h hl, fun _ => ⟨harg, fun _ => rfl⟩, fun h => absurd h hr⟩

theorem dispatch_attached (E : Env) (x : externals) (s : State) (g : input_state)
    (l : locals) (m key n : Nat) (c0 : cmd_ptr) (hm : 0 < m)
    (hdisj : E.CMD_ARG_DIR &&& E.CMD_ARG_LIMIT = 0) (harg : l.arg.argtype = 0)
    {g1 : input_state} {l1 : locals} {c : cmd_ptr}
    (h : dispatch E x s g l m key n c0 = .leave g1 l1 c
      ∨ ∃ k, dispatch E x s g l m key n c0 = .direction g1 l1 c k) :
    count_attached E s m c l.save_repeats g1 l1.arg ∧ g1.calls = g.calls := by
  unfold dispatch at h
  have hr2 : (if s.flags_of c0 &&& E.CMD_UI ≠ 0 then handle_internal_cmd E (x.ui n) s c0 l.arg
      else (some c0, l.arg)).2.argtype &&& E.CMD_ARG_LIMIT = 0 := by
    split
    · exact handle_internal_cmd_argtype E _ s c0 l.arg hdisj (by rw [harg]; exact Nat.zero_and _)
    · show l.arg.argtype &&& E.CMD_ARG_LIMIT = 0
      rw [harg]; exact Nat.zero_and _
  generalize (if s.flags_of c0 &&& E.CMD_UI ≠ 0 then handle_internal_cmd E (x.ui n) s c0 l.arg
    else (some c0, l.arg)) = r at h hr2
  obtain ⟨r1, r2⟩ := r
  cases r1 with
  | none =>
    simp only [loop_test] at h
    rcases h with h | ⟨k, h⟩ <;> cases h
  | some c1 =>
    simp only [] at h
    have hf := attach_count_facts E s g { l with arg := r2 } m c1 hm hr2
    have hc := attach_count_calls E s g { l with arg := r2 } m c1
    split at h
    · rcases h with h | ⟨k, h⟩
      · cases h
      · simp only [pass_end.direction.injEq] at h
        obtain ⟨e1, e2, e3, _⟩ := h
        subst e3
        rw [← e1, ← e2]
        exact ⟨hf, hc⟩
    · simp only [loop_test] at h
      rcases h with h | ⟨k, h⟩
      · simp only [pass_end.leave.injEq] at h
        obtain ⟨e1, e2, e3⟩ := h
        subst e3
        rw [← e1, ← e2]
        exact ⟨hf, hc⟩
      · cases h

theorem get_command_key_attached (E : Env) (x : externals) (s : State) (g : input_state)
    (l : locals) (m key n : Nat) (hm : 0 < m)
    (hside : ¬ (E.KEY_MAX < key ∧ key < E.KEY_MAX + 128)) (hfar : ¬ E.KEY_MAX + 256 ≤ key)
    (hdisj : E.CMD_ARG_DIR &&& E.CMD_ARG_LIMIT = 0) (harg : l.arg.argtype = 0)
    {g1 : input_state} {l1 : locals} {c : cmd_ptr}
    (h : get_command_key E x s g l m key n = .leave g1 l1 c
      ∨ ∃ k, get_command_key E x s g l m key n = .direction g1 l1 c k) :
    count_attached E s m c l.save_repeats g1 l1.arg ∧ g1.calls = g.calls := by
  unfold get_command_key at h
  by_cases he : key = 0x1b ∨ key = E.KEY_ESCAPE
  · rw [if_pos he] at h
    simp only [loop_test] at h
    rcases h with h | ⟨k, h⟩ <;> cases h
  · rw [if_neg he, if_neg hside, if_neg hfar] at h
    cases hc : key_command E s key with
    | none =>
      rw [hc] at h
      simp only [loop_test] at h
      rcases h with h | ⟨k, h⟩ <;> cases h
    | some c0 =>
      rw [hc] at h
      simp only [] at h
      have := dispatch_attached E x s (key_noted E g key) l m key n c0 hm hdisj harg h
      rw [key_noted_calls] at this
      exact this

theorem get_command_direction_leave (E : Env) (s : State) (g : input_state) (l : locals)
    (cmd : cmd_ptr) (key key2 : Nat) {g2 : input_state} {l2 : locals} {c2 : cmd_ptr}
    (h : get_command_direction E s g l cmd key key2 = .leave g2 l2 c2) :
    g2.repeats_remaining = g.repeats_remaining ∧ g2.calls = g.calls
      ∧ l2.arg.limit = l.arg.limit
      ∧ (l2.arg.argtype = l.arg.argtype ∨ l2.arg.argtype = l.arg.argtype ||| E.CMD_ARG_DIR) := by
  unfold get_command_direction at h
  split at h
  · simp only [loop_test, pass_end.leave.injEq] at h
    obtain ⟨e1, e2, _⟩ := h
    subst e1 e2
    exact ⟨rfl, rfl, rfl, Or.inl rfl⟩
  · split at h
    · cases hf : find_command s "servercancel".toList with
      | none => rw [hf] at h; cases h
      | some p =>
        rw [hf] at h
        simp only [loop_test, pass_end.leave.injEq] at h
        obtain ⟨e1, e2, _⟩ := h
        subst e1 e2
        exact ⟨rfl, rfl, rfl, Or.inl rfl⟩
    · split at h
      · simp only [] at h
        cases hk : s.keymap key2 with
        | none => rw [hk] at h; cases h
        | some p =>
          rw [hk] at h
          simp only [] at h
          split at h
          · simp only [loop_test, pass_end.leave.injEq] at h
            obtain ⟨e1, e2, _⟩ := h
            subst e1 e2
            exact ⟨rfl, rfl, rfl, Or.inr rfl⟩
          · cases h
      · cases h

theorem count_attached_of_eq (E : Env) (s : State) (m : Nat) (c : cmd_ptr) (entry : Int)
    {g g2 : input_state} {a a2 : nh_cmd_arg}
    (hdisj : E.CMD_ARG_DIR &&& E.CMD_ARG_LIMIT = 0)
    (h : count_attached E s m c entry g a)
    (hr : g2.repeats_remaining = g.repeats_remaining) (hl : a2.limit = a.limit)
    (ht : a2.argtype = a.argtype ∨ a2.argtype = a.argtype ||| E.CMD_ARG_DIR) :
    count_attached E s m c entry g2 a2 := by
  have hand : a2.argtype &&& E.CMD_ARG_LIMIT = a.argtype &&& E.CMD_ARG_LIMIT := by
    rcases ht with ht | ht
    · rw [ht]
    · rw [ht, or_and_of_disjoint _ _ _ hdisj]
  unfold count_attached at h ⊢
  rw [hand, hr, hl]
  exact h

theorem get_command_step_save (E : Env) (x : externals) (s : State) (st : stage)
    (g : input_state) (l : locals) (k n : Nat) :
    ∀ l1 ∈ (get_command_step E x s st g l k n).locals, l1.save_repeats = l.save_repeats := by
  have hlt : ∀ (g : input_state) (l0 : locals) (cmd : Option cmd_ptr),
      l0.save_repeats = l.save_repeats →
      ∀ l1 ∈ (loop_test g l0 cmd).locals, l1.save_repeats = l.save_repeats := by
    intro g l0 cmd h0 l1 h1
    cases cmd <;> simp only [loop_test, pass_end.locals, Option.mem_def, Option.some.injEq] at h1
      <;> rw [← h1] <;> exact h0
  have hat : ∀ (g : input_state) (l0 : locals) (m : Nat) (c : cmd_ptr),
      (attach_count E s g l0 m c).2.save_repeats = l0.save_repeats := by
    intro g l0 m c
    unfold attach_count attach_limit
    split <;> split <;> rfl
  have hkey : ∀ (g : input_state) (l0 : locals) (m : Nat),
      l0.save_repeats = l.save_repeats →
      ∀ l1 ∈ (get_command_key E x s g l0 m k n).locals, l1.save_repeats = l.save_repeats := by
    intro g l0 m h0
    unfold get_command_key
    split
    · exact hlt _ _ _ h0
    · split
      · unfold sidebar_click
        simp only []
        split
        · intro l1 h1; cases h1
        · exact hlt _ _ _ h0
      · split
        · exact hlt _ _ _ h0
        · split
          · exact hlt _ _ _ h0
          · unfold dispatch
            generalize (if s.flags_of _ &&& E.CMD_UI ≠ 0 then
              handle_internal_cmd E (x.ui n) s _ l0.arg else (some _, l0.arg)) = r
            obtain ⟨r1, r2⟩ := r
            cases r1 with
            | none => exact hlt _ _ _ h0
            | some c =>
              simp only []
              split
              · intro l1 h1
                simp only [pass_end.locals, Option.mem_def, Option.some.injEq] at h1
                rw [← h1, hat]
                exact h0
              · exact hlt _ _ _ (by rw [hat]; exact h0)
  cases st with
  | primary =>
    simp only [get_command_step]
    split
    · split
      · intro l1 h1
        simp only [pass_end.locals, Option.mem_def, Option.some.injEq] at h1
        rw [← h1]
      · exact hkey _ _ 0 rfl
    · exact hkey _ _ 0 rfl
  | counting multi =>
    simp only [get_command_step]
    split
    · intro l1 h1
      simp only [pass_end.locals, Option.mem_def, Option.some.injEq] at h1
      rw [← h1]
    · exact hkey _ _ multi rfl
  | direction cmd key =>
    simp only [get_command_step]
    unfold get_command_direction
    split
    · exact hlt _ _ _ rfl
    · split
      · exact hlt _ _ _ rfl
      · split
        · simp only []
          split
          · exact hlt _ _ _ rfl
          · split
            · exact hlt _ _ _ rfl
            · exact hlt _ _ _ rfl
        · exact hlt _ _ _ rfl

/-- C16: let the count loop end with the count `m > 0` at a key `key` that is
neither a click on the sidebar nor at or above `KEY_MAX + 256`, while
`ncaa.arg.argtype` is still 0, and let the pass select the command `c`. When `get_command` then leaves its loop, at once or after the key for the
direction, the argument it passes to `callback` has the bit `CMD_ARG_LIMIT`
and the limit `m` if `c` has `CMD_ARG_LIMIT`; otherwise the argument has no
such bit and `repeats_remaining` is `m` at the return, except that for the
command `repeat` it is `save_repeats`. The loop never changes `save_repeats`,
which `get_command` sets to the value of `repeats_remaining` at its entry. -/
theorem repeat_count_attachment (E : Env) (x : externals) (s : State) (g : input_state)
    (l : locals) (m key n : Nat) (hm : 0 < m)
    (hside : ¬ (E.KEY_MAX < key ∧ key < E.KEY_MAX + 128)) (hfar : ¬ E.KEY_MAX + 256 ≤ key)
    (hdisj : E.CMD_ARG_DIR &&& E.CMD_ARG_LIMIT = 0) (harg : l.arg.argtype = 0) :
    (∀ g1 l1 c, get_command_key E x s g l m key n = .leave g1 l1 c →
        count_attached E s m c l.save_repeats (get_command_end E s g1 l1 c) l1.arg
        ∧ (get_command_end E s g1 l1 c).calls = g.calls ++ [(s.name_of c, l1.arg)])
    ∧ (∀ g1 l1 c k key2 g2 l2 c2,
        get_command_key E x s g l m key n = .direction g1 l1 c k →
        get_command_direction E s g1 l1 c k key2 = .leave g2 l2 c2 →
        count_attached E s m c l.save_repeats (get_command_end E s g2 l2 c2) l2.arg
        ∧ (get_command_end E s g2 l2 c2).calls = g.calls ++ [(s.name_of c2, l2.arg)])
    ∧ (∀ st g0 l0 k0 n0, ∀ l1 ∈ (get_command_step E x s st g0 l0 k0 n0).locals,
        l1.save_repeats = l0.save_repeats)
    ∧ (∀ g0 arg0 keys, g0.have_next_command = false →
        get_command E x s g0 arg0 keys
          = get_command_loop E x s keys .primary
              { g0 with repeats_remaining := 0, in_zero_time_command := false }
              { arg := arg0, save_repeats := g0.repeats_remaining }) := by
  refine ⟨?_, ?_, ?_, ?_⟩
  · intro g1 l1 c h
    obtain ⟨ha, hc⟩ := get_command_key_attached E x s g l m key n hm hside hfar hdisj harg
      (Or.inl h)
    refine ⟨count_attached_of_eq E s m c _ hdisj ha rfl rfl (Or.inl rfl), ?_⟩
    simp only [get_command_end, hc]
  · intro g1 l1 c k key2 g2 l2 c2 h hd
    obtain ⟨ha, hc⟩ := get_command_key_attached E x s g l m key n hm hside hfar hdisj harg
      (Or.inr ⟨k, h⟩)
    obtain ⟨e1, e2, e3, e4⟩ := get_command_direction_leave E s g1 l1 c k key2 hd
    refine ⟨count_attached_of_eq E s m c _ hdisj ha e1 e3 e4, ?_⟩
    simp only [get_command_end, e2, hc]
  · intro st g0 l0 k0 n0
    exact get_command_step_save E x s st g0 l0 k0 n0
  · intro g0 arg0 keys hn
    simp only [get_command, hn, Bool.false_eq_true, if_false]

set_option maxRecDepth 100000 in
/-- C16 for the count 20 and the key `s`: the command `search` has
`CMD_ARG_LIMIT` and is passed on with that bit and the limit 20. -/
theorem repeat_count_attachment_witness :
    count_attached demoEnv inputState 20 (.dyn 3) 7
      (get_command_end demoEnv inputState
        { freshInput 0 with current_cmd_key := 's'.toNat, keymap_reads := ['s'.toNat] }
        { arg := { argtype := 2 ^ 5, dir := 0, limit := 20 }, save_repeats := 7 } (.dyn 3))
      { argtype := 2 ^ 5, dir := 0, limit := 20 }
    ∧ (get_command_end demoEnv inputState
        { freshInput 0 with current_cmd_key := 's'.toNat, keymap_reads := ['s'.toNat] }
        { arg := { argtype := 2 ^ 5, dir := 0, limit := 20 }, save_repeats := 7 }
        (.dyn 3)).calls
      = (freshInput 0).calls
          ++ [(inputState.name_of (.dyn 3), { argtype := 2 ^ 5, dir := 0, limit := 20 })] :=
  (repeat_count_attachment demoEnv quietExternals inputState (freshInput 0)
    { arg := { argtype := 0, dir := 0, limit := 0 }, save_repeats := 7 } 20 's'.toNat 0
    (by decide) (by decide) (by decide) (by decide) rfl).1 _ _ _ (by decide)


/-! ## Keys outside the range in the keymap file -/

theorem record_unknown_unknown_keymap (E : Env) (s : State) (n : List Char) :
    (record_unknown E s n).1.unknown_keymap = s.unknown_keymap := by
  unfold record_unknown grow_unknown
  split <;> rfl

theorem resolve_cmd_unknown_keymap (E : Env) (s : State) (n : List Char) :
    (resolve_cmd E s n).1.unknown_keymap = s.unknown_keymap := by
  unfold resolve_cmd
  cases find_command s n with
  | some p => rfl
  | none => exact record_unknown_unknown_keymap E s n

/-- A binding line whose key, as the `int` that `read_keymap` holds, is not 0
and is negative or above `KEY_MAX` changes neither `keymap` nor
`unknown_keymap`, and the loop goes on with the next line. -/
theorem out_of_range_key_skipped (E : Env) (s : State) (line : List Char)
    (rest : List (List Char)) (hw : (second_word line).head? ≠ some '-')
    (h1 : line.take 3 ≠ ['E', 'X', 'T']) (h2 : line.take 5 ≠ ['N', 'O', 'E', 'X', 'T'])
    (hc : (strtol16 E line).2 ≠ 0) (h0 : line_key E line ≠ 0)
    (hr : line_key E line < 0 ∨ line_key E line > (E.KEY_MAX : Int)) :
    ∃ s1, read_keymap_line E s line = .nextline s1 ∧ s1.keymap = s.keymap
      ∧ s1.unknown_keymap = s.unknown_keymap
      ∧ read_keymap_lines E (line :: rest) s = read_keymap_lines E rest s1 := by
  have hl : read_keymap_line E s line = .nextline (resolve_cmd E s (second_word line)).1 := by
    unfold read_keymap_line
    rw [if_neg hw]
    obtain ⟨p, hp⟩ := resolve_cmd_some E s (second_word line)
    rw [hp]
    unfold apply_line
    simp only []
    rw [if_neg h1, if_neg h2, if_neg (by
      rintro (h | h)
      · exact h0 h
      · exact hc h), if_pos hr]
  exact ⟨_, hl, resolve_cmd_keymap E s _, resolve_cmd_unknown_keymap E s _,
    read_keymap_lines_cons_nextline E line rest s _ hl⟩

set_option maxRecDepth 100000 in
/-- C19 at the line `100000000 search` with a `long` of 64 bits: `strtol` gives
`2 ^ 32`, which is above `KEY_MAX`; as an `int` it is 0, so the line ends in
`badmap`, `read_keymap` returns FALSE, and the key `l` that the line before had
bound to `search` is back at its default `east`. -/
theorem wide_key_is_fatal :
    (strtol16 demoEnv "100000000 search".toList).1 = 2 ^ 32
    ∧ (demoEnv.KEY_MAX : Int) < 2 ^ 32
    ∧ line_key demoEnv "100000000 search".toList = 0
    ∧ (load_keymap demoEnv demoCommands (some wideKeyFile)).1 = false
    ∧ (load_keymap demoEnv demoCommands (some wideKeyFile)).2.keymap 0x6c
        = some (.builtin 0) := by
  have hf : (load_keymap demoEnv demoCommands (some wideKeyFile)).1 = false := by
    rw [load_keymap_eq]
    exact read_keymap_lines_fatal demoEnv _ _
      ⟨"100000000 search".toList, by decide, Or.inr ⟨by decide, by decide, Or.inl (by decide)⟩⟩
  refine ⟨by decide, by decide, by decide, hf, ?_⟩
  rw [load_keymap_eq] at hf ⊢
  rw [read_keymap_lines_false_keymap demoEnv _ _ hf]
  decide

/-! ## The lines `EXT` and `NOEXT` of the keymap file -/

theorem key_line_head (s : State) (n key : Nat) (l : List Char) (h : l ∈ key_lines s n key) :
    l.head? ≠ some 'E' ∧ l.head? ≠ some 'N' := by
  obtain ⟨k, _, _, _, rfl⟩ := mem_key_lines s n key l h
  obtain ⟨c, t, hp, hc, _⟩ := printf_x_cons k
  have hf := hexchar_facts c hc
  rw [hp]
  simp only [List.cons_append, List.head?_cons, ne_eq, Option.some.injEq]
  exact ⟨hf.2.2.2.2.2.2.2.1, hf.2.2.2.2.2.2.2.2⟩

set_option maxRecDepth 100000 in
/-- C20 fails for the built-in commands: `east` is a built-in command, and the
text that `write_keymap` writes for the defaults holds neither the line
`EXT east` nor the line `NOEXT east`. -/
theorem builtin_command_gets_no_ext_line :
    (∃ c ∈ (init_keymap demoEnv (load_state demoEnv demoCommands none)).builtins,
        c.name = "east".toList)
    ∧ "EXT east".toList ∉ strtok_lines
        (keymap_text demoEnv (init_keymap demoEnv (load_state demoEnv demoCommands none)))
    ∧ "NOEXT east".toList ∉ strtok_lines
        (keymap_text demoEnv (init_keymap demoEnv (load_state demoEnv demoCommands none))) := by
  have hs : saveable demoEnv (init_keymap demoEnv (load_state demoEnv demoCommands none)) :=
    editor_saveable demoEnv demoCommands _ (by decide)
      (editor_reach_inv demoEnv demoCommands _ editor_reach.init)
  rw [strtok_lines_keymap_text demoEnv _ hs]
  refine ⟨⟨_, List.mem_cons_self _ _, rfl⟩, ?_, ?_⟩
  · intro h
    rcases List.mem_append.1 h with h | h
    · exact (key_line_head _ _ _ _ h).1 rfl
    · revert h
      decide
  · intro h
    rcases List.mem_append.1 h with h | h
    · exact (key_line_head _ _ _ _ h).2 rfl
    · revert h
      decide

/-- C20 as the code has it: after the lines for the keys, the text of
`write_keymap` is one line for every command of `commandlist` followed by one
line for every record of `unknown_commands` in use, and nothing for the
built-in commands; the line of a command is `EXT` and its name when the flag
`CMD_EXT` is set, and `NOEXT` and its name when it is not. The names are
taken to fit the line buffer. -/
theorem save_emits_ext_records (E : Env) (s : State)
    (hshort : ∀ c ∈ s.commandlist ++ s.unknown_commands.take s.unknown_count,
      c.name.length + 16 ≤ E.BUFSZ) :
    keymap_text E s
        = write_keymap_keys E s E.KEY_MAX 1
          ++ unlines ((s.commandlist ++ s.unknown_commands.take s.unknown_count).map
              (ext_line E))
    ∧ (∀ c : nh_cmd_desc, c.flags &&& E.CMD_EXT ≠ 0 → ext_line E c = "EXT ".toList ++ c.name)
    ∧ (∀ c : nh_cmd_desc, c.flags &&& E.CMD_EXT = 0 →
        ext_line E c = "NOEXT ".toList ++ c.name) := by
  refine ⟨?_, ?_, ?_⟩
  · unfold keymap_text
    rw [write_keymap_exts_eq E s.commandlist
        (fun c hc => hshort c (List.mem_append_left _ hc)),
      write_keymap_exts_eq E (s.unknown_commands.take s.unknown_count)
        (fun c hc => hshort c (List.mem_append_right _ hc)),
      List.map_append, unlines_append, List.append_assoc]
  · intro c hc
    unfold ext_line
    rw [if_pos hc]
  · intro c hc
    unfold ext_line
    rw [if_neg (fun h => h hc)]

set_option maxRecDepth 100000 in
/-- C20 as the code has it, for the state after the load of a file with the
unknown command `foo`. -/
theorem save_emits_ext_records_witness :
    keymap_text demoEnv (load_keymap demoEnv demoCommands (some unknownFile)).2
      = write_keymap_keys demoEnv (load_keymap demoEnv demoCommands (some unknownFile)).2
          demoEnv.KEY_MAX 1
        ++ unlines (((load_keymap demoEnv demoCommands (some unknownFile)).2.commandlist
            ++ (load_keymap demoEnv demoCommands (some unknownFile)).2.unknown_commands.take
                (load_keymap demoEnv demoCommands (some unknownFile)).2.unknown_count).map
              (ext_line demoEnv)) :=
  (save_emits_ext_records demoEnv (load_keymap demoEnv demoCommands (some unknownFile)).2
    (by decide)).1

/-! ## `init_keymap` depends on the command arrays only -/

/-- C23: for two states whose command arrays agree in the names and the keys,
whatever their tables hold, `init_keymap` leaves the same binding at every key;
and running `init_keymap` a second time changes nothing. -/
theorem init_keymap_determined (E : Env) (s1 s2 : State) (h : same_skel s1 s2) :
    (∀ k, (init_keymap E s1).keymap k = (init_keymap E s2).keymap k)
    ∧ init_keymap E (init_keymap E s1) = init_keymap E s1 := by
  constructor
  · intro k
    simp only [init_keymap]
    rw [init_keymap_table_congr E h]
  · have e : init_keymap_table E (init_keymap E s1) = init_keymap_table E s1 :=
      init_keymap_table_congr E ⟨rfl, rfl⟩
    show ({ init_keymap E s1 with keymap := init_keymap_table E (init_keymap E s1) } : State)
      = init_keymap E s1
    rw [e]
    rfl

set_option maxRecDepth 100000 in
/-- C23 for the state of the start of the program and the state after the user
has bound the key `x` in the editor. -/
theorem init_keymap_determined_witness :
    (∀ k, (init_keymap demoEnv (load_state demoEnv demoCommands none)).keymap k
        = (init_keymap demoEnv boundKeyState).keymap k)
    ∧ init_keymap demoEnv (init_keymap demoEnv (load_state demoEnv demoCommands none))
        = init_keymap demoEnv (load_state demoEnv demoCommands none) :=
  init_keymap_determined demoEnv (load_state demoEnv demoCommands none) boundKeyState
    ⟨rfl, rfl⟩

/-! ## The binding editor: adding and deleting a key -/

set_option maxRecDepth 100000 in
/-- C24 fails at the key `KEY_ESCAPE`: it lies in `0 .. KEY_MAX` and is unbound
in the defaults, and after the user has pressed it at the prompt for a new key
of `search`, answering `y` to any question, it is still unbound. -/
theorem add_key_ignores_escape :
    demoEnv.KEY_ESCAPE ≤ demoEnv.KEY_MAX
    ∧ (init_keymap demoEnv (load_state demoEnv demoCommands none)).keymap demoEnv.KEY_ESCAPE
        = none
    ∧ (command_settings_pass demoEnv (init_keymap demoEnv (load_state demoEnv demoCommands none))
        (.dyn 3) (-1) demoEnv.KEY_ESCAPE 'y').keymap demoEnv.KEY_ESCAPE = none := by
  refine ⟨by decide, by decide, by decide⟩

/-- C24 as the code has it: for a key in `0 .. KEY_MAX` other than `KEY_ESCAPE`
pressed at the prompt for a new key of `cmd`, the state is unchanged when the
key is bound and the answer is not `y`; otherwise `keymap[key]` is `cmd` and
no other entry changes. For `KEY_ESCAPE` and for a key above `KEY_MAX` the
state is unchanged. -/
theorem add_key_confirmation (E : Env) (s : State) (cmd : cmd_ptr) (key : Nat) (yn : Char)
    (hk : key ≤ E.KEY_MAX) (hesc : key ≠ E.KEY_ESCAPE) :
    ((s.keymap key).isSome ∧ yn ≠ 'y' → command_settings_pass E s cmd (-1) key yn = s)
    ∧ (s.keymap key = none ∨ yn = 'y' →
        (command_settings_pass E s cmd (-1) key yn).keymap key = some cmd
        ∧ ∀ k, k ≠ key → (command_settings_pass E s cmd (-1) key yn).keymap k = s.keymap k)
    ∧ (∀ key2, key2 = E.KEY_ESCAPE ∨ key2 > E.KEY_MAX →
        command_settings_pass E s cmd (-1) key2 yn = s) := by
  have h1 : ¬ ((-1 : Int) > 0) := by decide
  refine ⟨?_, ?_, ?_⟩
  · intro hb
    unfold command_settings_pass
    rw [if_neg h1, if_pos rfl, if_neg (by omega), if_pos hb]
  · intro hb
    have hn : ¬ ((s.keymap key).isSome ∧ yn ≠ 'y') := by
      rintro ⟨h2, h3⟩
      rcases hb with hb | hb
      · rw [hb] at h2; cases h2
      · exact h3 hb
    unfold command_settings_pass
    rw [if_neg h1, if_pos rfl, if_neg (by omega), if_neg hn]
    exact ⟨kset_same _ _ _, fun k hk2 => kset_other _ _ _ _ hk2⟩
  · intro key2 h2
    unfold command_settings_pass
    rw [if_neg h1, if_pos rfl, if_pos h2]

set_option maxRecDepth 100000 in
/-- C24 as the code has it, for the key `x` and the command `search`: the key
is unbound in the defaults, and afterwards it is bound to `search`. -/
theorem add_key_confirmation_witness :
    (command_settings_pass demoEnv (init_keymap demoEnv (load_state demoEnv demoCommands none))
        (.dyn 3) (-1) 'x'.toNat 'n').keymap 'x'.toNat = some (.dyn 3)
    ∧ ∀ k, k ≠ 'x'.toNat →
        (command_settings_pass demoEnv
          (init_keymap demoEnv (load_state demoEnv demoCommands none))
          (.dyn 3) (-1) 'x'.toNat 'n').keymap k
        = (init_keymap demoEnv (load_state demoEnv demoCommands none)).keymap k :=
  (add_key_confirmation demoEnv (init_keymap demoEnv (load_state demoEnv demoCommands none))
    (.dyn 3) 'x'.toNat 'n' (by decide) (by decide)).2.1 (Or.inl (by decide))

set_option maxRecDepth 100000 in
/-- C25 fails for the built-in command `(nothing)`: the editor lists it, the
space key is bound to it in the defaults, and after `delete key` for the space
key the key is still bound to it. -/
theorem delete_key_of_nothing_keeps_it :
    listed demoEnv (init_keymap demoEnv (load_state demoEnv demoCommands none)) (.builtin 36)
    ∧ menu_offers demoEnv (init_keymap demoEnv (load_state demoEnv demoCommands none))
        (.builtin 36) (' '.toNat : Int)
    ∧ (init_keymap demoEnv (load_state demoEnv demoCommands none)).keymap ' '.toNat
        = some (.builtin 36)
    ∧ (command_settings_pass demoEnv (init_keymap demoEnv (load_state demoEnv demoCommands none))
        (.builtin 36) (' '.toNat : Int) 0 'n').keymap ' '.toNat = some (.builtin 36) := by
  refine ⟨⟨_, rfl, by decide⟩, Or.inl ⟨by decide, by decide, by decide⟩, by decide, by decide⟩

/-- C25 as the code has it: `delete key K` for a key `K ≥ 1` stores in
`keymap[K]` the command that `find_command("(nothing)")` returns and changes no
other entry; so a key `K` that was bound to `cmd` is no longer bound to `cmd`
exactly when `cmd` is not that command. -/
theorem delete_key_binds_nothing (E : Env) (s : State) (cmd : cmd_ptr) (K key : Nat)
    (yn : Char) (hK : 1 ≤ K) :
    (command_settings_pass E s cmd (K : Int) key yn).keymap K
        = find_command s "(nothing)".toList
    ∧ (∀ k, k ≠ K → (command_settings_pass E s cmd (K : Int) key yn).keymap k = s.keymap k)
    ∧ (s.keymap K = some cmd →
        ((command_settings_pass E s cmd (K : Int) key yn).keymap K ≠ some cmd
          ↔ some cmd ≠ find_command s "(nothing)".toList)) := by
  have hpos : (K : Int) > 0 := by omega
  have e : command_settings_pass E s cmd (K : Int) key yn
      = { s with keymap := kset s.keymap K (find_command s "(nothing)".toList) } := by
    unfold command_settings_pass
    rw [if_pos hpos]
    simp
  rw [e]
  refine ⟨kset_same _ _ _, fun k hk => kset_other _ _ _ _ hk, ?_⟩
  intro _
  show kset s.keymap K (find_command s "(nothing)".toList) K ≠ some cmd ↔ _
  rw [kset_same]
  exact ⟨fun h e2 => h e2.symm, fun h e2 => h e2.symm⟩

set_option maxRecDepth 100000 in
/-- C25 as the code has it, for the key `l`, bound to `east` in the defaults:
after `delete key` it is bound to `(nothing)`. -/
theorem delete_key_binds_nothing_witness :
    (command_settings_pass demoEnv (init_keymap demoEnv (load_state demoEnv demoCommands none))
        (.builtin 0) ('l'.toNat : Int) 0 'n').keymap 'l'.toNat
      = find_command (init_keymap demoEnv (load_state demoEnv demoCommands none))
          "(nothing)".toList :=
  (delete_key_binds_nothing demoEnv (init_keymap demoEnv (load_state demoEnv demoCommands none))
    (.builtin 0) 'l'.toNat 0 'n' (by decide)).1

/-! ## The indices of `keymap` and the carried count in `get_command` -/

set_option maxRecDepth 100000 in
/-- C28 at the keys `F`, 5000 and `s`: `F` selects `fight`, which asks for a
direction; the key 5000 read for the direction is above `KEY_MAX`, and
`keymap[5000]` is read, because the test before the read is on the first key. -/
theorem direction_key_indexes_out_of_bounds :
    demoEnv.KEY_MAX < 5000
    ∧ (get_command demoEnv quietExternals inputState (freshInput 0)
        { argtype := 0, dir := 0, limit := 0 } ['F'.toNat, 5000, 's'.toNat]).map
          (fun r => r.1.keymap_reads)
      = some ['F'.toNat, 'F'.toNat, 5000, 's'.toNat, 's'.toNat] := by
  refine ⟨by decide, by decide⟩

set_option maxRecDepth 100000 in
/-- C30 at the keys `2`, `F`, `x`, `3`, `s`: the first attempt, with the count
2 and the command `fight`, ends in `Bad command` at the key `x`; the second
attempt passes `search` on with the limit 3. At the return `repeats_remaining`
is 2, the count of the first attempt. -/
theorem stale_count_survives :
    (get_command demoEnv quietExternals inputState (freshInput 0)
        { argtype := 0, dir := 0, limit := 0 }
        ['2'.toNat, 'F'.toNat, 'x'.toNat, '3'.toNat, 's'.toNat]).map
          (fun r => (r.1.calls, r.1.repeats_remaining, r.2))
      = some ([("search".toList, { argtype := 2 ^ 5, dir := 0, limit := 3 })], 2, []) := by
  decide

/-! ## The colour keys of the tile text format -/

theorem char2bysx_bysx2char : ∀ i, i < 64 → char2bysx (bysx2char i) = (i : Int) := by
  decide

theorem key_slot_color_key (n i : Nat) (hn : n ≤ 4096) (hi : i < n) :
    key_slot (color_key n i) = if n > 62 then (i : Int) else (i : Int) + 1 := by
  unfold color_key
  by_cases h : n > 62
  · rw [if_pos h, if_pos h]
    show char2bysx (bysx2char (i / 64)) * 64 + char2bysx (bysx2char (i % 64)) = _
    rw [char2bysx_bysx2char _ (by omega), char2bysx_bysx2char _ (Nat.mod_lt _ (by omega))]
    have := Nat.div_add_mod i 64
    omega
  · rw [if_neg h, if_neg h]
    show char2bysx (bysx2char (i + 1)) = _
    rw [char2bysx_bysx2char _ (by omega)]
    omega

/-- C26: `char2bysx(bysx2char(j)) = j` for `j` in `0 .. 63`; and when
`write_text_colormap` writes `n ≤ 4096` colours, the key of the colour `i < n`
is read back as a slot in `0 .. 4095`, namely `i` for two characters and
`i + 1` for one, and no other colour of the file has that slot. -/
theorem colour_key_round_trip (n i : Nat) (hn : n ≤ 4096) (hi : i < n) :
    (∀ j, j < 64 → char2bysx (bysx2char j) = (j : Int))
    ∧ (∀ M, n ≤ M → write_text_colormap M n = some ((List.range n).map (color_key n)))
    ∧ key_slot (color_key n i) = (if n > 62 then (i : Int) else (i : Int) + 1)
    ∧ 0 ≤ key_slot (color_key n i) ∧ key_slot (color_key n i) < (TEXTCOLORMAPSPACE : Int)
    ∧ ∀ j, j < n → key_slot (color_key n j) = key_slot (color_key n i) → j = i := by
  have hs := key_slot_color_key n i hn hi
  have e : (TEXTCOLORMAPSPACE : Int) = 4096 := rfl
  refine ⟨char2bysx_bysx2char, ?_, hs, ?_, ?_, ?_⟩
  · intro M hM
    unfold write_text_colormap
    rw [if_neg (by omega)]
  · rw [hs]; split <;> omega
  · rw [hs, e]; split <;> omega
  · intro j hj hjs
    rw [hs, key_slot_color_key n j hn hj] at hjs
    split at hjs <;> omega

/-- C26 for 100 colours and the colour 77. -/
theorem colour_key_round_trip_witness :
    key_slot (color_key 100 77) = (if 100 > 62 then ((77 : Nat) : Int) else ((77 : Nat) : Int) + 1)
    ∧ ∀ j, j < 100 → key_slot (color_key 100 j) = key_slot (color_key 100 77) → j = 77 :=
  ⟨(colour_key_round_trip 100 77 (by decide) (by decide)).2.2.1,
    (colour_key_round_trip 100 77 (by decide) (by decide)).2.2.2.2.2⟩

set_option maxRecDepth 100000 in
/-- C27 at 63 colours: `write_text_colormap` gives every colour a key of two
characters, and `write_txttile_info` writes the row `  _A` for the one pixel of
the colour 1. The colour map is read back with 63 colours, for which
`read_txttile_info` reads one character for a pixel and `set_tile_size` counts
two pixels in the row: the pixel is read as the colour 0, and `A` is left over.
The two sides use the same width exactly when there are at most 62 or more than
64 colours. -/
theorem key_width_differs_at_63 :
    (∀ n, (∀ i, (color_key n i).length = pixel_width n) ↔ (n ≤ 62 ∨ 64 < n))
    ∧ write_text_colormap 4096 63 = some ((List.range 63).map (color_key 63))
    ∧ color_key 63 1 = ['_', 'A']
    ∧ write_pixel_row ((List.range 63).map (color_key 63)) (rampColors 63) [(1, 0, 0)]
        = "  _A\n".toList
    ∧ (read_text_colormap (rampEntries 63)).colorsinmap = 63
    ∧ pixel_width 63 = 1
    ∧ set_tile_size_row 63 "  _A\n".toList = .width 2
    ∧ read_pixels (read_text_colormap (rampEntries 63)) 1 "  _A\n".toList
        = some ([some (0, 0, 0)], "A\n".toList) := by
  refine ⟨?_, by decide, by decide, by decide, by decide, by decide, by decide, by decide⟩
  intro n
  unfold color_key pixel_width
  constructor
  · intro h
    have h0 := h 0
    by_cases h1 : n > 62
    · rw [if_pos h1] at h0
      by_cases h2 : n > 64
      · exact Or.inr h2
      · rw [if_neg h2] at h0
        simp at h0
    · exact Or.inl (by omega)
  · rintro (h | h) i
    · rw [if_neg (by omega), if_neg (by omega)]
      rfl
    · rw [if_pos (by omega), if_pos (by omega)]
      rfl


/-! ## The reset of all bindings -/

theorem mod_flags_getElem (f : Nat → Nat) (j : Nat) (l : List nh_cmd_desc) (i : Nat) :
    (mod_flags f j l)[i]?
      = if i = j then (l[i]?).map (fun c => { c with flags := f c.flags }) else l[i]? := by
  induction l generalizing i j with
  | nil => simp [mod_flags]
  | cons d ds ih =>
    cases j with
    | zero =>
      cases i with
      | zero => simp [mod_flags]
      | succ i2 => simp [mod_flags]
    | succ j2 =>
      cases i with
      | zero => simp [mod_flags]
      | succ i2 =>
        simp only [mod_flags, List.getElem?_cons_succ, ih j2 i2, Nat.succ_eq_add_one,
          Nat.add_right_cancel_iff]

theorem skel_getElem {l l2 : List nh_cmd_desc} (h : l.map skel = l2.map skel) (i : Nat)
    (c : nh_cmd_desc) (hc : l2[i]? = some c) : ∃ c2, l[i]? = some c2 ∧ skel c2 = skel c := by
  have e : (l.map skel)[i]? = (l2.map skel)[i]? := by rw [h]
  simp only [List.getElem?_map, hc, Option.map_some'] at e
  cases hl : l[i]? with
  | none => rw [hl] at e; cases e
  | some c2 =>
    rw [hl] at e
    simp only [Option.map_some', Option.some.injEq] at e
    exact ⟨c2, rfl, e⟩

/-- The loop of `set_command_keys` over the commands `todo` of the game, when
those before them, `done`, already have their flags back. -/
theorem reset_extcmds_flags (todo : List nh_cmd_desc) :
    ∀ (done : List nh_cmd_desc) (t : State),
      t.commandlist.map skel = (done ++ todo).map skel →
      ((done ++ todo).map (fun c => c.name)).Nodup →
      (∀ (i : Nat) (c : nh_cmd_desc), done[i]? = some c → ∃ c2, t.commandlist[i]? = some c2 ∧ c2.flags = c.flags) →
      (reset_extcmds t todo).commandlist.map skel = t.commandlist.map skel
        ∧ (∀ (i : Nat) (c : nh_cmd_desc), (done ++ todo)[i]? = some c →
            ∃ c2, (reset_extcmds t todo).commandlist[i]? = some c2 ∧ c2.flags = c.flags)
        ∧ (reset_extcmds t todo).builtins = t.builtins
        ∧ (reset_extcmds t todo).keymap = t.keymap := by
  induction todo with
  | nil =>
    intro done t _ _ hdone
    simp only [List.append_nil]
    exact ⟨rfl, hdone, rfl, rfl⟩
  | cons c cs ih =>
    intro done t hskel hnd hdone
    have hsplit : done ++ c :: cs = (done ++ [c]) ++ cs := by simp
    have hc : (done ++ c :: cs)[done.length]? = some c := by
      rw [List.getElem?_append_right (Nat.le_refl _), Nat.sub_self]
      exact List.getElem?_cons_zero
    obtain ⟨c2, hc2, hsk⟩ := skel_getElem hskel done.length c hc
    have hname : c2.name = c.name := congrArg Prod.fst hsk
    have hndt : (t.commandlist.map (fun c => c.name)).Nodup := by
      rw [names_of_skel hskel]; exact hnd
    have hfi := find_index_of_get 0 hndt (by rw [List.get?_eq_getElem?]; exact hc2)
    rw [hname, Nat.zero_add] at hfi
    have hfind : find_command t c.name = some (.dyn done.length) := by
      unfold find_command
      rw [hfi]
    have hstep : reset_extcmds t (c :: cs)
        = reset_extcmds (t.set_flags (.dyn done.length) (fun _ => c.flags)) cs := by
      rw [reset_extcmds, hfind]
    rw [hstep]
    have hskel2 : (t.set_flags (.dyn done.length) (fun _ => c.flags)).commandlist.map skel
        = t.commandlist.map skel := mod_flags_skel _ _ _
    obtain ⟨r1, r2, r3, r4⟩ := ih (done ++ [c])
      (t.set_flags (.dyn done.length) (fun _ => c.flags))
      (by rw [hskel2, hskel, hsplit]) (by rw [← hsplit]; exact hnd)
      (by
        intro i d hd
        show ∃ c3, (mod_flags (fun _ => c.flags) done.length t.commandlist)[i]? = some c3 ∧ _
        rw [mod_flags_getElem]
        by_cases hi : i = done.length
        · subst hi
          rw [if_pos rfl, hc2]
          simp only [List.getElem?_append_right (Nat.le_refl _), Nat.sub_self,
            List.getElem?_cons_zero, Option.some.injEq] at hd
          subst hd
          exact ⟨_, rfl, rfl⟩
        · rw [if_neg hi]
          have hlt : i < done.length := by
            have := (List.getElem?_eq_some_iff.1 hd).1
            simp only [List.length_append, List.length_singleton] at this
            omega
          rw [List.getElem?_append_left hlt] at hd
          exact hdone i d hd)
    refine ⟨r1.trans hskel2, ?_, r3, ?_⟩
    · intro i d hd
      rw [hsplit] at hd
      exact r2 i d hd
    · rw [r4, set_flags_keymap]

set_option maxRecDepth 100000 in
/-- C22 fails for the built-in commands: after the load of a file with the line
`EXT east`, the built-in command `east` has the flag `CMD_EXT`, which the table
`builtin_commands` does not give it, and it still has the flag after the reset
of all bindings. -/
theorem reset_keeps_builtin_ext_flag :
    (load_keymap demoEnv demoCommands (some extEastFile)).1 = true
    ∧ ((builtin_commands demoEnv).get? 0).map (fun c => (c.name, c.flags &&& demoEnv.CMD_EXT))
        = some ("east".toList, 0)
    ∧ ((set_command_keys_reset demoEnv (load_keymap demoEnv demoCommands (some extEastFile)).2
          demoCommands).builtins.get? 0).map
          (fun c => (c.name, c.flags &&& demoEnv.CMD_EXT))
        = some ("east".toList, demoEnv.CMD_EXT) := by
  refine ⟨by decide, by decide, by decide⟩

/-- C22 as the code has it: let the arrays of `s` be those of the start of the
program up to the flags, for a command list `cmdlist` of the game with pairwise
different names. After the reset of all bindings the table `keymap` is that of
`init_keymap` for the defaults, and every command of the game has the flags
that `cmdlist` gives it; the built-in commands keep the flags they had. -/
theorem reset_restores_game_flags (E : Env) (s : State) (cmdlist : List nh_cmd_desc)
    (hskel : same_skel s (load_state E cmdlist none))
    (hnd : (cmdlist.map (fun c => c.name)).Nodup) :
    (set_command_keys_reset E s cmdlist).keymap
        = (init_keymap E (load_state E cmdlist none)).keymap
    ∧ (∀ i c, cmdlist.get? i = some c →
        (set_command_keys_reset E s cmdlist).flags_of (.dyn i) = c.flags)
    ∧ (set_command_keys_reset E s cmdlist).commandlist.map skel = cmdlist.map skel
    ∧ (set_command_keys_reset E s cmdlist).builtins = s.builtins := by
  have hs1 : (init_keymap E s).commandlist.map skel = ([] ++ cmdlist).map skel := hskel.1
  obtain ⟨r1, r2, r3, r4⟩ := reset_extcmds_flags cmdlist [] (init_keymap E s) hs1
    (by simpa using hnd) (by intro i c hc; simp at hc)
  unfold set_command_keys_reset
  refine ⟨?_, ?_, ?_, r3⟩
  · rw [r4]
    simp only [init_keymap]
    exact init_keymap_table_congr E hskel
  · intro i c hc
    rw [List.get?_eq_getElem?] at hc
    obtain ⟨c2, h1, h2⟩ := r2 i c (by simpa using hc)
    unfold State.flags_of State.deref
    simp only [List.get?_eq_getElem?, h1, h2]
  · rw [r1]
    exact hskel.1

set_option maxRecDepth 100000 in
/-- C22 as the code has it, for the state after the user has made `search` an
extended command in the editor: the reset gives `search` its flags back. -/
theorem reset_restores_game_flags_witness :
    (command_settings_pass demoEnv (init_keymap demoEnv (load_state demoEnv demoCommands none))
        (.dyn 3) (-2) 0 'n').flags_of (.dyn 3) ≠ 2 ^ 5
    ∧ ∀ i c, demoCommands.get? i = some c →
        (set_command_keys_reset demoEnv
          (command_settings_pass demoEnv
            (init_keymap demoEnv (load_state demoEnv demoCommands none)) (.dyn 3) (-2) 0 'n')
          demoCommands).flags_of (.dyn i) = c.flags :=
  ⟨by decide,
    (reset_restores_game_flags demoEnv
      (command_settings_pass demoEnv (init_keymap demoEnv (load_state demoEnv demoCommands none))
        (.dyn 3) (-2) 0 'n') demoCommands ⟨by decide, by decide⟩ (by decide)).2.1⟩


/-! ## The lines of the keys in the keymap file -/

theorem key_name_bound (s : State) (key : Nat) :
    key_name s key = (bound_name s key).getD ['-'] := by
  unfold key_name bound_name
  cases s.keymap key with
  | some p => rfl
  | none =>
    cases s.unknown_keymap key with
    | some p => rfl
    | none => rfl

/-- One pass of the key loop of `write_keymap`, by the name under which the
key is bound. -/
theorem write_keymap_key_bound (E : Env) (s : State) (key : Nat)
    (h : ∀ name, bound_name s key = some name → name ≠ ['-'] ∧ name.length + 11 ≤ E.BUFSZ) :
    write_keymap_key E s key
      = unlines (match bound_name s key with
          | some name => [printf_x key ++ ' ' :: name]
          | none => []) := by
  unfold write_keymap_key
  simp only [key_name_bound]
  cases hb : bound_name s key with
  | none => simp [unlines]
  | some name =>
    obtain ⟨h1, h2⟩ := h name hb
    have hx := printf_x_length key
    simp only [Option.getD_some]
    rw [if_pos h1, snprintf_eq]
    · simp [unlines]
    · simp only [List.length_append, List.length_singleton]
      omega

theorem write_keymap_keys_bound (E : Env) (s : State) (n key : Nat)
    (h : ∀ k, key ≤ k → k < key + n → ∀ name, bound_name s k = some name →
      name ≠ ['-'] ∧ name.length + 11 ≤ E.BUFSZ) :
    write_keymap_keys E s n key = unlines (bound_lines s n key) := by
  induction n generalizing key with
  | zero => rfl
  | succ n ih =>
    rw [write_keymap_keys, bound_lines, unlines_append,
      write_keymap_key_bound E s key (h key (Nat.le_refl _) (by omega)),
      ih (key + 1) (fun k h1 h2 => h k (by omega) (by omega))]

theorem saveable_bound_name (E : Env) (s : State) (hs : saveable E s) (k : Nat)
    (name : List Char) (h : bound_name s k = some name) : good_name E name = true := by
  unfold bound_name at h
  cases hk : s.keymap k with
  | some p =>
    rw [hk] at h
    simp only [Option.some.injEq] at h
    rw [← h]
    exact saveable_name E s hs k p hk
  | none =>
    rw [hk, hs.2.2.2.1 k] at h
    cases h

/-- C21: when no bound key of `1 .. KEY_MAX` is bound to a command with the
name `-`, and the names of the bound commands fit the line buffer, the key loop
of `write_keymap` writes, for the keys `1 .. KEY_MAX` in increasing order, the
line `<hex key> <name>` for every key bound in `keymap` or else in
`unknown_keymap`, and nothing for a key bound in neither; these lines are the
start of the text of the file; and the key field, in lower-case hexadecimal
digits, reads back as the key. -/
theorem save_emits_bound_keys (E : Env) (s : State)
    (h : ∀ k, 1 ≤ k → k ≤ E.KEY_MAX → ∀ name, bound_name s k = some name →
      name ≠ ['-'] ∧ name.length + 11 ≤ E.BUFSZ) :
    write_keymap_keys E s E.KEY_MAX 1 = unlines (bound_lines s E.KEY_MAX 1)
    ∧ keymap_text E s
        = unlines (bound_lines s E.KEY_MAX 1) ++ write_keymap_exts E s.commandlist
          ++ write_keymap_exts E (s.unknown_commands.take s.unknown_count)
    ∧ (∀ k, (∀ c ∈ printf_x k, hexchar c)
        ∧ (k < 2 ^ 32 → ∀ name,
            strtol_digits (printf_x k ++ ' ' :: name) 0 0 = (k, (printf_x k).length))) := by
  have h1 := write_keymap_keys_bound E s E.KEY_MAX 1
    (fun k hk1 hk2 => h k hk1 (by omega))
  refine ⟨h1, ?_, ?_⟩
  · unfold keymap_text
    rw [h1]
  · intro k
    refine ⟨hex_digits_hexchar 8 k, ?_⟩
    intro hk name
    exact printf_x_value k hk name ' ' (by decide)

set_option maxRecDepth 100000 in
/-- C21 for the state after the user has bound the key `x` to `search`. -/
theorem save_emits_bound_keys_witness :
    write_keymap_keys demoEnv boundKeyState demoEnv.KEY_MAX 1
      = unlines (bound_lines boundKeyState demoEnv.KEY_MAX 1) :=
  (save_emits_bound_keys demoEnv boundKeyState (by
    intro k _ _ name hb
    have hs : saveable demoEnv boundKeyState :=
      editor_saveable demoEnv demoCommands _ (by decide)
        (editor_reach_inv demoEnv demoCommands _
          (editor_reach.pass (.dyn 3) (-1) 'x'.toNat 'n' editor_reach.init ⟨_, rfl, by decide⟩
            (Or.inr (Or.inl rfl))))
    have hg := saveable_bound_name demoEnv _ hs k name hb
    have hf := good_name_facts demoEnv name hg
    refine ⟨good_name_ne_dash demoEnv name hg, ?_⟩
    have := hf.2.2
    omega)).1

/-! ## Saving, reloading and saving again -/

theorem set_flags_counts (s : State) (p : cmd_ptr) (f : Nat → Nat) :
    (s.set_flags p f).unknown_count = s.unknown_count
      ∧ (s.set_flags p f).unknown_keymap = s.unknown_keymap := by
  cases p <;> exact ⟨rfl, rfl⟩

theorem record_unknown_count (E : Env) (s : State) (n : List Char) :
    (record_unknown E s n).1.unknown_count = s.unknown_count + 1 := by
  unfold record_unknown grow_unknown
  split <;> rfl

theorem apply_line_count (E : Env) (u : State) (p : cmd_ptr) (b : Bool) (l : List Char) :
    ∀ t1, apply_line E u (some p) b l = .nextline t1 → t1.unknown_count = u.unknown_count := by
  apply apply_line_cases E u p b l
    (fun r => ∀ t1, r = .nextline t1 → t1.unknown_count = u.unknown_count)
  · intro _ t1 h
    injection h with h
    rw [← h]
    exact (set_flags_counts u p _).1
  · intro _ t1 h
    injection h with h
    rw [← h]
    exact (set_flags_counts u p _).1
  · intro _ t1 h
    cases h
  · intro _ t1 h
    injection h with h
    rw [← h]
  · intro k _ _ _ _ t1 h
    injection h with h
    rw [← h]
  · intro k _ _ _ _ t1 h
    injection h with h
    rw [← h]

/-- A line that is read without failure adds one record of an unknown command
when the command it names is not found, and none otherwise. -/
theorem read_keymap_line_count (E : Env) (t t1 : State) (l : List Char)
    (h : read_keymap_line E t l = .nextline t1) :
    t1.unknown_count
      = t.unknown_count + (if (find_command t (second_word l)).isNone then 1 else 0) := by
  unfold read_keymap_line at h
  split at h
  · cases h
  · cases hf : find_command t (second_word l) with
    | some p =>
      have hr : resolve_cmd E t (second_word l) = (t, some p, false) := by
        unfold resolve_cmd
        rw [hf]
      rw [hr] at h
      rw [apply_line_count E t p false l t1 h]
      simp
    | none =>
      have hr : resolve_cmd E t (second_word l)
          = ((record_unknown E t (second_word l)).1,
              some (record_unknown E t (second_word l)).2, true) := by
        unfold resolve_cmd
        rw [hf]
      rw [hr] at h
      rw [apply_line_count E _ _ true l t1 h, record_unknown_count]
      simp

/-- The number of records of unknown commands after a successful read: one
for every line whose command is not found. -/
theorem read_keymap_lines_count (E : Env) (ls : List (List Char)) :
    ∀ t : State, (read_keymap_lines E ls t).1 = true →
      (read_keymap_lines E ls t).2.unknown_count
        = t.unknown_count
            + ls.countP (fun l => (find_command t (second_word l)).isNone) := by
  induction ls with
  | nil => intro t _; rfl
  | cons l rest ih =>
    intro t hok
    cases hl : read_keymap_line E t l with
    | nextline t1 =>
      have hcons := read_keymap_lines_cons_nextline E l rest t t1 hl
      rw [hcons] at hok ⊢
      have hsk : same_skel t1 t := by
        have := read_keymap_line_same_skel E t l
        rw [hl] at this
        exact this
      have hfc : (fun l => (find_command t1 (second_word l)).isNone)
          = (fun l => (find_command t (second_word l)).isNone) := by
        funext x
        rw [find_command_congr hsk]
      rw [ih t1 hok, read_keymap_line_count E t t1 l hl, hfc, List.countP_cons]
      by_cases hc : (find_command t (second_word l)).isNone = true
      · simp only [hc, if_true]; omega
      · simp only [hc, if_false]
        simp
    | legacy =>
      unfold read_keymap_lines at hok
      rw [hl] at hok
      cases hok
    | badmap t1 =>
      unfold read_keymap_lines at hok
      rw [hl] at hok
      cases hok

/-- A file all of whose lines reach the label `nextline` is read without failure. -/
theorem read_keymap_lines_ok (E : Env) (ls : List (List Char))
    (h : ∀ l ∈ ls, ∀ t, ∃ t1, read_keymap_line E t l = .nextline t1) :
    ∀ t, (read_keymap_lines E ls t).1 = true := by
  induction ls with
  | nil => intro t; rfl
  | cons l rest ih =>
    intro t
    obtain ⟨t1, h1⟩ := h l (List.mem_cons_self _ _) t
    rw [read_keymap_lines_cons_nextline E l rest t t1 h1]
    exact ih (fun l2 h2 => h l2 (List.mem_cons_of_mem _ h2)) t1

/-- A line of a bound key reaches the label `nextline`, whatever the state. -/
theorem key_line_nextline (E : Env) (k : Nat) (name : List Char)
    (hk1 : 1 ≤ k) (hk2 : k ≤ E.KEY_MAX) (hE1 : E.KEY_MAX < 2 ^ 31) (hE2 : 32 ≤ E.LONG_BIT)
    (hn : ∀ c, name.head? = some c → c ≠ '-' ∧ isspace c = false) (t : State) :
    ∃ t1, read_keymap_line E t (printf_x k ++ ' ' :: name) = .nextline t1 := by
  obtain ⟨h1, h2⟩ := read_keymap_line_key E t k name hk1 hk2 hE1 hE2 hn
  obtain ⟨p, hp⟩ := resolve_cmd_some E t name
  rw [h1, hp, h2]
  split
  · exact ⟨_, rfl⟩
  · exact ⟨_, rfl⟩

/-- An `EXT` or `NOEXT` line reaches the label `nextline`, whatever the state. -/
theorem ext_line_nextline (E : Env) (c : nh_cmd_desc)
    (hn : ∀ x, c.name.head? = some x → x ≠ '-' ∧ isspace x = false) (t : State) :
    ∃ t1, read_keymap_line E t (ext_line E c) = .nextline t1 := by
  obtain ⟨hw, hx⟩ := ext_line_facts E c hn
  obtain ⟨p, hp⟩ := resolve_cmd_some E t c.name
  unfold read_keymap_line
  rw [hw]
  have hd : ¬ c.name.head? = some '-' := fun h => (hn '-' h).1 rfl
  rw [if_neg hd, hp]
  unfold apply_line
  rcases hx with h3 | ⟨h3, h5⟩
  · simp only [h3, if_true]
    exact ⟨_, rfl⟩
  · simp only [h3, h5, if_true, if_false]
    exact ⟨_, rfl⟩

theorem append_split_by {α : Type} (p : α → Prop) :
    ∀ (A A2 B B2 : List α), (∀ a ∈ A, p a) → (∀ a ∈ A2, p a) → (∀ b ∈ B, ¬ p b) →
      (∀ b ∈ B2, ¬ p b) → A ++ B = A2 ++ B2 → A = A2 ∧ B = B2 := by
  intro A
  induction A with
  | nil =>
    intro A2 B B2 _ hA2 hB _ h
    cases A2 with
    | nil => exact ⟨rfl, h⟩
    | cons a as =>
      exfalso
      rw [List.nil_append, List.cons_append] at h
      exact hB a (by rw [h]; exact List.mem_cons_self _ _) (hA2 a (List.mem_cons_self _ _))
  | cons a as ih =>
    intro A2 B B2 hA hA2 hB hB2 h
    cases A2 with
    | nil =>
      exfalso
      rw [List.nil_append, List.cons_append] at h
      exact hB2 a (by rw [← h]; exact List.mem_cons_self _ _) (hA a (List.mem_cons_self _ _))
    | cons a2 as2 =>
      rw [List.cons_append, List.cons_append] at h
      injection h with h1 h2
      obtain ⟨e1, e2⟩ := ih as2 B B2 (fun x hx => hA x (List.mem_cons_of_mem _ hx))
        (fun x hx => hA2 x (List.mem_cons_of_mem _ hx)) hB hB2 h2
      exact ⟨by rw [h1, e1], e2⟩

theorem strtok_aux_chars : ∀ (cs cur : List Char),
    (∀ c ∈ cur, isdelim c = false ∧ c ≠ '\x00') → (∀ c ∈ cs, c ≠ '\x00') →
      ∀ l ∈ strtok_aux cs cur, ∀ c ∈ l, isdelim c = false ∧ c ≠ '\x00' := by
  intro cs
  induction cs with
  | nil =>
    intro cur hcur _ l hl c hc
    unfold strtok_aux at hl
    split at hl
    · cases hl
    · rw [List.mem_singleton] at hl
      rw [hl] at hc
      exact hcur c (List.mem_reverse.1 hc)
  | cons a as ih =>
    intro cur hcur hcs l hl c hc
    have has : ∀ c ∈ as, c ≠ '\x00' := fun x hx => hcs x (List.mem_cons_of_mem _ hx)
    have hnil : ∀ c ∈ ([] : List Char), isdelim c = false ∧ c ≠ '\x00' := by
      intro x hx; cases hx
    unfold strtok_aux at hl
    by_cases hd : isdelim a = true
    · rw [if_pos hd] at hl
      by_cases hcn : cur = []
      · rw [if_pos hcn] at hl
        exact ih [] hnil has l hl c hc
      · rw [if_neg hcn] at hl
        rcases List.mem_cons.1 hl with h1 | h1
        · rw [h1] at hc
          exact hcur c (List.mem_reverse.1 hc)
        · exact ih [] hnil has l h1 c hc
    · rw [if_neg hd] at hl
      refine ih (a :: cur) ?_ has l hl c hc
      intro x hx
      rcases List.mem_cons.1 hx with h1 | h1
      · rw [h1]
        exact ⟨by simpa using hd, hcs a (List.mem_cons_self _ _)⟩
      · exact hcur x h1

/-- A line that `strtok` returns holds no line separator and no NUL. -/
theorem strtok_lines_chars (data : List Char) (l : List Char) (hl : l ∈ strtok_lines data) :
    ∀ c ∈ l, isdelim c = false ∧ c ≠ '\x00' := by
  refine strtok_aux_chars (cstr data) [] (by intro x hx; cases hx) ?_ l hl
  intro c hc
  have := List.mem_takeWhile_imp hc
  simpa using this

theorem good_name_of_facts (E : Env) (n : List Char)
    (h1 : ∀ c ∈ n, isdelim c = false ∧ c ≠ '\x00')
    (h2 : ∀ c, n.head? = some c → c ≠ '-' ∧ isspace c = false)
    (h3 : n.length + 16 ≤ E.BUFSZ) : good_name E n = true := by
  unfold good_name
  simp only [Bool.and_eq_true, List.all_eq_true, decide_eq_true_eq]
  refine ⟨⟨?_, ?_⟩, h3⟩
  · intro c hc
    obtain ⟨a, b⟩ := h1 c hc
    simp [a, b]
  · cases n with
    | nil => rfl
    | cons c cs =>
      obtain ⟨a, b⟩ := h2 c rfl
      simp [a, b]

/-- The name that `read_keymap` stores for an unknown command of a line of the
file is good, when the line is not of the old format. -/
theorem record_name_good (E : Env) (l : List Char) (hE : E.NAMESZ + 16 ≤ E.BUFSZ)
    (hl : ∀ c ∈ l, isdelim c = false ∧ c ≠ '\x00')
    (hd : (second_word l).head? ≠ some '-') :
    good_name E (strncpy_name E (second_word l)) = true := by
  unfold strncpy_name
  apply good_name_of_facts
  · intro c hc
    have h1 : c ∈ second_word l := List.mem_of_mem_take hc
    unfold second_word at h1
    exact hl c ((List.dropWhile_suffix _).subset ((List.dropWhile_suffix _).subset h1))
  · intro c hc
    have h1 : (second_word l).head? = some c := by
      cases hs : second_word l with
      | nil => rw [hs] at hc; simp at hc
      | cons a as =>
        rw [hs] at hc
        cases hn : E.NAMESZ - 1 with
        | zero => rw [hn] at hc; simp at hc
        | succ n => rw [hn] at hc; simpa using hc
    refine ⟨?_, ?_⟩
    · intro hc2
      rw [hc2] at h1
      exact hd h1
    · unfold second_word at h1
      have := List.head?_dropWhile_not isspace (l.dropWhile (fun c => !isspace c))
      rw [h1] at this
      exact this
  · rw [List.length_take]
    omega

theorem loaded_ok_set_flags_unknown (G : List Char → Prop) (t : State) (idx : Nat)
    (f : Nat → Nat) (h : loaded_ok G t) : loaded_ok G (t.set_flags (.unknown idx) f) := by
  obtain ⟨b1, b2, b3, b4⟩ := h
  refine ⟨b1, set_flags_unk_ok t _ f b2, b3, ?_⟩
  intro i c hi hc
  have e : (t.set_flags (.unknown idx) f).unknown_commands.get? i
      = (mod_flags f idx t.unknown_commands)[i]? := List.get?_eq_getElem? _ _
  rw [e, mod_flags_getElem] at hc
  have hi2 : i < t.unknown_count := hi
  by_cases hx : i = idx
  · rw [if_pos hx] at hc
    cases hg : t.unknown_commands[i]? with
    | none => rw [hg] at hc; cases hc
    | some c0 =>
      rw [hg] at hc
      simp only [Option.map_some', Option.some.injEq] at hc
      have := b4 i c0 hi2 (by rw [List.get?_eq_getElem?]; exact hg)
      rw [← hc]
      exact this
  · rw [if_neg hx] at hc
    exact b4 i c hi2 (by rw [List.get?_eq_getElem?]; exact hc)

theorem loaded_ok_set_flags (G : List Char → Prop) (t : State) (p : cmd_ptr)
    (f : Nat → Nat) (hv : valid_reg t p) (h : loaded_ok G t) :
    loaded_ok G (t.set_flags p f) := by
  obtain ⟨a1, a2, a3, a4⟩ := h
  obtain ⟨u1, u2, u3⟩ := set_flags_unknown t p f hv
  refine ⟨?_, set_flags_unk_ok t p f a2, ?_, ?_⟩
  · rw [set_flags_keymap]
    exact all_valid_congr (same_skel_symm (set_flags_same_skel t p f)) _ a1
  · rw [u1, u2]; exact a3
  · rw [u2, u3]; exact a4

theorem loaded_ok_record (E : Env) (G : List Char → Prop) (t : State) (n : List Char)
    (hG : G (strncpy_name E n)) (h : loaded_ok G t) :
    loaded_ok G (record_unknown E t n).1 := by
  obtain ⟨a1, a2, a3, a4⟩ := h
  obtain ⟨_, r2, r3, r4, ⟨c0, r5, r5n⟩, r6⟩ := record_unknown_facts E t n a2
  refine ⟨?_, r4, ?_, ?_⟩
  · rw [record_unknown_keymap]
    exact all_valid_congr (same_skel_symm (record_unknown_same_skel E t _)) _ a1
  · intro k p hk
    rw [r3] at hk
    obtain ⟨i, hi1, hi2⟩ := a3 k p hk
    exact ⟨i, hi1, by rw [r2]; omega⟩
  · intro i c hi hc
    rw [r2] at hi
    by_cases hlt : i < t.unknown_count
    · rw [r6 i hlt] at hc
      exact a4 i c hlt hc
    · have e : i = t.unknown_count := by omega
      rw [e, r5] at hc
      injection hc with hc
      rw [← hc, r5n]
      exact hG

/-- One line of the file keeps the tables in order. -/
theorem read_keymap_line_loaded (E : Env) (G : List Char → Prop) (t : State) (l : List Char)
    (hG : (second_word l).head? ≠ some '-' → G (strncpy_name E (second_word l)))
    (h : loaded_ok G t) : (read_keymap_line E t l).holds (loaded_ok G) := by
  unfold read_keymap_line
  by_cases hd : (second_word l).head? = some '-'
  · rw [if_pos hd]
    trivial
  · rw [if_neg hd]
    cases hf : find_command t (second_word l) with
    | some p =>
      have hr : resolve_cmd E t (second_word l) = (t, some p, false) := by
        unfold resolve_cmd
        rw [hf]
      rw [hr]
      have hv := find_command_valid hf
      apply apply_line_cases E t p false l (line_result.holds (loaded_ok G))
      · intro _; exact loaded_ok_set_flags G t p _ hv h
      · intro _; exact loaded_ok_set_flags G t p _ hv h
      · intro _; exact h
      · intro _; exact h
      · intro k _ _ _ _
        obtain ⟨a1, a2, a3, a4⟩ := h
        refine ⟨?_, a2, a3, a4⟩
        exact all_valid_kset (s := t) k (some p) a1
          (by intro q hq; injection hq with hq; rw [← hq]; exact hv)
      · intro k _ _ _ hu; cases hu
    | none =>
      have hr : resolve_cmd E t (second_word l)
          = ((record_unknown E t (second_word l)).1,
              some (record_unknown E t (second_word l)).2, true) := by
        unfold resolve_cmd
        rw [hf]
      rw [hr]
      have hb := loaded_ok_record E G t (second_word l) (hG hd) h
      obtain ⟨r1, r2, _⟩ := record_unknown_facts E t (second_word l) h.2.1
      rw [r1]
      apply apply_line_cases E _ _ true l (line_result.holds (loaded_ok G))
      · intro _; exact loaded_ok_set_flags_unknown G _ _ _ hb
      · intro _; exact loaded_ok_set_flags_unknown G _ _ _ hb
      · intro _; exact hb
      · intro _; exact hb
      · intro k _ _ _ hu; cases hu
      · intro k _ _ _ _
        obtain ⟨b1, b2, b3, b4⟩ := hb
        refine ⟨b1, b2, ?_, b4⟩
        intro k2 p hk2
        change kset _ k (some _) k2 = some p at hk2
        unfold kset at hk2
        split at hk2
        · injection hk2 with hk2
          refine ⟨t.unknown_count, hk2.symm, ?_⟩
          change t.unknown_count < (record_unknown E t (second_word l)).1.unknown_count
          rw [r2]
          omega
        · exact b3 k2 p hk2

/-- The tables are in order after a successful load, and the command arrays
are those of the start of the program up to the flags. -/
theorem load_keymap_loaded (E : Env) (G : List Char → Prop) (cmdlist : List nh_cmd_desc)
    (data : List Char)
    (hG : ∀ l ∈ strtok_lines data, (second_word l).head? ≠ some '-' →
      G (strncpy_name E (second_word l)))
    (hok : (load_keymap E cmdlist (some data)).1 = true) :
    loaded_ok G (load_keymap E cmdlist (some data)).2
      ∧ same_skel (load_keymap E cmdlist (some data)).2 (load_state E cmdlist none) := by
  rw [load_keymap_eq] at hok ⊢
  constructor
  · refine read_keymap_lines_inv E (loaded_ok G) _
      (fun t l hl ht => read_keymap_line_loaded E G t l (hG l hl) ht) _ ?_ hok
    refine ⟨?_, Nat.zero_le _, ?_, ?_⟩
    · exact all_valid_congr (t := load_state E cmdlist (some data)) ⟨rfl, rfl⟩ _
        (all_valid_init E (load_state E cmdlist (some data)))
    · intro k p hk; cases hk
    · intro i c hi; cases hi
  · exact same_skel_trans (read_keymap_lines_same_skel E _ _ hok) ⟨rfl, rfl⟩

theorem key_line_clean (E : Env) (k : Nat) (nm : List Char) (hg : good_name E nm = true) :
    printf_x k ++ ' ' :: nm ≠ []
      ∧ ∀ c ∈ printf_x k ++ ' ' :: nm, isdelim c = false ∧ c ≠ '\x00' := by
  have hg := good_name_facts E _ hg
  obtain ⟨c, t, hp, hc, _⟩ := printf_x_cons k
  refine ⟨by rw [hp]; simp, ?_⟩
  intro x hx
  rcases List.mem_append.1 hx with h1 | h1
  · have := hexchar_facts x (hex_digits_hexchar 8 k x h1)
    exact ⟨this.2.1, this.2.2.1⟩
  · rcases List.mem_cons.1 h1 with h2 | h2
    · rw [h2]; exact ⟨by decide, by decide⟩
    · exact hg.1 x h2

theorem ext_line_clean (E : Env) (c : nh_cmd_desc) (hg : good_name E c.name = true) :
    ext_line E c ≠ [] ∧ ∀ x ∈ ext_line E c, isdelim x = false ∧ x ≠ '\x00' := by
  have hg := good_name_facts E _ hg
  unfold ext_line
  split
  · refine ⟨by simp, ?_⟩
    intro x hx
    rcases List.mem_append.1 hx with h1 | h1
    · have : x ∈ ['E', 'X', 'T', ' '] := h1
      simp only [List.mem_cons, List.mem_singleton, List.not_mem_nil, or_false] at this
      rcases this with e | e | e | e <;> rw [e] <;> exact ⟨by decide, by decide⟩
    · exact hg.1 x h1
  · refine ⟨by simp, ?_⟩
    intro x hx
    rcases List.mem_append.1 hx with h1 | h1
    · have : x ∈ ['N', 'O', 'E', 'X', 'T', ' '] := h1
      simp only [List.mem_cons, List.mem_singleton, List.not_mem_nil, or_false] at this
      rcases this with e | e | e | e | e | e <;> rw [e] <;> exact ⟨by decide, by decide⟩
    · exact hg.1 x h1

theorem ext_line_head (E : Env) (c : nh_cmd_desc) :
    (ext_line E c).head? = some 'E' ∨ (ext_line E c).head? = some 'N' := by
  unfold ext_line
  split
  · exact Or.inl rfl
  · exact Or.inr rfl

theorem mem_bound_lines (s : State) (n key : Nat) (l : List Char)
    (h : l ∈ bound_lines s n key) :
    ∃ k nm, key ≤ k ∧ k < key + n ∧ bound_name s k = some nm ∧ l = printf_x k ++ ' ' :: nm := by
  induction n generalizing key with
  | zero => simp [bound_lines] at h
  | succ n ih =>
    rw [bound_lines] at h
    rcases List.mem_append.1 h with h1 | h1
    · cases hb : bound_name s key with
      | none => rw [hb] at h1; cases h1
      | some nm =>
        rw [hb] at h1
        simp only [List.mem_singleton] at h1
        exact ⟨key, nm, Nat.le_refl _, by omega, hb, h1⟩
    · obtain ⟨k, nm, hk1, hk2, hk3, hk4⟩ := ih (key + 1) h1
      exact ⟨k, nm, by omega, by omega, hk3, hk4⟩

theorem bound_lines_mem (s : State) (n : Nat) :
    ∀ (key k : Nat) (nm : List Char), key ≤ k → k < key + n → bound_name s k = some nm →
      printf_x k ++ ' ' :: nm ∈ bound_lines s n key := by
  induction n with
  | zero => intro key k nm h1 h2; omega
  | succ n ih =>
    intro key k nm h1 h2 hb
    rw [bound_lines]
    by_cases e : k = key
    · rw [← e, hb]
      exact List.mem_append_left _ (List.mem_singleton.2 rfl)
    · exact List.mem_append_right _ (ih (key + 1) k nm (by omega) (by omega) hb)

theorem bound_line_head (s : State) (n key : Nat) (l : List Char)
    (h : l ∈ bound_lines s n key) : l.head? ≠ some 'E' ∧ l.head? ≠ some 'N' := by
  obtain ⟨k, nm, _, _, _, rfl⟩ := mem_bound_lines s n key l h
  obtain ⟨c, t, hp, hc, _⟩ := printf_x_cons k
  have hf := hexchar_facts c hc
  rw [hp]
  simp only [List.cons_append, List.head?_cons, ne_eq, Option.some.injEq]
  exact ⟨hf.2.2.2.2.2.2.2.1, hf.2.2.2.2.2.2.2.2⟩

theorem mem_take_get {α : Type} (l : List α) (n : Nat) (c : α) (h : c ∈ l.take n) :
    ∃ i, i < n ∧ l.get? i = some c := by
  obtain ⟨i, hi⟩ := List.mem_iff_get?.1 h
  rw [List.get?_eq_getElem?, List.getElem?_take] at hi
  split at hi
  · rename_i hlt
    exact ⟨i, hlt, by rw [List.get?_eq_getElem?]; exact hi⟩
  · cases hi

/-- The names of the two command arrays of a state over a good registry. -/
theorem registry_names_good (E : Env) (cmdlist : List nh_cmd_desc) (t : State)
    (hsk : same_skel t (load_state E cmdlist none)) (hreg : good_registry E cmdlist) :
    ((t.commandlist ++ t.builtins).map (fun c => c.name)).Nodup
      ∧ ∀ c ∈ t.commandlist ++ t.builtins, good_name E c.name = true := by
  have e1 : t.commandlist.map (fun c => c.name) = cmdlist.map (fun c => c.name) :=
    names_of_skel hsk.1
  have e2 : t.builtins.map (fun c => c.name) = (builtin_commands E).map (fun c => c.name) :=
    names_of_skel hsk.2
  refine ⟨?_, ?_⟩
  · rw [List.map_append, e1, e2, ← List.map_append]
    exact hreg.1
  · intro c hc
    have hmem : c.name ∈ (cmdlist ++ builtin_commands E).map (fun c => c.name) := by
      rw [List.map_append, ← e1, ← e2, ← List.map_append]
      exact List.mem_map.2 ⟨c, hc, rfl⟩
    obtain ⟨d, hd, hdn⟩ := List.mem_map.1 hmem
    rw [← hdn]
    exact hreg.2 d hd

/-- The name under which a key is bound after a load is good. -/
theorem loaded_bound_name (E : Env) (cmdlist : List nh_cmd_desc) (t : State)
    (hsk : same_skel t (load_state E cmdlist none)) (hreg : good_registry E cmdlist)
    (hl : loaded_ok (fun n => good_name E n = true) t) (k : Nat) (nm : List Char)
    (h : bound_name t k = some nm) : good_name E nm = true := by
  obtain ⟨a1, a2, a3, a4⟩ := hl
  unfold bound_name at h
  cases hk : t.keymap k with
  | some p =>
    rw [hk] at h
    simp only [Option.some.injEq] at h
    obtain ⟨c, hc, hn⟩ := name_of_mem t p (a1 k p hk)
    rw [← h, hn]
    exact (registry_names_good E cmdlist t hsk hreg).2 c hc
  | none =>
    rw [hk] at h
    cases hu : t.unknown_keymap k with
    | none => rw [hu] at h; cases h
    | some p =>
      rw [hu] at h
      simp only [Option.some.injEq] at h
      obtain ⟨i, hp, hi⟩ := a3 k p hu
      have hlen : i < t.unknown_commands.length := Nat.lt_of_lt_of_le hi a2
      have hget : t.unknown_commands.get? i = some (t.unknown_commands.get ⟨i, hlen⟩) :=
        List.get?_eq_get hlen
      have hn : t.name_of p = (t.unknown_commands.get ⟨i, hlen⟩).name := by
        rw [hp]
        unfold State.name_of State.deref
        simp only [hget]
      rw [← h, hn]
      exact a4 i _ hi hget

/-- The text of the keymap file after a load over a good registry, line by
line, and the lines that `strtok` returns for it. -/
theorem keymap_text_file_lines (E : Env) (cmdlist : List nh_cmd_desc) (t : State)
    (hsk : same_skel t (load_state E cmdlist none)) (hreg : good_registry E cmdlist)
    (hl : loaded_ok (fun n => good_name E n = true) t) :
    keymap_text E t = unlines (file_lines E t)
      ∧ strtok_lines (keymap_text E t) = file_lines E t := by
  have hb := loaded_bound_name E cmdlist t hsk hreg hl
  have hreg2 := registry_names_good E cmdlist t hsk hreg
  have hrec : ∀ c ∈ t.unknown_commands.take t.unknown_count, good_name E c.name = true := by
    intro c hc
    obtain ⟨i, hi, hg⟩ := mem_take_get _ _ c hc
    exact hl.2.2.2 i c hi hg
  have htext : keymap_text E t = unlines (file_lines E t) := by
    unfold keymap_text file_lines
    rw [write_keymap_keys_bound E t E.KEY_MAX 1, write_keymap_exts_eq E t.commandlist,
      write_keymap_exts_eq E (t.unknown_commands.take t.unknown_count), List.map_append,
      unlines_append, unlines_append, List.append_assoc]
    · intro c hc
      exact (good_name_facts E _ (hrec c hc)).2.2
    · intro c hc
      exact (good_name_facts E _ (hreg2.2 c (List.mem_append_left _ hc))).2.2
    · intro k _ _ nm hnm
      have hg := hb k nm hnm
      have := (good_name_facts E _ hg).2.2
      exact ⟨good_name_ne_dash E nm hg, by omega⟩
  refine ⟨htext, ?_⟩
  rw [htext]
  apply strtok_lines_unlines
  intro l hlm
  unfold file_lines at hlm
  rcases List.mem_append.1 hlm with h | h
  · obtain ⟨k, nm, _, _, hnm, rfl⟩ := mem_bound_lines t _ _ l h
    exact key_line_clean E k nm (hb k nm hnm)
  · obtain ⟨c, hc, rfl⟩ := List.mem_map.1 h
    rcases List.mem_append.1 hc with h1 | h1
    · exact ext_line_clean E c (hreg2.2 c (List.mem_append_left _ h1))
    · exact ext_line_clean E c (hrec c h1)

/-- Every line of the file written after a load is read without failure. -/
theorem file_lines_nextline (E : Env) (cmdlist : List nh_cmd_desc) (s : State)
    (hsk : same_skel s (load_state E cmdlist none)) (hreg : good_registry E cmdlist)
    (hl : loaded_ok (fun n => good_name E n = true) s)
    (hE1 : E.KEY_MAX < 2 ^ 31) (hE2 : 32 ≤ E.LONG_BIT) :
    ∀ l ∈ file_lines E s, ∀ t, ∃ t1, read_keymap_line E t l = .nextline t1 := by
  intro l hlm t
  unfold file_lines at hlm
  rcases List.mem_append.1 hlm with h | h
  · obtain ⟨k, nm, hk1, hk2, hnm, rfl⟩ := mem_bound_lines s _ _ l h
    exact key_line_nextline E k nm hk1 (by omega) hE1 hE2
      (good_name_facts E _ (loaded_bound_name E cmdlist s hsk hreg hl k nm hnm)).2.1 t
  · obtain ⟨c, hc, rfl⟩ := List.mem_map.1 h
    have hg : good_name E c.name = true := by
      rcases List.mem_append.1 hc with h1 | h1
      · exact (registry_names_good E cmdlist s hsk hreg).2 c (List.mem_append_left _ h1)
      · obtain ⟨i, hi, hget⟩ := mem_take_get _ _ c h1
        exact hl.2.2.2 i c hi hget
    exact ext_line_nextline E c (good_name_facts E _ hg).2.1 t

/-- The load of the file written after a load: it succeeds, the tables are in
order again, and there is one record of an unknown command for every line of
the file whose command the registry does not have. -/
theorem reload_unknown_count (E : Env) (cmdlist : List nh_cmd_desc) (s : State)
    (hsk : same_skel s (load_state E cmdlist none)) (hreg : good_registry E cmdlist)
    (hl : loaded_ok (fun n => good_name E n = true) s)
    (hE1 : E.KEY_MAX < 2 ^ 31) (hE2 : 32 ≤ E.LONG_BIT) (hE3 : E.NAMESZ + 16 ≤ E.BUFSZ) :
    (load_keymap E cmdlist (some (keymap_text E s))).1 = true
      ∧ loaded_ok (fun n => good_name E n = true)
          (load_keymap E cmdlist (some (keymap_text E s))).2
      ∧ same_skel (load_keymap E cmdlist (some (keymap_text E s))).2 (load_state E cmdlist none)
      ∧ (load_keymap E cmdlist (some (keymap_text E s))).2.unknown_count
          = (file_lines E s).countP
              (fun l => (find_command (load_state E cmdlist none) (second_word l)).isNone) := by
  obtain ⟨_, hL⟩ := keymap_text_file_lines E cmdlist s hsk hreg hl
  have hok : (load_keymap E cmdlist (some (keymap_text E s))).1 = true := by
    rw [load_keymap_eq, hL]
    exact read_keymap_lines_ok E _ (file_lines_nextline E cmdlist s hsk hreg hl hE1 hE2) _
  obtain ⟨h1, h2⟩ := load_keymap_loaded E (fun n => good_name E n = true) cmdlist
    (keymap_text E s)
    (fun l hlm hd => record_name_good E l hE3 (strtok_lines_chars _ l hlm) hd) hok
  refine ⟨hok, h1, h2, ?_⟩
  rw [load_keymap_eq] at hok ⊢
  rw [read_keymap_lines_count E _ _ hok, hL]
  have hfc : (fun l => (find_command
        { init_keymap E (load_state E cmdlist (some (keymap_text E s))) with
          unknown_count := 0, unknown_keymap := fun _ => none } (second_word l)).isNone)
      = (fun l => (find_command (load_state E cmdlist none) (second_word l)).isNone) := by
    funext x
    exact congrArg Option.isNone (find_command_congr ⟨rfl, rfl⟩ _)
  rw [hfc]
  exact Nat.zero_add _

/-- Two states after a load whose files are equal have the same number of
records of unknown commands. -/
theorem equal_text_equal_count (E : Env) (cmdlist : List nh_cmd_desc) (s1 s2 : State)
    (hreg : good_registry E cmdlist)
    (hsk1 : same_skel s1 (load_state E cmdlist none))
    (hl1 : loaded_ok (fun n => good_name E n = true) s1)
    (hsk2 : same_skel s2 (load_state E cmdlist none))
    (hl2 : loaded_ok (fun n => good_name E n = true) s2)
    (h : keymap_text E s2 = keymap_text E s1) : s2.unknown_count = s1.unknown_count := by
  obtain ⟨_, hL1⟩ := keymap_text_file_lines E cmdlist s1 hsk1 hreg hl1
  obtain ⟨_, hL2⟩ := keymap_text_file_lines E cmdlist s2 hsk2 hreg hl2
  have e : file_lines E s2 = file_lines E s1 := by rw [← hL1, ← hL2, h]
  unfold file_lines at e
  have hB : ∀ b ∈ (fun s : State =>
      (s.commandlist ++ s.unknown_commands.take s.unknown_count).map (ext_line E)) s1,
      ¬ (b.head? ≠ some 'E' ∧ b.head? ≠ some 'N') := by
    intro b hb hp
    obtain ⟨c, _, rfl⟩ := List.mem_map.1 hb
    rcases ext_line_head E c with e1 | e1
    · exact hp.1 e1
    · exact hp.2 e1
  have hB2 : ∀ b ∈ (fun s : State =>
      (s.commandlist ++ s.unknown_commands.take s.unknown_count).map (ext_line E)) s2,
      ¬ (b.head? ≠ some 'E' ∧ b.head? ≠ some 'N') := by
    intro b hb hp
    obtain ⟨c, _, rfl⟩ := List.mem_map.1 hb
    rcases ext_line_head E c with e1 | e1
    · exact hp.1 e1
    · exact hp.2 e1
  obtain ⟨_, e2⟩ := append_split_by (fun l : List Char => l.head? ≠ some 'E' ∧ l.head? ≠ some 'N')
    _ _ _ _ (fun a ha => bound_line_head s2 _ _ a ha) (fun a ha => bound_line_head s1 _ _ a ha)
    hB2 hB e
  have e3 := congrArg List.length e2
  simp only [List.length_map, List.length_append, List.length_take] at e3
  have c1 : s1.commandlist.length = s2.commandlist.length :=
    length_of_skel (hsk1.1.trans hsk2.1.symm)
  have u1 : s1.unknown_count ≤ s1.unknown_commands.length := hl1.2.1
  have u2 : s2.unknown_count ≤ s2.unknown_commands.length := hl2.2.1
  rw [Nat.min_eq_left u1, Nat.min_eq_left u2] at e3
  omega

set_option maxRecDepth 100000 in
/-- C29 at the file `78 foo`, whose command `foo` the registry does not have:
the load succeeds with one record of an unknown command, and the file written
then has the lines `78 foo` and `NOEXT foo`. The load of that file succeeds and
makes a record for each of the two lines, not looking for the record that the
name already has, and the file written after it is another one. -/
theorem reload_of_unknown_binding_grows :
    good_registry demoEnv demoCommands
    ∧ (load_keymap demoEnv demoCommands (some unknownBindingFile)).1 = true
    ∧ (load_keymap demoEnv demoCommands (some unknownBindingFile)).2.unknown_count = 1
    ∧ (load_keymap demoEnv demoCommands (some (keymap_text demoEnv
        (load_keymap demoEnv demoCommands (some unknownBindingFile)).2))).1 = true
    ∧ 2 ≤ (load_keymap demoEnv demoCommands (some (keymap_text demoEnv
        (load_keymap demoEnv demoCommands (some unknownBindingFile)).2))).2.unknown_count
    ∧ keymap_text demoEnv (load_keymap demoEnv demoCommands (some (keymap_text demoEnv
        (load_keymap demoEnv demoCommands (some unknownBindingFile)).2))).2
        ≠ keymap_text demoEnv (load_keymap demoEnv demoCommands (some unknownBindingFile)).2 := by
  have hreg : good_registry demoEnv demoCommands := by decide
  have hok1 : (load_keymap demoEnv demoCommands (some unknownBindingFile)).1 = true := by decide
  have hc1 : (load_keymap demoEnv demoCommands (some unknownBindingFile)).2.unknown_count = 1 := by
    decide
  obtain ⟨hl1, hsk1⟩ := load_keymap_loaded demoEnv (fun n => good_name demoEnv n = true)
    demoCommands unknownBindingFile
    (fun l hlm hd => record_name_good demoEnv l (by decide) (strtok_lines_chars _ l hlm) hd) hok1
  obtain ⟨hok2, hl2, hsk2, hc2⟩ := reload_unknown_count demoEnv demoCommands _ hsk1 hreg hl1
    (by decide) (by decide) (by decide)
  have hbn : bound_name (load_keymap demoEnv demoCommands (some unknownBindingFile)).2 0x78
      = some "foo".toList := by decide
  have hm1 := bound_lines_mem (load_keymap demoEnv demoCommands (some unknownBindingFile)).2
    demoEnv.KEY_MAX 1 0x78 "foo".toList (by decide) (by decide) hbn
  have hp1 : 0 < (bound_lines (load_keymap demoEnv demoCommands (some unknownBindingFile)).2
      demoEnv.KEY_MAX 1).countP
        (fun l => (find_command (load_state demoEnv demoCommands none) (second_word l)).isNone) :=
    List.countP_pos_iff.2 ⟨_, hm1, by decide⟩
  have hp2 : 0 < (((load_keymap demoEnv demoCommands (some unknownBindingFile)).2.commandlist
      ++ (load_keymap demoEnv demoCommands (some unknownBindingFile)).2.unknown_commands.take
          (load_keymap demoEnv demoCommands (some unknownBindingFile)).2.unknown_count).map
        (ext_line demoEnv)).countP
        (fun l => (find_command (load_state demoEnv demoCommands none) (second_word l)).isNone) :=
    List.countP_pos_iff.2 ⟨"NOEXT foo".toList, by decide, by decide⟩
  have hge : 2 ≤ (load_keymap demoEnv demoCommands (some (keymap_text demoEnv
      (load_keymap demoEnv demoCommands (some unknownBindingFile)).2))).2.unknown_count := by
    rw [hc2]
    unfold file_lines
    rw [List.countP_append]
    omega
  refine ⟨hreg, hok1, hc1, hok2, hge, ?_⟩
  intro h
  have := equal_text_equal_count demoEnv demoCommands _ _ hreg hsk1 hl1 hsk2 hl2 h
  omega

theorem or_and_self_flag (x m : Nat) : (x ||| m) &&& m = m := by
  apply Nat.eq_of_testBit_eq
  intro i
  simp only [Nat.testBit_and, Nat.testBit_or]
  cases x.testBit i <;> cases m.testBit i <;> rfl

theorem and_not32_and_self (x m : Nat) (hm : m < 2 ^ 32) : and_not32 x m &&& m = 0 := by
  apply Nat.eq_of_testBit_eq
  intro i
  unfold and_not32
  have e : (0xffffffff : Nat) = 2 ^ 32 - 1 := by decide
  simp only [Nat.testBit_and, Nat.testBit_xor, Nat.zero_testBit, e, Nat.testBit_two_pow_sub_one]
  by_cases hi : i < 32
  · simp only [hi, decide_True]
    cases x.testBit i <;> cases m.testBit i <;> rfl
  · have hmi : m.testBit i = false := by
      apply Nat.testBit_lt_two_pow
      exact Nat.lt_of_lt_of_le hm (Nat.pow_le_pow_right (by decide) (by omega))
    rw [hmi]
    simp

/-- An `EXT` or `NOEXT` line for a command that `find_command` finds leaves the
flag `CMD_EXT` of that command as the line says. -/
theorem read_keymap_line_ext_bit (E : Env) (t : State) (c : nh_cmd_desc) (p : cmd_ptr)
    (hn : ∀ x, c.name.head? = some x → x ≠ '-' ∧ isspace x = false)
    (hf : find_command t c.name = some p) (hE : E.CMD_EXT < 2 ^ 32) :
    ∃ f, read_keymap_line E t (ext_line E c) = .nextline (t.set_flags p f)
      ∧ ∀ x, (f x &&& E.CMD_EXT ≠ 0 ↔ c.flags &&& E.CMD_EXT ≠ 0) := by
  obtain ⟨hw, _⟩ := ext_line_facts E c hn
  have hr : resolve_cmd E t c.name = (t, some p, false) := by
    unfold resolve_cmd
    rw [hf]
  have hd : ¬ c.name.head? = some '-' := fun h => (hn '-' h).1 rfl
  unfold read_keymap_line
  rw [hw, if_neg hd, hr]
  by_cases hc : c.flags &&& E.CMD_EXT ≠ 0
  · have hx : ext_line E c = 'E' :: 'X' :: 'T' :: ' ' :: c.name := by
      unfold ext_line
      rw [if_pos hc]
      rfl
    refine ⟨fun f => f ||| E.CMD_EXT, ?_, ?_⟩
    · rw [hx]
      unfold apply_line
      simp
    · intro x
      rw [or_and_self_flag]
      constructor
      · intro _; exact hc
      · intro _ h0
        rw [h0, Nat.and_zero] at hc
        exact hc rfl
  · have hx : ext_line E c = 'N' :: 'O' :: 'E' :: 'X' :: 'T' :: ' ' :: c.name := by
      unfold ext_line
      rw [if_neg hc]
      rfl
    refine ⟨fun f => and_not32 f E.CMD_EXT, ?_, ?_⟩
    · rw [hx]
      unfold apply_line
      simp
    · intro x
      rw [and_not32_and_self x _ hE]
      constructor
      · intro h; exact absurd rfl h
      · intro h; exact absurd h hc

/-- The lines `EXT` and `NOEXT` of the commands `todo` of a state `s`, read in
a state with the same commands up to the flags, when the commands before them,
`done`, already have the flag `CMD_EXT` as in `s`. -/
theorem read_ext_lines_bits (E : Env) (s : State)
    (hnd : (s.commandlist.map (fun c => c.name)).Nodup)
    (hgood : ∀ c ∈ s.commandlist, good_name E c.name = true) (hE : E.CMD_EXT < 2 ^ 32)
    (todo : List nh_cmd_desc) :
    ∀ (done : List nh_cmd_desc) (t : State), s.commandlist = done ++ todo → same_skel t s →
      (∀ (i : Nat) (c : nh_cmd_desc), done[i]? = some c → ∃ c2, t.commandlist[i]? = some c2
        ∧ (c2.flags &&& E.CMD_EXT ≠ 0 ↔ c.flags &&& E.CMD_EXT ≠ 0)) →
      ∃ t2, read_keymap_lines E (todo.map (ext_line E)) t = (true, t2) ∧ same_skel t2 s
        ∧ t2.keymap = t.keymap
        ∧ ∀ (i : Nat) (c : nh_cmd_desc), s.commandlist[i]? = some c →
            ∃ c2, t2.commandlist[i]? = some c2
              ∧ (c2.flags &&& E.CMD_EXT ≠ 0 ↔ c.flags &&& E.CMD_EXT ≠ 0) := by
  induction todo with
  | nil =>
    intro done t hs hsk hdone
    rw [List.append_nil] at hs
    refine ⟨t, rfl, hsk, rfl, ?_⟩
    rw [hs]
    exact hdone
  | cons c cs ih =>
    intro done t hs hsk hdone
    have hsplit : done ++ c :: cs = (done ++ [c]) ++ cs := by simp
    have hc : s.commandlist[done.length]? = some c := by
      rw [hs, List.getElem?_append_right (Nat.le_refl _), Nat.sub_self]
      exact List.getElem?_cons_zero
    have hmem : c ∈ s.commandlist := by
      rw [hs]; exact List.mem_append_right _ (List.mem_cons_self _ _)
    obtain ⟨c2, hc2, hsk2⟩ := skel_getElem hsk.1 done.length c hc
    have hfi := find_index_of_get 0 hnd (by rw [List.get?_eq_getElem?]; exact hc)
    rw [Nat.zero_add] at hfi
    have hfind : find_command t c.name = some (.dyn done.length) := by
      rw [find_command_congr hsk]
      unfold find_command
      rw [hfi]
    obtain ⟨f, hline, hbit⟩ := read_keymap_line_ext_bit E t c _
      (good_name_facts E _ (hgood c hmem)).2.1 hfind hE
    obtain ⟨t2, r1, r2, r3, r4⟩ := ih (done ++ [c]) (t.set_flags (.dyn done.length) f)
      (by rw [hs, hsplit]) (same_skel_trans (set_flags_same_skel t _ f) hsk)
      (by
        intro i d hd
        show ∃ c3, (mod_flags f done.length t.commandlist)[i]? = some c3 ∧ _
        rw [mod_flags_getElem]
        by_cases hi : i = done.length
        · subst hi
          rw [if_pos rfl, hc2]
          simp only [List.getElem?_append_right (Nat.le_refl _), Nat.sub_self,
            List.getElem?_cons_zero, Option.some.injEq] at hd
          subst hd
          exact ⟨_, rfl, hbit _⟩
        · rw [if_neg hi]
          have hlt : i < done.length := by
            have := (List.getElem?_eq_some_iff.1 hd).1
            simp only [List.length_append, List.length_singleton] at this
            omega
          rw [List.getElem?_append_left hlt] at hd
          exact hdone i d hd)
    refine ⟨t2, ?_, r2, ?_, r4⟩
    · rw [List.map_cons, read_keymap_lines_cons_nextline E _ _ t _ hline]
      exact r1
    · rw [r3, set_flags_keymap]

theorem name_of_congr {t s : State} (h : same_skel t s) (p : cmd_ptr) (hv : valid_reg s p) :
    t.name_of p = s.name_of p := by
  cases p with
  | dyn i =>
    have hv2 : i < s.commandlist.length := hv
    obtain ⟨c2, hc2, hsk⟩ := skel_getElem h.1 i (s.commandlist[i]) (List.getElem?_eq_getElem hv2)
    unfold State.name_of State.deref
    simp only [List.get?_eq_getElem?, hc2, List.getElem?_eq_getElem hv2]
    exact congrArg Prod.fst hsk
  | builtin i =>
    have hv2 : i < s.builtins.length := hv
    obtain ⟨c2, hc2, hsk⟩ := skel_getElem h.2 i (s.builtins[i]) (List.getElem?_eq_getElem hv2)
    unfold State.name_of State.deref
    simp only [List.get?_eq_getElem?, hc2, List.getElem?_eq_getElem hv2]
    exact congrArg Prod.fst hsk
  | unknown i => cases hv

theorem write_keymap_keys_congr (E : Env) (s t : State) (n : Nat) :
    ∀ key, (∀ k, key ≤ k → k < key + n → key_name s k = key_name t k) →
      write_keymap_keys E s n key = write_keymap_keys E t n key := by
  induction n with
  | zero => intro key _; rfl
  | succ n ih =>
    intro key h
    rw [write_keymap_keys, write_keymap_keys, ih (key + 1) (fun k h1 h2 => h k (by omega) (by omega))]
    unfold write_keymap_key
    rw [h key (Nat.le_refl _) (by omega)]

theorem write_keymap_exts_congr (E : Env) :
    ∀ (l1 l2 : List nh_cmd_desc), l1.length = l2.length →
      (∀ (i : Nat) (c1 c2 : nh_cmd_desc), l1[i]? = some c1 → l2[i]? = some c2 →
        c1.name = c2.name ∧ (c1.flags &&& E.CMD_EXT ≠ 0 ↔ c2.flags &&& E.CMD_EXT ≠ 0)) →
      write_keymap_exts E l1 = write_keymap_exts E l2 := by
  intro l1
  induction l1 with
  | nil =>
    intro l2 hlen _
    cases l2 with
    | nil => rfl
    | cons a as => cases hlen
  | cons c cs ih =>
    intro l2 hlen h
    cases l2 with
    | nil => cases hlen
    | cons d ds =>
      obtain ⟨hn, hb⟩ := h 0 c d List.getElem?_cons_zero List.getElem?_cons_zero
      rw [write_keymap_exts, write_keymap_exts,
        ih ds (by simpa using hlen) (fun i c1 c2 h1 h2 =>
          h (i + 1) c1 c2 (by rw [List.getElem?_cons_succ]; exact h1)
            (by rw [List.getElem?_cons_succ]; exact h2))]
      unfold write_keymap_ext
      rw [hn]
      by_cases hc : c.flags &&& E.CMD_EXT ≠ 0
      · rw [if_pos hc, if_pos (hb.1 hc)]
      · rw [if_neg hc, if_neg (fun h2 => hc (hb.2 h2))]

/-- A line of the file unbinds no key. -/
theorem read_keymap_line_keeps_bound (E : Env) (t : State) (l : List Char) :
    (read_keymap_line E t l).holds (fun t1 => ∀ k, t1.keymap k = none → t.keymap k = none) := by
  unfold read_keymap_line
  split
  · trivial
  · obtain ⟨p, hp⟩ := resolve_cmd_some E t (second_word l)
    have hk := resolve_cmd_keymap E t (second_word l)
    rw [hp]
    apply apply_line_cases E _ p _ l
      (line_result.holds (fun t1 => ∀ k, t1.keymap k = none → t.keymap k = none))
    · intro _ k h
      rw [set_flags_keymap, hk] at h
      exact h
    · intro _ k h
      rw [set_flags_keymap, hk] at h
      exact h
    · intro _ k h
      rw [hk] at h
      exact h
    · intro _ k h
      rw [hk] at h
      exact h
    · intro k0 _ _ _ _ k h
      change kset _ k0 (some p) k = none at h
      unfold kset at h
      split at h
      · cases h
      · rw [hk] at h
        exact h
    · intro k0 _ _ _ _ k h
      change (resolve_cmd E t (second_word l)).1.keymap k = none at h
      rw [hk] at h
      exact h

/-- A key that is unbound after a successful load has no default binding. -/
theorem load_keymap_keeps_bound (E : Env) (cmdlist : List nh_cmd_desc) (data : List Char)
    (hok : (load_keymap E cmdlist (some data)).1 = true) (k : Nat)
    (h : (load_keymap E cmdlist (some data)).2.keymap k = none) :
    init_keymap_table E (load_state E cmdlist none) k = none := by
  rw [load_keymap_eq] at hok h
  have := read_keymap_lines_inv E
    (fun t => ∀ k, t.keymap k = none → init_keymap_table E (load_state E cmdlist none) k = none)
    _ (fun t l _ ht => ?_) _ ?_ hok k h
  · exact this
  · have h1 := read_keymap_line_keeps_bound E t l
    cases hr : read_keymap_line E t l with
    | nextline t1 =>
      rw [hr] at h1
      exact fun k hk => ht k (h1 k hk)
    | legacy => trivial
    | badmap t1 =>
      rw [hr] at h1
      exact fun k hk => ht k (h1 k hk)
  · intro k hk
    have e : init_keymap_table E (load_state E cmdlist (some data))
        = init_keymap_table E (load_state E cmdlist none) :=
      init_keymap_table_congr E ⟨rfl, rfl⟩
    rw [← e]
    exact hk

/-- Every line of the file of a saveable state names a command that
`find_command` finds. -/
theorem saved_lines_known (E : Env) (s t : State) (hs : saveable E s) (hsk : same_skel t s) :
    ∀ l ∈ key_lines s E.KEY_MAX 1 ++ s.commandlist.map (ext_line E),
      ¬ (find_command t (second_word l)).isNone = true := by
  intro l hl
  rcases List.mem_append.1 hl with h | h
  · obtain ⟨k, _, _, hne, rfl⟩ := mem_key_lines s _ _ l h
    have hg := good_name_facts E _ (key_name_good E s hs k hne)
    rw [second_word_key_line k _ (fun c hc => (hg.2.1 c hc).2)]
    cases hk : s.keymap k with
    | none => exact absurd (key_name_none s k hk (hs.2.2.2.1 k)) hne
    | some p =>
      rw [key_name_some s k p hk, find_command_congr hsk,
        find_command_name_of s p hs.1 (hs.2.2.1 k p hk)]
      simp
  · obtain ⟨c, hc, rfl⟩ := List.mem_map.1 h
    have hg := good_name_facts E _ (hs.2.1 c (List.mem_append_left _ hc))
    rw [(ext_line_facts E c hg.2.1).1, find_command_congr hsk]
    obtain ⟨j, hj⟩ := find_index_some_of_mem (l := s.commandlist) 0
      (List.mem_map.2 ⟨c, hc, rfl⟩)
    unfold find_command
    rw [hj]
    simp

/-- The file of a saveable state whose unbound keys have no default binding is
loaded without failure, and the file written after that load is the same. -/
theorem reload_saveable (E : Env) (cmdlist : List nh_cmd_desc) (s : State)
    (hs : saveable E s) (hsk : same_skel s (load_state E cmdlist none))
    (hdef : ∀ k, s.keymap k = none → init_keymap_table E (load_state E cmdlist none) k = none)
    (hE1 : E.KEY_MAX < 2 ^ 31) (hE2 : 32 ≤ E.LONG_BIT) (hE3 : E.CMD_EXT < 2 ^ 32) :
    (load_keymap E cmdlist (some (keymap_text E s))).1 = true
      ∧ keymap_text E (load_keymap E cmdlist (some (keymap_text E s))).2 = keymap_text E s := by
  have hL := strtok_lines_keymap_text E s hs
  have hsk0 : same_skel
      { init_keymap E (load_state E cmdlist (some (keymap_text E s))) with
        unknown_count := 0, unknown_keymap := fun _ => none } s :=
    same_skel_trans (b := load_state E cmdlist none) ⟨rfl, rfl⟩ (same_skel_symm hsk)
  obtain ⟨t2, hr2, hsk2, hkm2⟩ := read_key_lines E s hs hE1 hE2 E.KEY_MAX 1 _
    (s.commandlist.map (ext_line E)) hsk0 (Nat.le_refl 1) (by omega)
  have hnd : (s.commandlist.map (fun c => c.name)).Nodup := by
    have := hs.1
    rw [List.map_append] at this
    exact (List.nodup_append.1 this).1
  obtain ⟨t3, hr3, hsk3, hkm3, hbits⟩ := read_ext_lines_bits E s hnd
    (fun c hc => hs.2.1 c (List.mem_append_left _ hc)) hE3 s.commandlist [] t2 rfl hsk2
    (by intro i c h; simp at h)
  have hlk : load_keymap E cmdlist (some (keymap_text E s)) = (true, t3) := by
    rw [load_keymap_eq, hL, hr2, hr3]
  have hok2 : (load_keymap E cmdlist (some (keymap_text E s))).1 = true := by rw [hlk]
  obtain ⟨hl3, _⟩ := load_keymap_loaded E (fun _ => True) cmdlist _ (fun _ _ _ => trivial) hok2
  have hcnt : (load_keymap E cmdlist (some (keymap_text E s))).2.unknown_count = 0 := by
    rw [load_keymap_eq] at hok2 ⊢
    rw [read_keymap_lines_count E _ _ hok2, hL,
      List.countP_eq_zero.2 (saved_lines_known E s _ hs hsk0)]
  rw [hlk] at hl3 hcnt
  have hu3 : ∀ k, t3.unknown_keymap k = none := by
    intro k
    cases h : t3.unknown_keymap k with
    | none => rfl
    | some p =>
      obtain ⟨i, _, hi⟩ := hl3.2.2.1 k p h
      have hcnt2 : t3.unknown_count = 0 := hcnt
      omega
  refine ⟨hok2, ?_⟩
  rw [hlk]
  have hcnt2 : t3.unknown_count = 0 := hcnt
  unfold keymap_text
  rw [hcnt2, hs.2.2.2.2, List.take_zero, List.take_zero]
  have hkeys : write_keymap_keys E t3 E.KEY_MAX 1 = write_keymap_keys E s E.KEY_MAX 1 := by
    apply write_keymap_keys_congr
    intro k hk1 hk2
    have hk3 := hkm2 k
    rw [← hkm3] at hk3
    cases hk : s.keymap k with
    | none =>
      rw [hk] at hk3
      simp only [Option.isSome_none, Bool.false_eq_true, and_false, if_false] at hk3
      have e : init_keymap_table E (load_state E cmdlist (some (keymap_text E s)))
          = init_keymap_table E (load_state E cmdlist none) :=
        init_keymap_table_congr E ⟨rfl, rfl⟩
      have h0 : t3.keymap k = none := by
        rw [hk3]
        show init_keymap_table E (load_state E cmdlist (some (keymap_text E s))) k = none
        rw [e]
        exact hdef k hk
      rw [key_name_none t3 k h0 (hu3 k), key_name_none s k hk (hs.2.2.2.1 k)]
    | some p =>
      rw [hk] at hk3
      have hc : 1 ≤ k ∧ k < 1 + E.KEY_MAX ∧ (some p).isSome = true := ⟨hk1, hk2, rfl⟩
      rw [if_pos hc] at hk3
      rw [key_name_some t3 k p hk3, key_name_some s k p hk,
        name_of_congr hsk3 p (hs.2.2.1 k p hk)]
  have hexts : write_keymap_exts E t3.commandlist = write_keymap_exts E s.commandlist := by
    apply write_keymap_exts_congr E _ _ (length_of_skel hsk3.1)
    intro i c1 c2 h1 h2
    obtain ⟨c3, hc3, hb⟩ := hbits i c2 h2
    obtain ⟨c4, hc4, hskel⟩ := skel_getElem hsk3.1 i c2 h2
    rw [h1] at hc3 hc4
    injection hc3 with hc3
    injection hc4 with hc4
    rw [hc3]
    refine ⟨?_, hb⟩
    rw [← hc3, hc4]
    exact congrArg Prod.fst hskel
  rw [hkeys, hexts]

/-- Saving is stable under reloading for the files that name commands of the
registry only: let `f` be a file that `read_keymap` loads without failure over
a good registry from the defaults, and let every line of `f` name a command
that the registry has. Then the file `g` written after the load is loaded
without failure, and the file written after that load is `g` again. -/
theorem save_stable_without_unknown (E : Env) (cmdlist : List nh_cmd_desc) (f : List Char)
    (hE1 : E.KEY_MAX < 2 ^ 31) (hE2 : 32 ≤ E.LONG_BIT) (hE3 : E.CMD_EXT < 2 ^ 32)
    (hreg : good_registry E cmdlist)
    (hok : (load_keymap E cmdlist (some f)).1 = true)
    (hknown : ∀ l ∈ strtok_lines f,
      (find_command (load_state E cmdlist none) (second_word l)).isSome = true) :
    (load_keymap E cmdlist
        (some (keymap_text E (load_keymap E cmdlist (some f)).2))).1 = true
      ∧ keymap_text E (load_keymap E cmdlist
          (some (keymap_text E (load_keymap E cmdlist (some f)).2))).2
        = keymap_text E (load_keymap E cmdlist (some f)).2 := by
  obtain ⟨hl1, hsk1⟩ := load_keymap_loaded E (fun _ => True) cmdlist f (fun _ _ _ => trivial) hok
  have hnone : (load_keymap E cmdlist (some f)).2.unknown_count = 0 := by
    rw [load_keymap_eq] at hok ⊢
    rw [read_keymap_lines_count E _ _ hok]
    have hz : (strtok_lines f).countP (fun l => (find_command
        { init_keymap E (load_state E cmdlist (some f)) with
          unknown_count := 0, unknown_keymap := fun _ => none } (second_word l)).isNone) = 0 := by
      apply List.countP_eq_zero.2
      intro l hl hn
      have h1 := hknown l hl
      have e : find_command
          { init_keymap E (load_state E cmdlist (some f)) with
            unknown_count := 0, unknown_keymap := fun _ => none } (second_word l)
          = find_command (load_state E cmdlist none) (second_word l) :=
        find_command_congr ⟨rfl, rfl⟩ _
      rw [e] at hn
      cases hfc : find_command (load_state E cmdlist none) (second_word l) with
      | none => rw [hfc] at h1; cases h1
      | some p => rw [hfc] at hn; cases hn
    rw [hz]
  have hu : ∀ k, (load_keymap E cmdlist (some f)).2.unknown_keymap k = none := by
    intro k
    cases h : (load_keymap E cmdlist (some f)).2.unknown_keymap k with
    | none => rfl
    | some p =>
      obtain ⟨i, _, hi⟩ := hl1.2.2.1 k p h
      omega
  have hr := registry_names_good E cmdlist _ hsk1 hreg
  exact reload_saveable E cmdlist _ ⟨hr.1, hr.2, hl1.1, hu, hnone⟩ hsk1
    (fun k hk => load_keymap_keeps_bound E cmdlist f hok k hk) hE1 hE2 hE3

set_option maxRecDepth 100000 in
/-- The stability of saving for a file that binds the key `x` to `search`,
clears the flag of `pray` and sets that of the built-in command `east`. -/
theorem save_stable_without_unknown_witness :
    (load_keymap demoEnv demoCommands
        (some (keymap_text demoEnv (load_keymap demoEnv demoCommands (some knownFile)).2))).1
        = true
      ∧ keymap_text demoEnv (load_keymap demoEnv demoCommands
          (some (keymap_text demoEnv (load_keymap demoEnv demoCommands (some knownFile)).2))).2
        = keymap_text demoEnv (load_keymap demoEnv demoCommands (some knownFile)).2 :=
  save_stable_without_unknown demoEnv demoCommands knownFile (by decide) (by decide)
    (by decide) (by decide) (by decide) (by decide)

end Keymap
